import Mathlib

/-!
# gokopy: the copy, archive and extract engine of package `kopy`

A shallow embedding of `src/kopy/bak.go`.

* Go strings are modelled by their sequence of Unicode code points (`Str`); the
  strings the program handles are paths and patterns, taken to be valid UTF-8.
* Paths follow the Unix build of the program: the separator is the slash, so
  `filepath.FromSlash` and `filepath.ToSlash` are the identity and
  `filepath.Join` agrees with `path.Join`.
* The standard-library functions the program calls (`strings.Index`,
  `strings.TrimSpace`, `strings.Replace`, `path.Clean`, `path.Join`,
  `filepath.Dir`, `filepath.Walk`, `ioutil.ReadDir`) are modelled after their
  documented behaviour.
-/

namespace Gokopy

/-! ## Strings and paths (Go standard library) -/

/-- A Go string, as its sequence of Unicode code points. -/
abbrev Str := List Char

/-- Go `unicode.IsSpace`: the Unicode white-space code points. -/
def isSpace (c : Char) : Bool :=
  let n := c.toNat
  n == 0x09 || n == 0x0A || n == 0x0B || n == 0x0C || n == 0x0D || n == 0x20 ||
  n == 0x85 || n == 0xA0 || n == 0x1680 || (0x2000 ≤ n && n ≤ 0x200A) ||
  n == 0x2028 || n == 0x2029 || n == 0x202F || n == 0x205F || n == 0x3000

/-- Go `strings.TrimSpace`: leading and trailing white space removed. -/
def TrimSpace (s : Str) : Str :=
  ((s.dropWhile isSpace).reverse.dropWhile isSpace).reverse

/-- Go `strings.Index`: the offset of the first occurrence of `substr` in `s`,
or `-1` when there is none. Offsets count code points; the program only ever
compares the result with `-1`. -/
def Index : Str → Str → Int
  | [], substr => if substr.isPrefixOf [] then 0 else -1
  | c :: t, substr =>
    if substr.isPrefixOf (c :: t) then 0
    else
      let r := Index t substr
      if r = -1 then -1 else r + 1

/-- Go `strings.Contains`: `Index(s, substr) >= 0`. -/
def Contains (s substr : Str) : Bool :=
  decide (0 ≤ Index s substr)

/-- Replacement of an empty `old`: `new` is inserted before each code point and
after the last one, at most `limit` times in all. -/
def insertEach (new : Str) : Nat → Str → Str
  | 0, s => s
  | _ + 1, [] => new
  | k + 1, c :: t => new ++ c :: insertEach new k t

/-- Replacement of a non-empty `old`, scanning left to right without overlap:
`limit` is the number of replacements still allowed and `skip` the number of
code points of a matched occurrence still to be dropped. -/
def replaceScan (old new : Str) : Nat → Nat → Str → Str
  | _, _, [] => []
  | limit, skip + 1, _ :: t => replaceScan old new limit skip t
  | 0, 0, c :: t => c :: replaceScan old new 0 0 t
  | limit + 1, 0, c :: t =>
    if old.isPrefixOf (c :: t) then new ++ replaceScan old new limit (old.length - 1) t
    else c :: replaceScan old new (limit + 1) 0 t

/-- Go `strings.Replace(s, old, new, n)`: the first `n` non-overlapping
occurrences of `old` replaced by `new`, all of them when `n < 0`. -/
def Replace (s old new : Str) (n : Int) : Str :=
  if old = new ∨ n = 0 then s
  else
    let limit := if n < 0 then s.length + 1 else n.toNat
    if old = [] then insertEach new limit s else replaceScan old new limit 0 s

/-- The elements of a path between its slashes. -/
def splitSlash : Str → List Str
  | [] => [[]]
  | c :: t =>
    match splitSlash t with
    | [] => [[c]]
    | seg :: segs => if c = '/' then [] :: seg :: segs else (c :: seg) :: segs

/-- One element of `path.Clean`: `out` holds the elements kept so far, last
first. Empty and `.` elements are dropped; `..` removes the element before it,
is dropped at the root of a rooted path and is kept otherwise. -/
def cleanStep (rooted : Bool) (out : List Str) (seg : Str) : List Str :=
  if seg = [] ∨ seg = ['.'] then out
  else if seg = ['.', '.'] then
    match out with
    | top :: below => if top = ['.', '.'] then seg :: out else below
    | [] => if rooted then [] else [seg]
  else seg :: out

/-- Go `path.Clean` (and `filepath.Clean` on Unix): the shortest equivalent
path by lexical processing. -/
def Clean (path : Str) : Str :=
  if path = [] then ['.']
  else
    let rooted := path.head? == some '/'
    let body := List.intercalate ['/'] ((splitSlash path).foldl (cleanStep rooted) []).reverse
    if rooted then '/' :: body else if body = [] then ['.'] else body

/-- Go `path.Join` (and `filepath.Join` on Unix) of two elements: the non-empty
elements joined by a slash, then cleaned; empty when both are empty. -/
def Join (a b : Str) : Str :=
  if a = [] ∧ b = [] then []
  else if a = [] then Clean b
  else Clean (a ++ '/' :: b)

/-- Go `filepath.FromSlash`: the identity where the separator is the slash. -/
def FromSlash (path : Str) : Str := path

/-- Go `filepath.ToSlash`: the identity where the separator is the slash. -/
def ToSlash (path : Str) : Str := path

/-- Go `filepath.Dir` on Unix: everything up to the last slash, cleaned. -/
def Dir (path : Str) : Str :=
  Clean (path.reverse.dropWhile (fun c => c != '/')).reverse

/-! ## The exclusion test -/

/-- The `_continue` loop of `CopyDir`, `CompressDIR` and `WalkDIRModLatest`:
the flag starts false and every pattern of `ignoreFT` whose trimmed text has an
index in `path` sets it; the loop runs over the whole list. -/
def _continue (ignoreFT : List Str) (path : Str) : Bool :=
  ignoreFT.foldl
    (fun flag i => if Index path (TrimSpace i) ≠ -1 then true else flag) false

/-! ## The file system

A directory is given by its listing, in the order in which `ioutil.ReadDir`
and `filepath.Walk` return it (sorted by file name). Every entry carries the
outcome of the operating-system calls made on it: at most one of them fails.
The listing of a directory is what a function reads from it at the moment it
reads it: `CopyDir` reads the source after it has created the destination, so
when the destination lies inside the source the listing holds what the call
itself has put there. A statement about a source directory that the copy
leaves as it was carries the condition `apart`. Paths are compared as written;
links are outside the model, and so are permission bits and the time stamps of
written files. -/

/-- The call that fails while a regular file is handled, if any. -/
inductive FileFault where
  | noFault
  | headerFails
  | openFails
  | createFails
  | copyFails (written : Nat)
  | statFails
  | chmodFails
  deriving DecidableEq, Repr

/-- The call that fails while a directory is handled, if any. -/
inductive DirFault where
  | noFault
  | statFails
  | mkdirFails
  | listFails
  deriving DecidableEq, Repr

/-- The listing of a source directory: regular files with their bytes and
modification time (Unix seconds), and sub-directories with their own listing. -/
inductive Listing where
  | nil
  | file (name : Str) (data : List Nat) (mtime : Int) (fault : FileFault) (rest : Listing)
  | dir (name : Str) (fault : DirFault) (kids : Listing) (rest : Listing)
  deriving DecidableEq, Repr

/-- What a destination directory holds: files with their bytes and
sub-directories, in the order in which they were created. -/
inductive Tree where
  | nil
  | file (name : Str) (data : List Nat) (rest : Tree)
  | dir (name : Str) (kids : Tree) (rest : Tree)
  deriving DecidableEq, Repr

/-- A Go `error` value: the failed call and the path it was made on. -/
inductive Err where
  | stat (path : Str)
  | mkdir (path : Str)
  | readdir (path : Str)
  | openErr (path : Str)
  | create (path : Str)
  | copy (path : Str)
  | chmod (path : Str)
  | header (path : Str)
  | missedWriting
  deriving DecidableEq, Repr

/-- A change made to the file system, in program order. -/
inductive Effect where
  | mkdirAll (path : Str)
  | write (path : Str) (data : List Nat)
  deriving DecidableEq, Repr

/-- The package variables `NumFilesCopied` and `NumFoldersCopied`. -/
structure Counters where
  NumFilesCopied : Int
  NumFoldersCopied : Int
  deriving DecidableEq, Repr

/-- The declared initial values: `var NumFilesCopied int = 0` and
`var NumFoldersCopied int = 0`. -/
def Counters.initial : Counters := ⟨0, 0⟩

/-- The listing as a destination tree: names, structure and bytes. -/
def Listing.toTree : Listing → Tree
  | .nil => .nil
  | .file name data _ _ rest => .file name data rest.toTree
  | .dir name _ kids rest => .dir name kids.toTree rest.toTree

/-- Number of entries of a listing, at every depth (the root is not one). -/
def Listing.entries : Listing → Int
  | .nil => 0
  | .file _ _ _ _ rest => 1 + rest.entries
  | .dir _ _ kids rest => 1 + kids.entries + rest.entries

/-- No call on any entry of the listing fails. -/
def Listing.faultFree : Listing → Bool
  | .nil => true
  | .file _ _ _ fault rest => decide (fault = .noFault) && rest.faultFree
  | .dir _ fault kids rest => decide (fault = .noFault) && kids.faultFree && rest.faultFree

/-- The entries of a tree, each as the list of names leading to it. -/
def Tree.relPaths : Tree → List (List Str)
  | .nil => []
  | .file name _ rest => [name] :: rest.relPaths
  | .dir name kids rest => ([name] :: kids.relPaths.map (fun q => name :: q)) ++ rest.relPaths

/-- The entries of a listing, each as the list of names leading to it. -/
def Listing.relPaths : Listing → List (List Str)
  | .nil => []
  | .file name _ _ _ rest => [name] :: rest.relPaths
  | .dir name _ kids rest => ([name] :: kids.relPaths.map (fun q => name :: q)) ++ rest.relPaths

/-- The source path of the entry reached from `src` through `names`, as
`CopyDir` builds it: one `path.Join` per level. -/
def srcPath (src : Str) (names : List Str) : Str :=
  names.foldl Join src

/-! ## CopyFile and CopyDir -/

/-- Outcome of copying one file. -/
structure CopyOut where
  err : Option Err
  made : Option (List Nat)
  log : List Effect
  deriving DecidableEq, Repr

/-- The bytes `io.Copy` reads from `src` after `os.Create(dst)` has run: `os.Create`
truncates `dst`, so when `dst` names the file `src` itself (the same path once
cleaned) the source is empty by the time it is read. -/
def readAfterCreate (src dst : Str) (data : List Nat) : List Nat :=
  if Clean dst = Clean src then [] else data

/-- The function `CopyFile(src, dst, bareDst)`: open `src`, create the folder `bareDst`,
create `dst`, copy the bytes, stat `src`, chmod `dst`; the first failing call
returns its error. The bytes copied are those `src` holds once `dst` has been
created. `made` is the content of `dst` when it was created. -/
def CopyFile (src dst bareDst : Str) (data : List Nat) (fault : FileFault) : CopyOut :=
  let read := readAfterCreate src dst data
  match fault with
  | .openFails => ⟨some (.openErr src), none, []⟩
  | .createFails => ⟨some (.create dst), none, [.mkdirAll bareDst]⟩
  | .copyFails n =>
    ⟨some (.copy dst), some (read.take n), [.mkdirAll bareDst, .write dst (read.take n)]⟩
  | .statFails => ⟨some (.stat src), some read, [.mkdirAll bareDst, .write dst read]⟩
  | .chmodFails => ⟨some (.chmod dst), some read, [.mkdirAll bareDst, .write dst read]⟩
  | _ => ⟨none, some read, [.mkdirAll bareDst, .write dst read]⟩

/-- Outcome of a `CopyDir` call: what the destination directory holds when it
was created, the package counters, the returned error and the changes made. -/
structure DirOut where
  made : Option Tree
  st : Counters
  err : Option Err
  log : List Effect
  deriving DecidableEq, Repr

/-- Outcome of the `for _, fd := range fds` loop of `CopyDir`. -/
structure LoopOut where
  made : Tree
  st : Counters
  err : Option Err
  log : List Effect
  deriving DecidableEq, Repr

/-- The part of `CopyDir(src, dst)` around its loop: `os.Stat(src)`,
`os.MkdirAll(dst)` and `ioutil.ReadDir(src)` each return early on failure with
the counters as they are; otherwise the result is the loop's, given as `body`. -/
def copyDirAround (src dst : Str) (fault : DirFault) (st : Counters) (body : LoopOut) : DirOut :=
  match fault with
  | .statFails => ⟨none, st, some (.stat src), []⟩
  | .mkdirFails => ⟨none, st, some (.mkdir dst), []⟩
  | .listFails => ⟨some .nil, st, some (.readdir src), [.mkdirAll dst]⟩
  | .noFault => ⟨some body.made, body.st, body.err, .mkdirAll dst :: body.log⟩

/-- The loop of `CopyDir` over the listing `fds` of `src`. For every child the
source and destination paths are joined, the exclusion test is run on the
source path, and a child that is not excluded is copied: a directory by a
recursive `CopyDir`, a file by `CopyFile`. The result of each copy is assigned
to `err`; a success adds one to the folder or file counter, a failure is only
reported. `err` is the value of the variable on entry. -/
def copyChildren (ignoreFT : List Str) (src dst : Str) :
    Listing → Option Err → Counters → LoopOut
  | .nil, err, st => ⟨.nil, st, err, []⟩
  | .file name data _ fault rest, err, st =>
    let srcfp := Join src name
    let dstfp := Join dst name
    if _continue ignoreFT srcfp then copyChildren ignoreFT src dst rest err st
    else
      let c := CopyFile srcfp dstfp dst data fault
      let st1 : Counters :=
        if c.err = none then { st with NumFilesCopied := st.NumFilesCopied + 1 } else st
      let out := copyChildren ignoreFT src dst rest c.err st1
      { made := match c.made with
          | some d => .file name d out.made
          | none => out.made
        st := out.st
        err := out.err
        log := c.log ++ out.log }
  | .dir name fault kids rest, err, st =>
    let srcfp := Join src name
    let dstfp := Join dst name
    if _continue ignoreFT srcfp then copyChildren ignoreFT src dst rest err st
    else
      let sub := copyDirAround srcfp dstfp fault st (copyChildren ignoreFT srcfp dstfp kids none st)
      let st1 : Counters :=
        if sub.err = none then { sub.st with NumFoldersCopied := sub.st.NumFoldersCopied + 1 }
        else sub.st
      let out := copyChildren ignoreFT src dst rest sub.err st1
      { made := match sub.made with
          | some k => .dir name k out.made
          | none => out.made
        st := out.st
        err := out.err
        log := sub.log ++ out.log }

/-- The function `CopyDir(src, dst, isLogCopiedFile)` on a directory `src` with listing `fds`,
run with the package variables `ignoreFT` and `st`. It returns
`(NumFoldersCopied, NumFilesCopied, err)`: the two counters of `st` in the
result, and `err`. The listing `fds` is what `ioutil.ReadDir(src)` returns, after
`os.MkdirAll(dst)` has run, and the listing of each folder is what the recursive
call reads. Console and log output are not modelled, so the logging flag has
no counterpart. -/
def CopyDir (ignoreFT : List Str) (src dst : Str) (fault : DirFault) (fds : Listing)
    (st : Counters) : DirOut :=
  copyDirAround src dst fault st (copyChildren ignoreFT src dst fds none st)

/-- The listing without the entries the exclusion test of `CopyDir` excludes,
and without everything below an excluded directory. -/
def prune (ignoreFT : List Str) (src : Str) : Listing → Listing
  | .nil => .nil
  | .file name data mtime fault rest =>
    if _continue ignoreFT (Join src name) then prune ignoreFT src rest
    else .file name data mtime fault (prune ignoreFT src rest)
  | .dir name fault kids rest =>
    if _continue ignoreFT (Join src name) then prune ignoreFT src rest
    else .dir name fault (prune ignoreFT (Join src name) kids) (prune ignoreFT src rest)

/-! ## filepath.Walk -/

/-- The `os.FileInfo` that `filepath.Walk` hands to its function: a directory,
a regular file (with what the later calls on it will find), or nil when the
entry could not be examined. -/
inductive Info where
  | dir
  | file (data : List Nat) (mtime : Int) (fault : FileFault)
  | missing
  deriving DecidableEq, Repr

/-- One call of the function given to `filepath.Walk`. -/
structure Visit where
  path : Str
  info : Info
  deriving DecidableEq, Repr

/-- The visits below a directory `path`: every entry in listing order, a
directory before what it holds; each child path is `filepath.Join(path, name)`.
A directory that cannot be examined is visited with a nil info, one that cannot
be listed is visited alone. -/
def walkList (path : Str) : Listing → List Visit
  | .nil => []
  | .file name data mtime fault rest =>
    ⟨Join path name, .file data mtime fault⟩ :: walkList path rest
  | .dir name fault kids rest =>
    (match fault with
      | .statFails => [⟨Join path name, .missing⟩]
      | .listFails => [⟨Join path name, .dir⟩]
      | _ => ⟨Join path name, .dir⟩ :: walkList (Join path name) kids) ++ walkList path rest

/-- The visits of `filepath.Walk(root, fn)` when `fn` never returns an error:
the root first, under the name it was given, then everything below it. -/
def Walk (root : Str) (fault : DirFault) (fds : Listing) : List Visit :=
  match fault with
  | .statFails => [⟨root, .missing⟩]
  | .listFails => [⟨root, .dir⟩]
  | _ => ⟨root, .dir⟩ :: walkList root fds

/-! ## DIRCopyFiles and WalkDIRModLatest -/

/-- The function `DIRCopyFiles(src, dst)`: open `src`, create `dst`, copy the bytes, stat
`src`, chmod `dst`; the first failing call returns its error. The bytes copied
are those `src` holds once `dst` has been created. -/
def DIRCopyFiles (src dst : Str) (data : List Nat) (fault : FileFault) : CopyOut :=
  let read := readAfterCreate src dst data
  match fault with
  | .openFails => ⟨some (.openErr src), none, []⟩
  | .createFails => ⟨some (.create dst), none, []⟩
  | .copyFails n => ⟨some (.copy dst), some (read.take n), [.write dst (read.take n)]⟩
  | .statFails => ⟨some (.stat src), some read, [.write dst read]⟩
  | .chmodFails => ⟨some (.chmod dst), some read, [.write dst read]⟩
  | _ => ⟨none, some read, [.write dst read]⟩

/-- A regular file collected by the walk of `WalkDIRModLatest`: its path, and
what `os.Stat` and the copy will find. -/
structure FileRec where
  path : Str
  data : List Nat
  mtime : Int
  fault : FileFault
  deriving DecidableEq, Repr

/-- What the walk of `WalkDIRModLatest` collects; `panicked` when the function
dereferenced a nil info. -/
structure Collected where
  folders : List Str
  files : List FileRec
  panicked : Bool
  deriving DecidableEq, Repr

/-- The function `WalkDIRModLatest` gives to `filepath.Walk`, over all visits:
an entry that passes the exclusion test goes to `folders` when it is a
directory and to `files` otherwise. `info.IsDir()` on a nil info ends the run.
The Go map `folders` is kept as a list in walk order. -/
def collect (ignoreFT : List Str) : List Visit → Collected
  | [] => ⟨[], [], false⟩
  | v :: vs =>
    if _continue ignoreFT v.path then collect ignoreFT vs
    else
      match v.info with
      | .missing => ⟨[], [], true⟩
      | .dir =>
        let c := collect ignoreFT vs
        { c with folders := v.path :: c.folders }
      | .file data mtime fault =>
        let c := collect ignoreFT vs
        { c with files := ⟨v.path, data, mtime, fault⟩ :: c.files }

/-- A whole number as a Go `int64`: arithmetic on `int64` wraps around modulo
`2 ^ 64` into the range from `-2 ^ 63` to `2 ^ 63 - 1`. -/
def wrapInt64 (x : Int) : Int :=
  (x + 2 ^ 63) % 2 ^ 64 - 2 ^ 63

/-- Whether a whole number lies in the range of a Go `int64`. -/
def fitsInt64 (x : Int) : Bool :=
  decide (-2 ^ 63 ≤ x) && decide (x < 2 ^ 63)

/-- The value of `time.Now().AddDate(0, 0, modDays).Unix()` for a clock reading `now` (Unix
seconds). `AddDate` keeps the reading of the local wall clock and moves the
calendar date by `modDays` days, so the result lies `86400 * modDays` seconds
from `now` plus `shift`, the number of seconds by which the offset of the local
clock from UTC at `now` exceeds the offset in force at the resulting date (0
in a location without clock changes, 3600 or -3600 across a daylight-saving
change). The second count is an `int64` and wraps around. -/
def startTimeOf (now modDays shift : Int) : Int :=
  wrapInt64 (now + 86400 * modDays + shift)

/-- The test `fModTime >= startTime && fModTime <= endTime`. -/
def inWindow (startTime endTime fModTime : Int) : Bool :=
  decide (fModTime ≥ startTime) && decide (fModTime ≤ endTime)

/-- Outcome of `WalkDIRModLatest`: the changes made, the files handed to
`DIRCopyFiles`, the package counters, the returned error, and whether the run
ended in a panic. -/
structure WalkOut where
  log : List Effect
  copied : List FileRec
  st : Counters
  err : Option Err
  panicked : Bool
  deriving DecidableEq, Repr

/-- The first loop of `WalkDIRModLatest`: one `os.MkdirAll` per collected
folder, at the folder path with `src` replaced by `dst`. -/
def makeFolders (src dst : Str) (folders : List Str) : List Effect :=
  folders.map (fun p => .mkdirAll (FromSlash (Replace (FromSlash p) src dst (-1))))

/-- The second loop of `WalkDIRModLatest`: every collected file is examined
again with `os.Stat`; its modification time is read from the result (a failed
stat leaves a nil result and the read ends the run); a file in the window is
copied by `DIRCopyFiles` to its path with `src` replaced by `dst`, and a
successful copy adds one to `NumFilesCopied`. -/
def copyModified (src dst : Str) (startTime endTime : Int) :
    List FileRec → Option Err → Counters → WalkOut
  | [], err, st => ⟨[], [], st, err, false⟩
  | f :: fs, err, st =>
    if f.fault = .statFails then ⟨[], [], st, err, true⟩
    else if inWindow startTime endTime f.mtime then
      let srcFile := FromSlash f.path
      let dstBareDir := FromSlash (Replace srcFile (FromSlash src) (FromSlash dst) (-1))
      let c := DIRCopyFiles srcFile dstBareDir f.data f.fault
      let st1 : Counters :=
        if c.err = none then { st with NumFilesCopied := st.NumFilesCopied + 1 } else st
      let out := copyModified src dst startTime endTime fs c.err st1
      { out with log := c.log ++ out.log, copied := f :: out.copied }
    else copyModified src dst startTime endTime fs err st

/-- The function `WalkDIRModLatest(src, dst, modDays, logCopiedFile)` on a directory `src`
with listing `fds`, run with the package variables `ignoreFT` and `st`; `now0`
and `now1` are the two readings of the clock, for `startTime` and `endTime`,
and `shift` is the change of the local clock met by `AddDate`. -/
def WalkDIRModLatest (ignoreFT : List Str) (src dst : Str) (modDays : Int)
    (now0 now1 shift : Int) (fault : DirFault) (fds : Listing) (st : Counters) : WalkOut :=
  let startTime := startTimeOf now0 modDays shift
  let endTime := now1
  let c := collect ignoreFT (Walk src fault fds)
  if c.panicked then ⟨[.mkdirAll dst], [], st, none, true⟩
  else
    let out := copyModified src dst startTime endTime c.files none st
    { out with log := .mkdirAll dst :: makeFolders src dst c.folders ++ out.log }

/-- The content of the file at `path` after one more change. -/
def fileStep (path : Str) (cur : Option (List Nat)) : Effect → Option (List Nat)
  | .write p d => if p = path then some d else cur
  | .mkdirAll _ => cur

/-- The content of the file at `path` after the changes of `log`: that of the
last write to it. -/
def fileAt (log : List Effect) (path : Str) : Option (List Nat) :=
  log.foldl (fileStep path) none

/-! ## Archives

An archive is modelled by the sequence of entries written to it: the encoders
and decoders of `archive/tar`, `archive/zip` and `compress/gzip` are taken to
return the entries that were written, in order. -/

/-- The constant `ComFileFormat`, the extension of a compressed directory. -/
def ComFileFormat : Str := ['.', 't', 'a', 'r', '.', 'g', 'z']

/-- The constant `ComSingleFileFormat`, the extension of a compressed file. -/
def ComSingleFileFormat : Str := ['.', 'z', 'i', 'p']

/-- The type flag of a tar header. -/
inductive Typeflag where
  | TypeDir
  | TypeReg
  | other
  deriving DecidableEq, Repr

/-- One entry of a tar archive: the stored name, the type, and the bytes that
follow the header. -/
structure TarEntry where
  name : Str
  typeflag : Typeflag
  data : List Nat
  deriving DecidableEq, Repr

/-- Outcome of `CompressDIR`: the entries written and the returned error. -/
structure TarOut where
  entries : List TarEntry
  err : Option Err
  deriving DecidableEq, Repr

/-- The function `CompressDIR` gives to `filepath.Walk`, over the visits, and
the closing of the tar writer after the walk. For every visit the header is
built first (`tar.FileInfoHeader`, which fails on a nil info); then the
exclusion test is run, and an entry that passes is written under its path with
forward slashes, a regular file followed by its bytes. An error returned by
the function ends the walk; the value `filepath.Walk` returns is not looked at.
Closing the writer fails when the last header announced more bytes than were
written. -/
def tarVisits (ignoreFT : List Str) : List Visit → TarOut
  | [] => ⟨[], none⟩
  | v :: vs =>
    match v.info with
    | .missing => ⟨[], none⟩
    | .dir =>
      if _continue ignoreFT v.path then tarVisits ignoreFT vs
      else
        let out := tarVisits ignoreFT vs
        { out with entries := ⟨ToSlash v.path, .TypeDir, []⟩ :: out.entries }
    | .file data _ fault =>
      if fault = .headerFails then ⟨[], none⟩
      else if _continue ignoreFT v.path then tarVisits ignoreFT vs
      else
        match fault with
        | .openFails =>
          ⟨[⟨ToSlash v.path, .TypeReg, []⟩], if data = [] then none else some .missedWriting⟩
        | .copyFails n =>
          ⟨[⟨ToSlash v.path, .TypeReg, data.take n⟩],
            if n < data.length then some .missedWriting else none⟩
        | _ =>
          let out := tarVisits ignoreFT vs
          { out with entries := ⟨ToSlash v.path, .TypeReg, data⟩ :: out.entries }

/-- The function `CompressDIR(src, buf, ignoreFT)` on a directory `src` with listing `fds`:
the archive written to `buf` and the returned error. -/
def CompressDIR (src : Str) (fault : DirFault) (fds : Listing) (ignoreFT : List Str) : TarOut :=
  tarVisits ignoreFT (Walk src fault fds)

/-- The extraction root of `ExtractTarGz` and `Unzip`: empty unless the archive
path contains the extension, and then the path with the extension replaced by
nothing (`strings.Replace` with `n = -1`). -/
def fnExtractOf (src format : Str) : Str :=
  if Contains src format then Replace src format [] (-1) else []

/-- The rewrite of a stored path in `ExtractTarGz` and `Unzip`: empty unless
the path contains `root`, and then the path with `root` replaced by
`fnExtract` (`strings.Replace` with `n = -1`). -/
def extractFileTo (folderPath root fnExtract : Str) : Str :=
  if Contains folderPath root then Replace folderPath root fnExtract (-1) else []

/-- Whether a directory or a file can be created at `path`: never at the empty
path, and otherwise as the destination file system, given by `ok`, allows. -/
def creatable (ok : Str → Bool) (path : Str) : Bool :=
  decide (path ≠ []) && ok path

/-- Outcome of an extraction: the changes made, the original root recorded,
and whether the run was ended by `log.Fatalf`. -/
structure ExtractOut where
  log : List Effect
  fnExtractRoot : Str
  fatal : Bool
  deriving DecidableEq, Repr

/-- The loop of `ExtractTarGz` over the entries of the archive, with the
variables `fnExtractRoot` and `fnExtractCounter`. The first directory entry
sets the original root; a directory entry is created and a regular file is
written at its rewritten path; other entries are skipped. A directory or a
file that cannot be created ends the process. -/
def extractEntries (ok : Str → Bool) (fnExtract : Str) :
    List TarEntry → Str → Int → ExtractOut
  | [], fnExtractRoot, _ => ⟨[], fnExtractRoot, false⟩
  | header :: more, fnExtractRoot, fnExtractCounter =>
    match header.typeflag with
    | .TypeDir =>
      let counter := fnExtractCounter + 1
      let root := if counter = 1 then FromSlash header.name else fnExtractRoot
      let dest := extractFileTo (FromSlash header.name) root fnExtract
      if creatable ok (FromSlash dest) = false then ⟨[], root, true⟩
      else
        let out := extractEntries ok fnExtract more root counter
        { out with log := .mkdirAll (FromSlash dest) :: out.log }
    | .TypeReg =>
      let dest := extractFileTo (FromSlash header.name) fnExtractRoot fnExtract
      if creatable ok dest = false then ⟨[], fnExtractRoot, true⟩
      else
        let out := extractEntries ok fnExtract more fnExtractRoot fnExtractCounter
        { out with log := .write dest header.data :: out.log }
    | .other => extractEntries ok fnExtract more fnExtractRoot fnExtractCounter

/-- The function `ExtractTarGz(gzipStream, src, isLogCopiedFile)` on the archive `entries`
stored at path `src`, on a destination file system `ok`: the extraction root
is created, then the entries are restored. -/
def ExtractTarGz (ok : Str → Bool) (entries : List TarEntry) (src : Str) : ExtractOut :=
  let fnExtract := fnExtractOf src ComFileFormat
  let out := extractEntries ok fnExtract entries [] 0
  { out with log := .mkdirAll fnExtract :: out.log }

/-- The files `ComFiles` can be asked to add: path, bytes, and the call that
fails on the file, if any. A path that is not listed cannot be opened. -/
abbrev Disk := List (Str × List Nat × FileFault)

/-- One entry of a zip archive. -/
structure ZipEntry where
  name : Str
  isDir : Bool
  data : List Nat
  deriving DecidableEq, Repr

/-- Outcome of `ComFiles`: the entries written and the returned error. -/
structure ZipOut where
  entries : List ZipEntry
  err : Option Err
  deriving DecidableEq, Repr

/-- The function `AddFileToZip(zipWriter, filename)`: open the file, stat it, build the
header, store it under the full `filename`, create the entry and copy the
bytes. The result is the entry written, if any, and the error. -/
def AddFileToZip (disk : Disk) (filename : Str) : Option ZipEntry × Option Err :=
  match disk.lookup filename with
  | none => (none, some (.openErr filename))
  | some (data, fault) =>
    match fault with
    | .openFails => (none, some (.openErr filename))
    | .statFails => (none, some (.stat filename))
    | .headerFails => (none, some (.header filename))
    | .createFails => (none, some (.create filename))
    | .copyFails n => (some ⟨filename, false, data.take n⟩, some (.copy filename))
    | _ => (some ⟨filename, false, data⟩, none)

/-- The loop of `ComFiles`: the files are added in order and the first error
is returned at once. -/
def addFiles (disk : Disk) : List Str → ZipOut
  | [] => ⟨[], none⟩
  | file :: files =>
    match AddFileToZip disk file with
    | (e, some err) => ⟨e.toList, some err⟩
    | (e, none) =>
      let out := addFiles disk files
      { out with entries := e.toList ++ out.entries }

/-- The function `ComFiles(dest, files)`: the archive is created at `dest` (`destOk` tells
whether `os.Create` succeeds) and the files are added. -/
def ComFiles (disk : Disk) (dest : Str) (destOk : Bool) (files : List Str) : ZipOut :=
  if destOk then addFiles disk files else ⟨[], some (.create dest)⟩

/-- The bytes of the file at `filename`, none when there is no such file. -/
def contentOf (disk : Disk) (filename : Str) : List Nat :=
  match disk.lookup filename with
  | some (data, _) => data
  | none => []

/-- The file at `filename` exists and no call on it fails. -/
def readable (disk : Disk) (filename : Str) : Bool :=
  match disk.lookup filename with
  | some (_, .noFault) => true
  | _ => false

/-- The destination `Unzip` computes for an entry stored under `name`: the
stored path with its parent directory (`filepath.Dir`) replaced by the
extraction root. -/
def unzipDest (fnExtract name : Str) : Str :=
  extractFileTo (FromSlash name) (Dir (FromSlash name)) fnExtract

/-- Outcome of `Unzip`: the changes made, the returned error, and whether the
run was ended by `log.Fatalf`. -/
structure UnzipOut where
  log : List Effect
  err : Option Err
  fatal : Bool
  deriving DecidableEq, Repr

/-- The loop of `Unzip` over the entries of the archive. The destination of an
entry is computed by `unzipDest`. A directory entry creates the directory
`filepath.Join(destination, stored name)`; a file entry is written at the
destination. A file that cannot be opened is reported and the copy into it
returns its error; a directory that cannot be created ends the process. -/
def unzipEntries (ok : Str → Bool) (fnExtract : Str) : List ZipEntry → UnzipOut
  | [] => ⟨[], none, false⟩
  | file :: more =>
    let dest := unzipDest fnExtract file.name
    let extractedFilePath := Join dest file.name
    if file.isDir then
      if creatable ok (FromSlash extractedFilePath) = false then ⟨[], none, true⟩
      else
        let out := unzipEntries ok fnExtract more
        { out with log := .mkdirAll (FromSlash extractedFilePath) :: out.log }
    else
      if creatable ok dest = false then ⟨[], some (.copy dest), false⟩
      else
        let out := unzipEntries ok fnExtract more
        { out with log := .write dest file.data :: out.log }

/-- The function `Unzip(src, isLogCopiedFile)` on the archive `entries` stored at path
`src`, on a destination file system `ok`: the extraction root is created, then
the entries are restored. -/
def Unzip (ok : Str → Bool) (entries : List ZipEntry) (src : Str) : UnzipOut :=
  let fnExtract := fnExtractOf src ComSingleFileFormat
  let out := unzipEntries ok fnExtract entries
  { out with log := .mkdirAll fnExtract :: out.log }

/-! ## FileNameWOExt -/

/-- The scan of `filepath.Ext`, from the last character backwards: `rev` holds
the characters still to be looked at, last first, and `acc` the ones already
passed. A slash ends the scan with the empty extension; a dot ends it with the
suffix that starts at that dot. -/
def extScan : Str → Str → Str
  | [], _ => []
  | c :: rev, acc =>
    if c = '/' then []
    else if c = '.' then c :: acc
    else extScan rev (c :: acc)

/-- Go `filepath.Ext`: the suffix beginning at the final dot in the final
element of the path, empty when there is no dot. -/
def Ext (path : Str) : Str :=
  extScan path.reverse []

/-- Go `strings.TrimSuffix`: `s` without the trailing `suffix`, and `s` itself
when it does not end with `suffix`. -/
def TrimSuffix (s suffix : Str) : Str :=
  if suffix.isSuffixOf s then s.take (s.length - suffix.length) else s

/-- The function `FileNameWOExt(fileName)`:
`strings.TrimSuffix(fileName, filepath.Ext(fileName))`. -/
def FileNameWOExt (fileName : Str) : Str :=
  TrimSuffix fileName (Ext fileName)

/-- The final element of a path: what follows its last slash. -/
def finalElement (path : Str) : Str :=
  (path.reverse.takeWhile (fun c => c != '/')).reverse

/-- The entry `CompressDIR` writes for a visit that passes the exclusion test
when no call fails: the path with forward slashes, the type, and for a regular
file its bytes. -/
def Visit.toEntry (v : Visit) : TarEntry :=
  match v.info with
  | .file data _ _ => ⟨ToSlash v.path, .TypeReg, data⟩
  | _ => ⟨ToSlash v.path, .TypeDir, []⟩

/-- Whether the directory `dir` was created by one of the `os.MkdirAll` calls
of `log`, which create the path they are given and every directory above it. -/
def madeDir (log : List Effect) (dir : Str) : Bool :=
  log.any (fun e =>
    match e with
    | .mkdirAll p => decide (p = dir) || (dir ++ ['/']).isPrefixOf p
    | .write _ _ => false)

/-! ## Listings in two parts -/

/-- The listing `a` followed by the entries of the listing `b`. -/
def Listing.append : Listing → Listing → Listing
  | .nil, b => b
  | .file name data mtime fault rest, b => .file name data mtime fault (rest.append b)
  | .dir name fault kids rest, b => .dir name fault kids (rest.append b)

/-- Every child of the listing of `src` is excluded by the test of `CopyDir`. -/
def allExcluded (ignoreFT : List Str) (src : Str) : Listing → Bool
  | .nil => true
  | .file name _ _ _ rest => _continue ignoreFT (Join src name) && allExcluded ignoreFT src rest
  | .dir name _ _ rest => _continue ignoreFT (Join src name) && allExcluded ignoreFT src rest

/-! ## Cleaned paths and whole listings -/

/-- Whether a path begins at the root. -/
def rootedOf (path : Str) : Bool := path.head? == some '/'

/-- The elements `path.Clean` keeps of a path, last first. -/
def stackOf (path : Str) : List Str :=
  (splitSlash path).foldl (cleanStep (rootedOf path)) []

/-- A cleaned path, written from whether it is rooted and from its elements,
last first. -/
def render (rooted : Bool) (out : List Str) : Str :=
  if rooted then '/' :: List.intercalate ['/'] out.reverse
  else if List.intercalate ['/'] out.reverse = [] then ['.']
  else List.intercalate ['/'] out.reverse

/-- A name of a directory entry: not empty, without a slash, and neither `.`
nor `..`. -/
def plainName (n : Str) : Bool :=
  decide (n ≠ []) && decide ('/' ∉ n) && decide (n ≠ ['.']) && decide (n ≠ ['.', '.'])

/-- The elements a cleaned path can hold, last first: none is empty, `.` or
holds a slash, and `..` stands only at the start of a path that is not rooted. -/
def goodStack (rooted : Bool) : List Str → Prop
  | [] => True
  | e :: below =>
    (e ≠ [] ∧ e ≠ ['.'] ∧ '/' ∉ e) ∧
    (e = ['.', '.'] → rooted = false ∧ ∀ x ∈ below, x = ['.', '.']) ∧
    goodStack rooted below

/-- Whether, read lexically, the directory `b` is the directory `a` or lies
below it: both paths are rooted or both are not, and the elements of `b`
begin with those of `a` and do not go on to the parent. -/
def below (a b : Str) : Bool :=
  (rootedOf a == rootedOf b) &&
    ((stackOf a).reverse.isPrefixOf (stackOf b).reverse &&
      ((stackOf b).reverse.drop (stackOf a).length).head? != some ['.', '.'])

/-- Whether, read lexically, the directories `src` and `dst` are apart: both
paths are rooted or both are relative to one working directory, neither climbs
to a parent of the working directory, and neither directory is the other or
lies below the other. Only then is the listing of `src` left as it is by what
a copy creates under `dst`. -/
def apart (src dst : Str) : Bool :=
  (rootedOf src == rootedOf dst) &&
    !(stackOf src).contains ['.', '.'] && !(stackOf dst).contains ['.', '.'] &&
    !below src dst && !below dst src

/-- The names of the children of a listing. -/
def Listing.names : Listing → List Str
  | .nil => []
  | .file name _ _ _ rest => name :: rest.names
  | .dir name _ _ rest => name :: rest.names

/-- Every name in the listing, at every depth, is the name of a directory
entry. -/
def Listing.plainNames : Listing → Bool
  | .nil => true
  | .file name _ _ _ rest => plainName name && rest.plainNames
  | .dir name _ kids rest => plainName name && kids.plainNames && rest.plainNames

/-- In every directory of the listing, no two children have the same name. -/
def Listing.distinctNames : Listing → Bool
  | .nil => true
  | .file name _ _ _ rest => decide (name ∉ rest.names) && rest.distinctNames
  | .dir name _ kids rest =>
    decide (name ∉ rest.names) && kids.distinctNames && rest.distinctNames

/-- The regular files of a listing at every depth, each as the list of names
leading to it with its bytes, in the order of the listing. -/
def Listing.files : Listing → List (List Str × List Nat)
  | .nil => []
  | .file name data _ _ rest => ([name], data) :: rest.files
  | .dir name _ kids rest => kids.files.map (fun x => (name :: x.1, x.2)) ++ rest.files

/-- The folders of a listing at every depth, each as the list of names leading
to it. -/
def Listing.dirs : Listing → List (List Str)
  | .nil => []
  | .file _ _ _ _ rest => rest.dirs
  | .dir name _ kids rest => ([name] :: kids.dirs.map (fun q => name :: q)) ++ rest.dirs

/-- The files written by a sequence of changes, in order, with the bytes
written. -/
def writesOf : List Effect → List (Str × List Nat)
  | [] => []
  | .write p d :: rest => (p, d) :: writesOf rest
  | .mkdirAll _ :: rest => writesOf rest

/-! ## Example inputs -/

/-- A source directory with a file, a folder holding two files, and a folder
whose name carries the extension `.db`. -/
def sampleTree : Listing :=
  .file "a.txt".toList [1, 2] 1000000 .noFault
    (.dir "sub".toList .noFault
      (.file "b.db".toList [3] 5 .noFault (.file "c.txt".toList [] 5 .noFault .nil))
      (.dir "x.db".toList .noFault (.file "z".toList [9] 5 .noFault .nil) .nil))

/-- The scenario of the modified-window selector: `a.txt` modified now,
`sub/b.txt` five days ago, `sub/ignore.db`; the clock reads 1000000. -/
def windowTree : Listing :=
  .file "a.txt".toList [1, 2] 1000000 .noFault
    (.dir "sub".toList .noFault
      (.file "b.txt".toList [3] (1000000 - 5 * 86400) .noFault
        (.file "ignore.db".toList [4] 1000000 .noFault .nil))
      .nil)

/-- Three files modified ten days ago, three days ago and now, for a clock that
reads 1000000. -/
def agesTree : Listing :=
  .file "new".toList [1] 1000000 .noFault
    (.file "old".toList [2] (1000000 - 10 * 86400) .noFault
      (.file "recent".toList [3] (1000000 - 3 * 86400) .noFault .nil))

/-- A source directory `/src` that holds one file named `src.txt`. -/
def srcNamedTree : Listing :=
  .file "src.txt".toList [7] 1000000 .noFault .nil

/-- A source directory `/src` with the files `out/b/f` and `src/f`. -/
def clashTree : Listing :=
  .dir "out".toList .noFault
    (.dir "b".toList .noFault (.file "f".toList [1, 1] 0 .noFault .nil) .nil)
    (.dir "src".toList .noFault (.file "f".toList [2, 2, 2] 0 .noFault .nil) .nil)

/-- A directory with one nested empty folder and one file of no bytes. -/
def emptiesTree : Listing :=
  .dir "empty".toList .noFault .nil (.file "zero".toList [] 0 .noFault .nil)

/-- Two files of different names in two folders. -/
def twoNamesDisk : Disk :=
  [("/a/x.txt".toList, [1], .noFault), ("/b/y.txt".toList, [2, 2], .noFault)]

/-- Two files of the same name in two folders. -/
def twoFilesDisk : Disk :=
  [("/a/x.txt".toList, [1], .noFault), ("/b/x.txt".toList, [2, 2], .noFault)]

/-- A directory `/src` with `a.txt`, then `sock` whose tar header cannot be
built, then `z.txt`. -/
def headerFailTree : Listing :=
  .file "a.txt".toList [1] 0 .noFault
    (.file "sock".toList [] 0 .headerFails
      (.file "z.txt".toList [2] 0 .noFault .nil))

/-- A directory `/src` with `a.txt`, then the empty file `lock` that cannot be
opened, then `z.txt`. -/
def openFailTree : Listing :=
  .file "a.txt".toList [1] 0 .noFault
    (.file "lock".toList [] 0 .openFails
      (.file "z.txt".toList [2] 0 .noFault .nil))

/-- A directory `/src` with `gone`, which cannot be examined again, and
`kept`; both were modified now, for a clock that reads 1000000. -/
def statFailTree : Listing :=
  .file "gone".toList [1] 1000000 .statFails
    (.file "kept".toList [2] 1000000 .noFault .nil)

/-- A directory `/src` with the folder `sub` that holds the file `src`,
modified now; the destination of the file cannot be created. -/
def nestedSrcTree : Listing :=
  .dir "sub".toList .noFault (.file "src".toList [5] 1000000 .createFails .nil) .nil

/-- A directory with `bad`, which cannot be opened, the folder `dir` with the
file `in`, and the file `good`. -/
def failFirstTree : Listing :=
  .file "bad".toList [1] 0 .openFails
    (.dir "dir".toList .noFault (.file "in".toList [2] 0 .noFault .nil)
      (.file "good".toList [3] 0 .noFault .nil))

/-- The archive of `/src` that holds the folder `src` with the file `f`. -/
def nestedRootArchive : List TarEntry :=
  [⟨"/src".toList, .TypeDir, []⟩, ⟨"/src/src".toList, .TypeDir, []⟩,
    ⟨"/src/src/f".toList, .TypeReg, [7]⟩]

/-- Three files, the second of which fails while its bytes are copied. -/
def copyFailDisk : Disk :=
  [("/a/one".toList, [1], .noFault), ("/a/two".toList, [2, 2, 2], .copyFails 1),
    ("/a/three".toList, [3], .noFault)]

/-- A directory that holds the folder `d` with the file `bad`, which cannot be
opened, followed by the file `good`. -/
def badThenGoodTree : Listing :=
  .dir "d".toList .noFault
    (.file "bad".toList [1] 0 .openFails (.file "good".toList [2] 0 .noFault .nil)) .nil

/-- A directory that holds the folder `d` with the file `good` followed by the
file `zbad`, which cannot be opened. -/
def goodThenBadTree : Listing :=
  .dir "d".toList .noFault
    (.file "good".toList [2] 0 .noFault (.file "zbad".toList [1] 0 .openFails .nil)) .nil

/-- A directory `/src` with `early`, modified at second 999999, and `late`,
modified at second 1000000. -/
def tickTree : Listing :=
  .file "early".toList [1] 999999 .noFault (.file "late".toList [2] 1000000 .noFault .nil)

/-! # Theorems -/

/-! ## The exclusion test -/

/-- The result of `Index` is `-1` or an offset. -/
theorem Index_ge (s substr : Str) : -1 ≤ Index s substr := by
  induction s with
  | nil => unfold Index; split <;> omega
  | cons c t ih =>
    unfold Index
    split
    · omega
    · simp only []
      split <;> omega

/-- The function `Index` finds an occurrence exactly when there is one. -/
theorem Index_ne_iff (s substr : Str) : Index s substr ≠ -1 ↔ substr <:+: s := by
  induction s with
  | nil =>
    unfold Index
    cases substr with
    | nil => simp
    | cons a u => simp
  | cons c t ih =>
    unfold Index
    rw [List.infix_cons_iff]
    by_cases h : substr.isPrefixOf (c :: t) = true
    · simp only [h, if_true]
      constructor
      · intro _
        exact Or.inl (List.isPrefixOf_iff_prefix.mp h)
      · intro _
        omega
    · simp only [h]
      have hp : ¬ substr <+: c :: t := fun hp => h (List.isPrefixOf_iff_prefix.mpr hp)
      have hge := Index_ge t substr
      constructor
      · intro hne
        right
        apply ih.mp
        intro h1
        simp [h1] at hne
      · rintro (h1 | h1)
        · exact absurd h1 hp
        · have := ih.mpr h1
          simp only [Bool.false_eq_true, if_false]
          split <;> omega

/-- The flag of the loop, started from any value: it ends set when it started
set or some pattern occurs. -/
theorem continue_foldl (path : Str) (ignoreFT : List Str) (b : Bool) :
    ignoreFT.foldl
      (fun flag i => if Index path (TrimSpace i) ≠ -1 then true else flag) b = true ↔
    b = true ∨ ∃ i ∈ ignoreFT, TrimSpace i <:+: path := by
  induction ignoreFT generalizing b with
  | nil => simp
  | cons p ps ih =>
    rw [List.foldl_cons, ih]
    by_cases h : Index path (TrimSpace p) ≠ -1
    · have hin := (Index_ne_iff path (TrimSpace p)).mp h
      rw [if_pos h]
      simp only [true_or, true_iff]
      exact Or.inr ⟨p, List.mem_cons_self _ _, hin⟩
    · have hin : ¬ TrimSpace p <:+: path := fun hc => h ((Index_ne_iff _ _).mpr hc)
      rw [if_neg h]
      simp only [List.mem_cons]
      constructor
      · rintro (hb | ⟨i, hi, hx⟩)
        · exact Or.inl hb
        · exact Or.inr ⟨i, Or.inr hi, hx⟩
      · rintro (hb | ⟨i, hi | hi, hx⟩)
        · exact Or.inl hb
        · subst hi
          exact absurd hx hin
        · exact Or.inr ⟨i, hi, hx⟩

/-- The flag of the exclusion test is set exactly when some trimmed pattern
occurs in the path. -/
theorem continue_eq_true_iff (ignoreFT : List Str) (path : Str) :
    _continue ignoreFT path = true ↔ ∃ i ∈ ignoreFT, TrimSpace i <:+: path := by
  unfold _continue
  rw [continue_foldl]
  simp

/-- C1: for every path and pattern list, the exclusion test of `CopyDir`,
`CompressDIR` and `WalkDIRModLatest` sets its flag if and only if some pattern,
with its surrounding white space trimmed, occurs in the path as a contiguous
run of characters, compared exactly (no wildcard, no path-element reading):
the path is `a ++ pattern ++ b` for some `a` and `b`. -/
theorem continue_iff_infix (ignoreFT : List Str) (path : Str) :
    _continue ignoreFT path = true ↔
      ∃ i ∈ ignoreFT, ∃ a b : Str, a ++ TrimSpace i ++ b = path :=
  continue_eq_true_iff ignoreFT path

/-- C2 (the code at the failing input): with the pattern list that holds only
the empty string, as `strings.Split` returns for an empty configuration value,
and with a list that holds only white space, the test excludes every path. -/
theorem continue_empty_pattern (path : Str) :
    _continue [[]] path = true ∧ _continue [[' ', ' ']] path = true := by
  constructor
  · rw [continue_eq_true_iff]
    exact ⟨[], List.mem_singleton.mpr rfl, ⟨[], path, by simp [TrimSpace]⟩⟩
  · rw [continue_eq_true_iff]
    exact ⟨[' ', ' '], List.mem_singleton.mpr rfl, ⟨[], path, by simp [TrimSpace, isSpace]⟩⟩

/-! ## CopyDir -/

/-- With no pattern, nothing is excluded. -/
theorem continue_nil (path : Str) : _continue [] path = false := rfl

/-- The loop of `CopyDir` gives the same result on the listing and on the
listing without the excluded entries and what lies below them. -/
theorem copyChildren_prune (ignoreFT : List Str) (fds : Listing) :
    ∀ (src dst : Str) (err : Option Err) (st : Counters),
      copyChildren ignoreFT src dst fds err st =
        copyChildren ignoreFT src dst (prune ignoreFT src fds) err st := by
  induction fds with
  | nil => intro src dst err st; rfl
  | file name data mtime fault rest ih =>
    intro src dst err st
    by_cases h : _continue ignoreFT (Join src name) = true
    · simp only [copyChildren, prune, h, if_true]
      exact ih src dst err st
    · rw [Bool.not_eq_true] at h
      simp only [copyChildren, prune, h, Bool.false_eq_true, if_false]
      rw [ih]
  | dir name fault kids rest ihk ihr =>
    intro src dst err st
    by_cases h : _continue ignoreFT (Join src name) = true
    · simp only [copyChildren, prune, h, if_true]
      exact ihr src dst err st
    · rw [Bool.not_eq_true] at h
      simp only [copyChildren, prune, h, Bool.false_eq_true, if_false]
      rw [← ihk (Join src name) (Join dst name) none st]
      rw [ihr]

/-- Every entry the loop of `CopyDir` creates is reached through source paths
that the exclusion test lets through. -/
theorem copyChildren_made (ignoreFT : List Str) (fds : Listing) :
    ∀ (src dst : Str) (err : Option Err) (st : Counters) (p q : List Str),
      q ∈ (copyChildren ignoreFT src dst fds err st).made.relPaths →
      p ≠ [] → p <+: q → _continue ignoreFT (srcPath src p) = false := by
  induction fds with
  | nil =>
    intro src dst err st p q hq
    simp [copyChildren, Tree.relPaths] at hq
  | file name data mtime fault rest ih =>
    intro src dst err st p q hq hp hpq
    by_cases h : _continue ignoreFT (Join src name) = true
    · simp only [copyChildren, h, if_true] at hq
      exact ih src dst err st p q hq hp hpq
    · rw [Bool.not_eq_true] at h
      simp only [copyChildren, h, Bool.false_eq_true, if_false] at hq
      cases hm : (CopyFile (Join src name) (Join dst name) dst data fault).made with
      | none =>
        rw [hm] at hq
        exact ih _ _ _ _ p q hq hp hpq
      | some d =>
        rw [hm] at hq
        simp only [Tree.relPaths, List.mem_cons] at hq
        rcases hq with hq | hq
        · subst hq
          have hp1 : p = [name] := by
            rcases hpq with ⟨t, ht⟩
            cases p with
            | nil => exact absurd rfl hp
            | cons a u =>
              simp only [List.cons_append, List.cons.injEq] at ht
              have hu : u = [] := by
                cases u with
                | nil => rfl
                | cons b v => simp at ht
              rw [ht.1, hu]
          subst hp1
          simpa [srcPath] using h
        · exact ih _ _ _ _ p q hq hp hpq
  | dir name fault kids rest ihk ihr =>
    intro src dst err st p q hq hp hpq
    by_cases h : _continue ignoreFT (Join src name) = true
    · simp only [copyChildren, h, if_true] at hq
      exact ihr src dst err st p q hq hp hpq
    · rw [Bool.not_eq_true] at h
      simp only [copyChildren, h, Bool.false_eq_true, if_false] at hq
      have key : ∀ k : Tree, (∀ q1, q1 ∈ k.relPaths →
            q1 ∈ (copyChildren ignoreFT (Join src name) (Join dst name) kids none st).made.relPaths) →
          ∀ out : Tree, (∀ q1, q1 ∈ out.relPaths → ∀ p1 : List Str, p1 ≠ [] → p1 <+: q1 →
            _continue ignoreFT (srcPath src p1) = false) →
          q ∈ (Tree.dir name k out).relPaths → _continue ignoreFT (srcPath src p) = false := by
        intro k hk out hout hq
        simp only [Tree.relPaths, List.cons_append, List.mem_cons, List.mem_append,
          List.mem_map] at hq
        cases p with
        | nil => exact absurd rfl hp
        | cons a u =>
          rcases hq with hq | ⟨q1, hq1, hq⟩ | hq
          · subst hq
            rcases hpq with ⟨t, ht⟩
            simp only [List.cons_append, List.cons.injEq] at ht
            have hu : u = [] := by
              cases u with
              | nil => rfl
              | cons b v => simp at ht
            rw [ht.1, hu]
            simpa [srcPath] using h
          · subst hq
            rcases hpq with ⟨t, ht⟩
            simp only [List.cons_append, List.cons.injEq] at ht
            rw [ht.1]
            by_cases hu : u = []
            · rw [hu]
              simpa [srcPath] using h
            · have := ihk (Join src name) (Join dst name) none st u q1 (hk q1 hq1) hu ⟨t, ht.2⟩
              simpa [srcPath] using this
          · exact hout q hq (a :: u) hp hpq
      cases fault with
      | noFault =>
        simp only [copyDirAround] at hq
        exact key _ (fun _ hx => hx) _ (fun q1 hq1 p1 hp1 hpq1 => ihr _ _ _ _ p1 q1 hq1 hp1 hpq1) hq
      | listFails =>
        simp only [copyDirAround] at hq
        exact key _ (fun _ hx => by simp [Tree.relPaths] at hx) _
          (fun q1 hq1 p1 hp1 hpq1 => ihr _ _ _ _ p1 q1 hq1 hp1 hpq1) hq
      | statFails =>
        simp only [copyDirAround] at hq
        exact ihr _ _ _ _ p q hq hp hpq
      | mkdirFails =>
        simp only [copyDirAround] at hq
        exact ihr _ _ _ _ p q hq hp hpq

/-- A pattern that occurs in a path occurs in every path that extends it. -/
theorem continue_append (ignoreFT : List Str) (path more : Str)
    (h : _continue ignoreFT path = true) : _continue ignoreFT (path ++ more) = true := by
  rw [continue_eq_true_iff] at h ⊢
  obtain ⟨i, hi, a, b, hab⟩ := h
  exact ⟨i, hi, a, b ++ more, by rw [← hab]; simp⟩

/-- A non-empty list of names that begins `name :: q` begins with `name`. -/
theorem prefix_cons_split {name : Str} {p q : List Str} (hp : p ≠ []) (hpq : p <+: name :: q) :
    ∃ u, p = name :: u ∧ u <+: q := by
  cases p with
  | nil => exact absurd rfl hp
  | cons a u =>
    rcases hpq with ⟨t, ht⟩
    simp only [List.cons_append, List.cons.injEq] at ht
    exact ⟨u, by rw [ht.1], ⟨t, ht.2⟩⟩

/-- Every entry that is left after pruning is reached through source paths
that the exclusion test lets through. -/
theorem prune_relPaths (ignoreFT : List Str) (fds : Listing) :
    ∀ (src : Str) (p q : List Str), q ∈ (prune ignoreFT src fds).relPaths →
      p ≠ [] → p <+: q → _continue ignoreFT (srcPath src p) = false := by
  induction fds with
  | nil =>
    intro src p q hq
    simp [prune, Listing.relPaths] at hq
  | file name data mtime fault rest ih =>
    intro src p q hq hp hpq
    by_cases h : _continue ignoreFT (Join src name) = true
    · simp only [prune, h, if_true] at hq
      exact ih src p q hq hp hpq
    · rw [Bool.not_eq_true] at h
      simp only [prune, h, Bool.false_eq_true, if_false, Listing.relPaths, List.mem_cons] at hq
      rcases hq with hq | hq
      · subst hq
        obtain ⟨u, hu, hu2⟩ := prefix_cons_split hp hpq
        have : u = [] := List.prefix_nil.mp hu2
        subst this
        subst hu
        simpa [srcPath] using h
      · exact ih src p q hq hp hpq
  | dir name fault kids rest ihk ihr =>
    intro src p q hq hp hpq
    by_cases h : _continue ignoreFT (Join src name) = true
    · simp only [prune, h, if_true] at hq
      exact ihr src p q hq hp hpq
    · rw [Bool.not_eq_true] at h
      simp only [prune, h, Bool.false_eq_true, if_false, Listing.relPaths, List.cons_append,
        List.mem_cons, List.mem_append, List.mem_map] at hq
      rcases hq with hq | ⟨q1, hq1, hq⟩ | hq
      · subst hq
        obtain ⟨u, hu, hu2⟩ := prefix_cons_split hp hpq
        have : u = [] := List.prefix_nil.mp hu2
        subst this
        subst hu
        simpa [srcPath] using h
      · subst hq
        obtain ⟨u, hu, hu2⟩ := prefix_cons_split hp hpq
        subst hu
        by_cases hnil : u = []
        · subst hnil
          simpa [srcPath] using h
        · have := ihk (Join src name) u q1 hq1 hnil hu2
          simpa [srcPath] using this
      · exact ihr src p q hq hp hpq

/-- C3: for every source directory, pattern list and entry `p` that the
exclusion test of `CopyDir` excludes, and every `q` that is `p` or lies below
it: `q` is not in the destination directory after `CopyDir`; `q` is not in the
pruned listing, and `CopyDir` gives the same destination, counters and error on
the pruned listing as on the whole one, so neither `p` nor anything below it
adds to a counter; and every path that extends the source path of `p` is
excluded by the same substring test. -/
theorem CopyDir_excluded_absent (ignoreFT : List Str) (src dst : Str) (fault : DirFault)
    (fds : Listing) (st : Counters) (p q : List Str) (hp : p ≠ []) (hpq : p <+: q)
    (hex : _continue ignoreFT (srcPath src p) = true) :
    (∀ made, (CopyDir ignoreFT src dst fault fds st).made = some made → q ∉ made.relPaths) ∧
    q ∉ (prune ignoreFT src fds).relPaths ∧
    CopyDir ignoreFT src dst fault fds st =
      CopyDir ignoreFT src dst fault (prune ignoreFT src fds) st ∧
    ∀ more, _continue ignoreFT (srcPath src p ++ more) = true := by
  refine ⟨?_, ?_, ?_, fun more => continue_append ignoreFT _ more hex⟩
  · intro made hmade hq
    have habs : ∀ t : Tree, q ∈ t.relPaths →
        (∀ q1, q1 ∈ t.relPaths → q1 ∈ (copyChildren ignoreFT src dst fds none st).made.relPaths) →
        False := by
      intro t ht hsub
      have := copyChildren_made ignoreFT fds src dst none st p q (hsub q ht) hp hpq
      rw [hex] at this
      exact Bool.noConfusion this
    cases fault with
    | noFault =>
      simp only [CopyDir, copyDirAround, Option.some.injEq] at hmade
      subst hmade
      exact habs _ hq (fun _ h => h)
    | listFails =>
      simp only [CopyDir, copyDirAround, Option.some.injEq] at hmade
      subst hmade
      simp [Tree.relPaths] at hq
    | statFails => simp [CopyDir, copyDirAround] at hmade
    | mkdirFails => simp [CopyDir, copyDirAround] at hmade
  · intro hq
    have := prune_relPaths ignoreFT fds src p q hq hp hpq
    rw [hex] at this
    exact Bool.noConfusion this
  · unfold CopyDir
    rw [← copyChildren_prune]

/-- C3, at the sample directory with the pattern `.db`: the folder `x.db` is
excluded, and its file `z` is not in the destination. -/
theorem CopyDir_excluded_absent_witness :
    _continue [".db".toList] (srcPath "/src".toList ["x.db".toList]) = true ∧
    ∀ made,
      (CopyDir [".db".toList] "/src".toList "/dst".toList .noFault sampleTree
        Counters.initial).made = some made →
      ["x.db".toList, "z".toList] ∉ made.relPaths :=
  ⟨by decide,
    (CopyDir_excluded_absent [".db".toList] "/src".toList "/dst".toList .noFault sampleTree
      Counters.initial ["x.db".toList] ["x.db".toList, "z".toList] (by decide)
      ⟨["z".toList], rfl⟩ (by decide)).1⟩

/-- C5 (the code at the failing input): two `CopyDir` calls in a row on the
same unchanged directory, the second run with the package counters the first
one left. The first returns 2 folders and 4 files, the second 4 folders and 8
files. -/
theorem CopyDir_counts_carry_over :
    (CopyDir [] "/src".toList "/dst".toList .noFault sampleTree Counters.initial).st = ⟨4, 2⟩ ∧
    (CopyDir [] "/src".toList "/dst".toList .noFault sampleTree
      (CopyDir [] "/src".toList "/dst".toList .noFault sampleTree Counters.initial).st).st =
      ⟨8, 4⟩ := by
  decide

/-! ## WalkDIRModLatest -/

/-- When the second loop does not end in a panic, the files it hands to
`DIRCopyFiles` are the collected files whose modification time is in the
window, in order. -/
theorem copyModified_copied (src dst : Str) (startTime endTime : Int) (files : List FileRec) :
    ∀ (err : Option Err) (st : Counters),
      (copyModified src dst startTime endTime files err st).panicked = false →
      (copyModified src dst startTime endTime files err st).copied =
        files.filter (fun f => inWindow startTime endTime f.mtime) := by
  induction files with
  | nil => intro err st _; rfl
  | cons f fs ih =>
    intro err st hp
    by_cases hs : f.fault = .statFails
    · simp [copyModified, hs] at hp
    · by_cases hw : inWindow startTime endTime f.mtime = true
      · simp only [copyModified, hs, hw, if_false, if_true] at hp ⊢
        rw [ih _ _ hp]
        simp [List.filter_cons, hw]
      · rw [Bool.not_eq_true] at hw
        simp only [copyModified, hs, hw, if_false, Bool.false_eq_true] at hp ⊢
        rw [ih _ _ hp]
        simp [List.filter_cons, hw]

/-- When the second loop does not end in a panic, every collected file in the
window on which no call fails is written, with its bytes, at its path with
`src` replaced by `dst`, when that path is not the path of the file itself. -/
theorem copyModified_writes (src dst : Str) (startTime endTime : Int) (files : List FileRec) :
    ∀ (err : Option Err) (st : Counters),
      (copyModified src dst startTime endTime files err st).panicked = false →
      ∀ f ∈ files, inWindow startTime endTime f.mtime = true → f.fault = .noFault →
        Clean (Replace f.path src dst (-1)) ≠ Clean f.path →
        Effect.write (Replace f.path src dst (-1)) f.data ∈
          (copyModified src dst startTime endTime files err st).log := by
  induction files with
  | nil => intro err st _ f hf; simp at hf
  | cons g gs ih =>
    intro err st hp f hf hw hfault hne
    by_cases hs : g.fault = .statFails
    · simp [copyModified, hs] at hp
    · by_cases hg : inWindow startTime endTime g.mtime = true
      · simp only [copyModified, hs, hg, if_false, if_true] at hp ⊢
        rcases List.mem_cons.mp hf with hfg | hfg
        · subst hfg
          simp [DIRCopyFiles, readAfterCreate, hfault, FromSlash, hne]
        · exact List.mem_append_right _ (ih _ _ hp f hfg hw hfault hne)
      · rw [Bool.not_eq_true] at hg
        simp only [copyModified, hs, hg, if_false, Bool.false_eq_true] at hp ⊢
        rcases List.mem_cons.mp hf with hfg | hfg
        · subst hfg
          rw [hw] at hg
          exact Bool.noConfusion hg
        · exact ih _ _ hp f hfg hw hfault hne

/-- The scenario of the specification: `/src` with `a.txt` (modified now),
`sub/b.txt` (five days ago) and `sub/ignore.db`, the pattern `.db` and
`modDays = -7`. The destination gets `/dst/a.txt` and `/dst/sub/b.txt`, no
`/dst/sub/ignore.db`, and the file counter ends at 2. -/
theorem WalkDIRModLatest_scenario :
    (WalkDIRModLatest [".db".toList] "/src".toList "/dst".toList (-7) 1000000 1000000 0 .noFault
      windowTree Counters.initial).log =
      [.mkdirAll "/dst".toList, .mkdirAll "/dst".toList, .mkdirAll "/dst/sub".toList,
        .write "/dst/a.txt".toList [1, 2], .write "/dst/sub/b.txt".toList [3]] ∧
    (WalkDIRModLatest [".db".toList] "/src".toList "/dst".toList (-7) 1000000 1000000 0 .noFault
      windowTree Counters.initial).st.NumFilesCopied = 2 := by
  decide

/-- C7 (the code at the failing input): `/src` holds the single file
`src.txt`, modified now. The file is written to `/dst/dst.txt`: every
occurrence of `/src` in its path is replaced, not only the leading one. Nothing
is written at `/dst/src.txt`, and the file counter is 1. -/
theorem WalkDIRModLatest_rewrites_names :
    (WalkDIRModLatest [] "/src".toList "/dst".toList (-7) 1000000 1000000 0 .noFault
      srcNamedTree Counters.initial).log =
      [.mkdirAll "/dst".toList, .mkdirAll "/dst".toList, .write "/dst/dst.txt".toList [7]] ∧
    fileAt (WalkDIRModLatest [] "/src".toList "/dst".toList (-7) 1000000 1000000 0 .noFault
      srcNamedTree Counters.initial).log "/dst/src.txt".toList = none ∧
    (WalkDIRModLatest [] "/src".toList "/dst".toList (-7) 1000000 1000000 0 .noFault
      srcNamedTree Counters.initial).st.NumFilesCopied = 1 := by
  decide

/-! ## Archives -/

/-- The round trip on a directory with one nested empty folder and one file of
no bytes: both exist below the extraction root afterwards. -/
theorem roundTrip_empties :
    (ExtractTarGz (fun _ => true) (CompressDIR "/src".toList .noFault emptiesTree []).entries
      "/out/b.tar.gz".toList).log =
      [.mkdirAll "/out/b".toList, .mkdirAll "/out/b".toList, .mkdirAll "/out/b/empty".toList,
        .write "/out/b/zero".toList []] := by
  decide

/-- C8 (the code at the failing input): `/src` holds `out/b/f` with bytes
`[1, 1]` and `src/f` with bytes `[2, 2, 2]`; it is archived and the archive
`/out/b.tar.gz` is extracted. Both files are written to `/out/b/out/b/f`, which
ends with the bytes of `src/f`; the bytes of `out/b/f` are lost and nothing is
restored at `/out/b/src/f`. -/
theorem roundTrip_clash :
    (CompressDIR "/src".toList .noFault clashTree []).err = none ∧
    (ExtractTarGz (fun _ => true) (CompressDIR "/src".toList .noFault clashTree []).entries
      "/out/b.tar.gz".toList).log =
      [.mkdirAll "/out/b".toList, .mkdirAll "/out/b".toList, .mkdirAll "/out/b/out".toList,
        .mkdirAll "/out/b/out/b".toList, .write "/out/b/out/b/f".toList [1, 1],
        .mkdirAll "/out/b/out/b".toList, .write "/out/b/out/b/f".toList [2, 2, 2]] ∧
    fileAt (ExtractTarGz (fun _ => true) (CompressDIR "/src".toList .noFault clashTree []).entries
      "/out/b.tar.gz".toList).log "/out/b/out/b/f".toList = some [2, 2, 2] ∧
    fileAt (ExtractTarGz (fun _ => true) (CompressDIR "/src".toList .noFault clashTree []).entries
      "/out/b.tar.gz".toList).log "/out/b/src/f".toList = none := by
  decide

/-- C9 (the code at the failing input): the files `/a/x.txt` and `/b/x.txt` are
zipped by `ComFiles` without error and the archive `/d/x.zip` is unzipped. Both
entries are written to `/d/x/x.txt`, which ends with the bytes of `/b/x.txt`:
one file is restored for two listed files, and the bytes of `/a/x.txt` are
lost. -/
theorem zip_roundTrip_clash :
    (ComFiles twoFilesDisk "/d/x.zip".toList true ["/a/x.txt".toList, "/b/x.txt".toList]).err =
      none ∧
    (Unzip (fun _ => true)
      (ComFiles twoFilesDisk "/d/x.zip".toList true
        ["/a/x.txt".toList, "/b/x.txt".toList]).entries
      "/d/x.zip".toList).log =
      [.mkdirAll "/d/x".toList, .write "/d/x/x.txt".toList [1],
        .write "/d/x/x.txt".toList [2, 2]] ∧
    fileAt (Unzip (fun _ => true)
      (ComFiles twoFilesDisk "/d/x.zip".toList true
        ["/a/x.txt".toList, "/b/x.txt".toList]).entries
      "/d/x.zip".toList).log "/d/x/x.txt".toList = some [2, 2] := by
  decide

/-- Changes other than writes to `path` leave the file at `path` as it is. -/
theorem foldl_fileStep_other {α : Type} (g : α → Str) (c : α → List Nat) (path : Str)
    (l : List α) : ∀ cur : Option (List Nat), (∀ a ∈ l, g a ≠ path) →
      (l.map (fun a => Effect.write (g a) (c a))).foldl (fileStep path) cur = cur := by
  induction l with
  | nil => intro cur _; rfl
  | cons b bs ih =>
    intro cur h
    simp only [List.map_cons, List.foldl_cons, fileStep]
    rw [if_neg (h b (List.mem_cons_self _ _))]
    exact ih cur (fun a ha => h a (List.mem_cons_of_mem _ ha))

/-- After a sequence of writes to pairwise distinct paths, every written file
holds the bytes that were written to it. -/
theorem foldl_fileStep_mem {α : Type} (g : α → Str) (c : α → List Nat) (l : List α) :
    ∀ cur : Option (List Nat), l.Pairwise (fun a b => g a ≠ g b) → ∀ a ∈ l,
      (l.map (fun a => Effect.write (g a) (c a))).foldl (fileStep (g a)) cur = some (c a) := by
  induction l with
  | nil => intro cur _ a ha; simp at ha
  | cons b bs ih =>
    intro cur hp a ha
    rw [List.pairwise_cons] at hp
    simp only [List.map_cons, List.foldl_cons]
    rcases List.mem_cons.mp ha with hab | hab
    · subst hab
      simp only [fileStep, if_true]
      exact foldl_fileStep_other g c (g a) bs _ (fun x hx => (hp.1 x hx).symm)
    · exact ih _ hp.2 a hab

/-- When every listed file can be read, the loop of `ComFiles` writes one entry
per file, under the full path and with the bytes of the file. -/
theorem addFiles_readable (disk : Disk) (files : List Str)
    (hread : ∀ f ∈ files, readable disk f = true) :
    addFiles disk files = ⟨files.map (fun f => ⟨f, false, contentOf disk f⟩), none⟩ := by
  induction files with
  | nil => rfl
  | cons f fs ih =>
    have hr := hread f (List.mem_cons_self _ _)
    have ih2 := ih (fun g hg => hread g (List.mem_cons_of_mem _ hg))
    unfold readable at hr
    cases hd : disk.lookup f with
    | none => simp [hd] at hr
    | some v =>
      obtain ⟨data, fault⟩ := v
      cases fault <;> simp [hd] at hr
      simp [addFiles, AddFileToZip, hd, ih2, contentOf]

/-- When every destination can be opened, the loop of `Unzip` writes every file
entry at its destination, in order. -/
theorem unzipEntries_files (ok : Str → Bool) (fnExtract : Str) (c : Str → List Nat)
    (files : List Str) (hok : ∀ f ∈ files, creatable ok (unzipDest fnExtract f) = true) :
    unzipEntries ok fnExtract (files.map (fun f => ⟨f, false, c f⟩)) =
      ⟨files.map (fun f => .write (unzipDest fnExtract f) (c f)), none, false⟩ := by
  induction files with
  | nil => rfl
  | cons f fs ih =>
    have h1 := hok f (List.mem_cons_self _ _)
    have ih2 := ih (fun g hg => hok g (List.mem_cons_of_mem _ hg))
    simp [unzipEntries, h1, ih2]

/-- For every list of files that can all be read, whose destinations computed
by `Unzip` can be opened and are pairwise distinct, `ComFiles` followed by
`Unzip` returns no error, writes one file per listed file in order, and leaves
at the destination of each listed file exactly the bytes of that file. -/
theorem ComFiles_Unzip_roundTrip (ok : Str → Bool) (disk : Disk) (files : List Str)
    (zipPath : Str)
    (hread : ∀ f ∈ files, readable disk f = true)
    (hok : ∀ f ∈ files,
      creatable ok (unzipDest (fnExtractOf zipPath ComSingleFileFormat) f) = true)
    (hdistinct : files.Pairwise (fun f g =>
      unzipDest (fnExtractOf zipPath ComSingleFileFormat) f ≠
        unzipDest (fnExtractOf zipPath ComSingleFileFormat) g)) :
    (ComFiles disk zipPath true files).err = none ∧
    (Unzip ok (ComFiles disk zipPath true files).entries zipPath).err = none ∧
    (Unzip ok (ComFiles disk zipPath true files).entries zipPath).fatal = false ∧
    (Unzip ok (ComFiles disk zipPath true files).entries zipPath).log =
      .mkdirAll (fnExtractOf zipPath ComSingleFileFormat) ::
        files.map (fun f =>
          .write (unzipDest (fnExtractOf zipPath ComSingleFileFormat) f) (contentOf disk f)) ∧
    ∀ f ∈ files,
      fileAt (Unzip ok (ComFiles disk zipPath true files).entries zipPath).log
        (unzipDest (fnExtractOf zipPath ComSingleFileFormat) f) = some (contentOf disk f) := by
  have hA := addFiles_readable disk files hread
  have hB := unzipEntries_files ok (fnExtractOf zipPath ComSingleFileFormat) (contentOf disk)
    files hok
  have hlog : (Unzip ok (ComFiles disk zipPath true files).entries zipPath).log =
      .mkdirAll (fnExtractOf zipPath ComSingleFileFormat) ::
        files.map (fun f =>
          .write (unzipDest (fnExtractOf zipPath ComSingleFileFormat) f) (contentOf disk f)) := by
    simp only [ComFiles, if_true, hA, Unzip, hB]
  refine ⟨by simp [ComFiles, hA], by simp [ComFiles, hA, Unzip, hB],
    by simp [ComFiles, hA, Unzip, hB], hlog, ?_⟩
  intro f hf
  rw [hlog]
  simp only [fileAt, List.foldl_cons, fileStep]
  exact foldl_fileStep_mem _ _ files none hdistinct f hf

/-- The two files `/a/x.txt` and `/b/y.txt`, zipped into `/d/x.zip` and unzipped,
are both restored, at `/d/x/x.txt` and `/d/x/y.txt`. -/
theorem ComFiles_Unzip_roundTrip_witness :
    unzipDest (fnExtractOf "/d/x.zip".toList ComSingleFileFormat) "/a/x.txt".toList =
      "/d/x/x.txt".toList ∧
    unzipDest (fnExtractOf "/d/x.zip".toList ComSingleFileFormat) "/b/y.txt".toList =
      "/d/x/y.txt".toList ∧
    ∀ f ∈ ["/a/x.txt".toList, "/b/y.txt".toList],
      fileAt (Unzip (fun _ => true)
        (ComFiles twoNamesDisk "/d/x.zip".toList true
          ["/a/x.txt".toList, "/b/y.txt".toList]).entries "/d/x.zip".toList).log
        (unzipDest (fnExtractOf "/d/x.zip".toList ComSingleFileFormat) f) =
        some (contentOf twoNamesDisk f) :=
  ⟨by decide, by decide,
    (ComFiles_Unzip_roundTrip (fun _ => true) twoNamesDisk
      ["/a/x.txt".toList, "/b/y.txt".toList] "/d/x.zip".toList
      (by decide) (by decide) (by decide)).2.2.2.2⟩

/-- C10 (the code at the failing input): for the archive path
`/dst/my.tar.gz.tar.gz` the extraction root of `ExtractTarGz` is `/dst/my`, and
for `/backups.zip/a.zip` the extraction root of `Unzip` is `/backups/a`: every
occurrence of the extension is removed, not only the trailing one. -/
theorem fnExtractOf_removes_every_occurrence :
    fnExtractOf "/dst/my.tar.gz.tar.gz".toList ComFileFormat = "/dst/my".toList ∧
    fnExtractOf "/backups.zip/a.zip".toList ComSingleFileFormat = "/backups/a".toList := by
  decide

/-! ## Path rewriting in the extractors -/

/-- The scan copies a text in which `old` does not occur. -/
theorem replaceScan_absent (old new : Str) (t : Str) :
    ∀ limit : Nat, ¬ old <:+: t → replaceScan old new limit 0 t = t := by
  induction t with
  | nil => intro limit _; cases limit <;> rfl
  | cons c t ih =>
    intro limit h
    have ht : ¬ old <:+: t := fun hc => h (List.infix_cons hc)
    cases limit with
    | zero => simp only [replaceScan]; rw [ih 0 ht]
    | succ k =>
      have hp : old.isPrefixOf (c :: t) = false := by
        rw [Bool.eq_false_iff]
        intro hc
        exact h (List.isPrefixOf_iff_prefix.mp hc).isInfix
      simp only [replaceScan, hp, Bool.false_eq_true, if_false]
      rw [ih (k + 1) ht]

/-- The scan drops the characters of a matched occurrence. -/
theorem replaceScan_skip (old new : Str) (a : Str) :
    ∀ (limit : Nat) (t : Str),
      replaceScan old new limit a.length (a ++ t) = replaceScan old new limit 0 t := by
  induction a with
  | nil => intro limit t; rfl
  | cons c a ih =>
    intro limit t
    simp only [List.length_cons, List.cons_append, replaceScan]
    exact ih limit t

/-- When `old` is not empty and does not occur in `rest`, replacing `old` in
`old ++ rest` gives `new ++ rest`. -/
theorem Replace_leading_once (old new rest : Str) (hold : old ≠ [])
    (hrest : ¬ old <:+: rest) : Replace (old ++ rest) old new (-1) = new ++ rest := by
  unfold Replace
  by_cases heq : old = new
  · simp [heq]
  · have h1 : ¬ (old = new ∨ (-1 : Int) = 0) := by
      rintro (h | h)
      · exact heq h
      · omega
    rw [if_neg h1]
    simp only [hold, if_false, Int.reduceNeg, Int.reduceLT, if_true]
    cases old with
    | nil => exact absurd rfl hold
    | cons c o =>
      have hp : (c :: o).isPrefixOf ((c :: o) ++ rest) = true :=
        List.isPrefixOf_iff_prefix.mpr (List.prefix_append _ _)
      simp only [List.cons_append] at hp ⊢
      simp only [replaceScan, hp, if_true, List.length_cons, Nat.add_sub_cancel]
      rw [replaceScan_skip, replaceScan_absent _ _ _ _ hrest]

/-- An entry of `ExtractTarGz` whose stored name is the original root followed
by a remainder in which the root does not occur again is restored at the
extraction root followed by that remainder. -/
theorem extractFileTo_leading_once (root fnExtract rest : Str) (hroot : root ≠ [])
    (hrest : ¬ root <:+: rest) :
    extractFileTo (root ++ rest) root fnExtract = fnExtract ++ rest := by
  unfold extractFileTo
  have hc : Contains (root ++ rest) root = true := by
    unfold Contains
    have h1 := (Index_ne_iff (root ++ rest) root).mpr (List.prefix_append _ _).isInfix
    have h2 := Index_ge (root ++ rest) root
    simp only [decide_eq_true_eq]
    omega
  rw [if_pos hc, Replace_leading_once _ _ _ hroot hrest]

/-- C11 (the code at the failing input): the archive of `/src`, which holds the
folder `src` with the file `f`, is extracted from `/out/b.tar.gz`. The original
root stays `/src`, but every occurrence of it is replaced: the folder
`/src/src` is restored at `/out/b/out/b` and the file at `/out/b/out/b/f`, not
at `/out/b/src` and `/out/b/src/f`. -/
theorem ExtractTarGz_replaces_every_root :
    (ExtractTarGz (fun _ => true) nestedRootArchive "/out/b.tar.gz".toList).fnExtractRoot =
      "/src".toList ∧
    (ExtractTarGz (fun _ => true) nestedRootArchive "/out/b.tar.gz".toList).log =
      [.mkdirAll "/out/b".toList, .mkdirAll "/out/b".toList,
        .mkdirAll "/out/b/out/b".toList, .write "/out/b/out/b/f".toList [7]] ∧
    madeDir (ExtractTarGz (fun _ => true) nestedRootArchive "/out/b.tar.gz".toList).log
      "/out/b/src".toList = false ∧
    fileAt (ExtractTarGz (fun _ => true) nestedRootArchive "/out/b.tar.gz".toList).log
      "/out/b/src/f".toList = none := by
  decide

/-- C12 (the code at the failing input): the file entry `/a/a.txt` of the
archive `/d/x.zip` has the parent directory `/a` and the base name `a.txt`. Its
destination is `/d/x/d/x.txt`, not `/d/x/a.txt`: the parent directory is
replaced wherever it occurs in the stored name. -/
theorem Unzip_replaces_every_parent :
    Dir "/a/a.txt".toList = "/a".toList ∧
    (Unzip (fun _ => true) [⟨"/a/a.txt".toList, false, [1]⟩] "/d/x.zip".toList).log =
      [.mkdirAll "/d/x".toList, .write "/d/x/d/x.txt".toList [1]] ∧
    fileAt (Unzip (fun _ => true) [⟨"/a/a.txt".toList, false, [1]⟩] "/d/x.zip".toList).log
      "/d/x/a.txt".toList = none := by
  decide

/-! ## Failures -/

/-- C13 (the code at the failing input): `/src` holds `a.txt`, then `sock`
whose tar header cannot be built, then `z.txt`. `CompressDIR` returns no error,
and the archive it reports as written ends after `/src/a.txt`: `z.txt` is
missing. The same happens when the empty file `lock` cannot be opened. -/
theorem CompressDIR_swallows_walk_error :
    CompressDIR "/src".toList .noFault headerFailTree [] =
      ⟨[⟨"/src".toList, .TypeDir, []⟩, ⟨"/src/a.txt".toList, .TypeReg, [1]⟩], none⟩ ∧
    CompressDIR "/src".toList .noFault openFailTree [] =
      ⟨[⟨"/src".toList, .TypeDir, []⟩, ⟨"/src/a.txt".toList, .TypeReg, [1]⟩,
        ⟨"/src/lock".toList, .TypeReg, []⟩], none⟩ := by
  decide

/-- C14 (the code at the failing input): `/src` holds `gone`, which cannot be
examined again, and `kept`, modified now. The run ends in a panic at `gone`:
`kept` is never examined, nothing is copied and the file counter stays 0. -/
theorem WalkDIRModLatest_stat_failure_panics :
    WalkDIRModLatest [] "/src".toList "/dst".toList (-7) 1000000 1000000 0 .noFault
      statFailTree Counters.initial =
      ⟨[.mkdirAll "/dst".toList, .mkdirAll "/dst".toList], [], ⟨0, 0⟩, none, true⟩ := by
  decide

/-- A file that `AddFileToZip` adds without error is stored under its full
path with all its bytes. -/
theorem AddFileToZip_ok (disk : Disk) (g : Str) (h : (AddFileToZip disk g).2 = none) :
    (AddFileToZip disk g).1 = some ⟨g, false, contentOf disk g⟩ := by
  unfold AddFileToZip contentOf at *
  cases hd : disk.lookup g with
  | none => simp [hd] at h
  | some v =>
    obtain ⟨data, fault⟩ := v
    cases fault <;> simp [hd] at h ⊢

/-- When `AddFileToZip` fails, either nothing was written for the file, or the
failure came while the bytes were copied and a truncated entry was written. -/
theorem AddFileToZip_failed (disk : Disk) (f : Str) (err : Err)
    (h : (AddFileToZip disk f).2 = some err) :
    (AddFileToZip disk f).1 = none ∨
      ∃ n, err = .copy f ∧ (AddFileToZip disk f).1 = some ⟨f, false, (contentOf disk f).take n⟩ := by
  unfold AddFileToZip contentOf at *
  cases hd : disk.lookup f with
  | none => simp [hd]
  | some v =>
    obtain ⟨data, fault⟩ := v
    cases fault with
    | copyFails n =>
      right
      simp only [hd, Option.some.injEq] at h ⊢
      exact ⟨n, h.symm, rfl⟩
    | noFault => simp [hd] at h
    | chmodFails => simp [hd] at h
    | headerFails => simp [hd]
    | openFails => simp [hd]
    | createFails => simp [hd]
    | statFails => simp [hd]

/-- The loop of `ComFiles` on files that are all added without error. -/
theorem addFiles_all_ok (disk : Disk) (files : List Str)
    (h : ∀ g ∈ files, (AddFileToZip disk g).2 = none) :
    addFiles disk files = ⟨files.map (fun g => ⟨g, false, contentOf disk g⟩), none⟩ := by
  induction files with
  | nil => rfl
  | cons g gs ih =>
    have h1 := h g (List.mem_cons_self _ _)
    have h2 := AddFileToZip_ok disk g h1
    have ih2 := ih (fun x hx => h x (List.mem_cons_of_mem _ hx))
    have h3 : AddFileToZip disk g = (some ⟨g, false, contentOf disk g⟩, none) :=
      Prod.ext h2 h1
    simp [addFiles, h3, ih2]

/-- The loop of `ComFiles` up to the first file that fails. -/
theorem addFiles_first_failure (disk : Disk) (pre : List Str) (f : Str) (post : List Str)
    (err : Err) (hpre : ∀ g ∈ pre, (AddFileToZip disk g).2 = none)
    (hf : (AddFileToZip disk f).2 = some err) :
    addFiles disk (pre ++ f :: post) =
      ⟨pre.map (fun g => ⟨g, false, contentOf disk g⟩) ++ (AddFileToZip disk f).1.toList,
        some err⟩ := by
  induction pre with
  | nil =>
    have h3 : AddFileToZip disk f = ((AddFileToZip disk f).1, some err) := Prod.ext rfl hf
    simp only [List.nil_append, List.map_nil, addFiles]
    rw [h3]
  | cons g gs ih =>
    have h1 := hpre g (List.mem_cons_self _ _)
    have h2 := AddFileToZip_ok disk g h1
    have ih2 := ih (fun x hx => hpre x (List.mem_cons_of_mem _ hx))
    have h3 : AddFileToZip disk g = (some ⟨g, false, contentOf disk g⟩, none) :=
      Prod.ext h2 h1
    simp [addFiles, h3, ih2]

/-- C15 (counterexample): of the files `/a/one`, `/a/two` and `/a/three`, the
second fails while its bytes are copied. `ComFiles` returns that error and adds
nothing for `/a/three`, but the archive holds an entry for the failing file
`/a/two` itself, with the one byte that was copied. -/
theorem ComFiles_keeps_failed_entry :
    ComFiles copyFailDisk "/d/x.zip".toList true
        ["/a/one".toList, "/a/two".toList, "/a/three".toList] =
      ⟨[⟨"/a/one".toList, false, [1]⟩, ⟨"/a/two".toList, false, [2]⟩],
        some (.copy "/a/two".toList)⟩ := by
  decide

/-- C15 (as amended): once the archive file is created, if adding some file
fails, `ComFiles` returns the error of the first failing file and adds no later
file: the archive holds the entries of the files before the failing one,
followed, only when the failure came while the bytes were copied, by a
truncated entry for the failing file; and if no file fails, `ComFiles` returns
no error and the archive holds every file. -/
theorem ComFiles_first_failure (disk : Disk) (dest : Str) (pre : List Str) (f : Str)
    (post : List Str) (err : Err)
    (hpre : ∀ g ∈ pre, (AddFileToZip disk g).2 = none)
    (hf : (AddFileToZip disk f).2 = some err) :
    (ComFiles disk dest true (pre ++ f :: post)).err = some err ∧
    (ComFiles disk dest true (pre ++ f :: post)).entries =
      pre.map (fun g => ⟨g, false, contentOf disk g⟩) ++ (AddFileToZip disk f).1.toList ∧
    ((AddFileToZip disk f).1 = none ∨
      ∃ n, err = .copy f ∧
        (AddFileToZip disk f).1 = some ⟨f, false, (contentOf disk f).take n⟩) ∧
    ∀ files : List Str, (∀ g ∈ files, (AddFileToZip disk g).2 = none) →
      (ComFiles disk dest true files).err = none ∧
      (ComFiles disk dest true files).entries =
        files.map (fun g => ⟨g, false, contentOf disk g⟩) := by
  have h := addFiles_first_failure disk pre f post err hpre hf
  refine ⟨by simp [ComFiles, h], by simp [ComFiles, h], AddFileToZip_failed disk f err hf, ?_⟩
  intro files hall
  have h2 := addFiles_all_ok disk files hall
  simp [ComFiles, h2]

/-- C15 (as amended), at a list whose second file cannot be found: the error is
that of the second file and the archive holds the first file only. -/
theorem ComFiles_first_failure_witness :
    (AddFileToZip twoNamesDisk "/a/none".toList).2 = some (.openErr "/a/none".toList) ∧
    (ComFiles twoNamesDisk "/d/x.zip".toList true
      (["/a/x.txt".toList] ++ "/a/none".toList :: ["/b/y.txt".toList])).err =
      some (.openErr "/a/none".toList) ∧
    (ComFiles twoNamesDisk "/d/x.zip".toList true
      (["/a/x.txt".toList] ++ "/a/none".toList :: ["/b/y.txt".toList])).entries =
      [⟨"/a/x.txt".toList, false, [1]⟩] :=
  ⟨by decide,
    (ComFiles_first_failure twoNamesDisk "/d/x.zip".toList ["/a/x.txt".toList]
      "/a/none".toList ["/b/y.txt".toList] (.openErr "/a/none".toList)
      (by decide) (by decide)).1,
    by decide⟩

/-! ## A failing child in CopyDir -/

/-- The changes the loop of `CopyDir` makes, and what it creates, do not depend
on the error and the counters it starts with; the counters end at their
starting values plus what the loop adds when started from 0; the error the
loop ends with does not depend on the counters. -/
theorem copyChildren_shift (ignoreFT : List Str) (fds : Listing) :
    ∀ (src dst : Str) (err : Option Err) (st : Counters),
      (copyChildren ignoreFT src dst fds err st).log =
        (copyChildren ignoreFT src dst fds none Counters.initial).log ∧
      (copyChildren ignoreFT src dst fds err st).made =
        (copyChildren ignoreFT src dst fds none Counters.initial).made ∧
      (copyChildren ignoreFT src dst fds err st).st.NumFilesCopied =
        st.NumFilesCopied +
          (copyChildren ignoreFT src dst fds none Counters.initial).st.NumFilesCopied ∧
      (copyChildren ignoreFT src dst fds err st).st.NumFoldersCopied =
        st.NumFoldersCopied +
          (copyChildren ignoreFT src dst fds none Counters.initial).st.NumFoldersCopied ∧
      (copyChildren ignoreFT src dst fds err st).err =
        (copyChildren ignoreFT src dst fds err Counters.initial).err := by
  induction fds with
  | nil =>
    intro src dst err st
    simp [copyChildren, Counters.initial]
  | file name data mtime fault rest ih =>
    intro src dst err st
    cases hx : _continue ignoreFT (Join src name)
    · simp only [copyChildren, hx, Bool.false_eq_true, if_false]
      by_cases he : (CopyFile (Join src name) (Join dst name) dst data fault).err = none
      · simp only [he, if_true]
        obtain ⟨a1, a2, a3, a4, a5⟩ := ih src dst none
          { st with NumFilesCopied := st.NumFilesCopied + 1 }
        obtain ⟨b1, b2, b3, b4, _⟩ := ih src dst none
          { Counters.initial with NumFilesCopied := Counters.initial.NumFilesCopied + 1 }
        refine ⟨by rw [a1, b1], by rw [a2, b2], ?_, ?_, ?_⟩
        · rw [a3, b3]
          simp only [Counters.initial]
          ring
        · rw [a4, b4]
          simp only [Counters.initial]
          ring
        · rw [a5]
          exact ((ih src dst none _).2.2.2.2).symm
      · simp only [he, if_false]
        obtain ⟨a1, a2, a3, a4, a5⟩ := ih src dst
          (CopyFile (Join src name) (Join dst name) dst data fault).err st
        obtain ⟨b1, b2, b3, b4, _⟩ := ih src dst
          (CopyFile (Join src name) (Join dst name) dst data fault).err Counters.initial
        refine ⟨by rw [a1, b1], by rw [a2, b2], ?_, ?_, a5⟩
        · rw [a3, b3]
          simp only [Counters.initial]
          ring
        · rw [a4, b4]
          simp only [Counters.initial]
          ring
    · simp only [copyChildren, hx, if_true]
      exact ih src dst err st
  | dir name fault kids rest ihk ihr =>
    intro src dst err st
    cases hx : _continue ignoreFT (Join src name)
    · simp only [copyChildren, hx, Bool.false_eq_true, if_false]
      cases fault with
      | noFault =>
        obtain ⟨k1, k2, k3, k4, k5⟩ := ihk (Join src name) (Join dst name) none st
        simp only [copyDirAround, k1, k2, k5]
        by_cases he : (copyChildren ignoreFT (Join src name) (Join dst name) kids none
            Counters.initial).err = none
        · simp only [he, if_true]
          obtain ⟨a1, a2, a3, a4, a5⟩ := ihr src dst none
            { (copyChildren ignoreFT (Join src name) (Join dst name) kids none st).st with
              NumFoldersCopied :=
                (copyChildren ignoreFT (Join src name) (Join dst name) kids none
                  st).st.NumFoldersCopied + 1 }
          obtain ⟨b1, b2, b3, b4, _⟩ := ihr src dst none
            { (copyChildren ignoreFT (Join src name) (Join dst name) kids none
                Counters.initial).st with
              NumFoldersCopied :=
                (copyChildren ignoreFT (Join src name) (Join dst name) kids none
                  Counters.initial).st.NumFoldersCopied + 1 }
          refine ⟨by rw [a1, b1], by rw [a2, b2], ?_, ?_, ?_⟩
          · rw [a3, b3]
            simp only [k3]
            ring
          · rw [a4, b4]
            simp only [k4]
            ring
          · rw [a5]
            exact ((ihr src dst none _).2.2.2.2).symm
        · simp only [he, if_false]
          obtain ⟨a1, a2, a3, a4, a5⟩ := ihr src dst
            (copyChildren ignoreFT (Join src name) (Join dst name) kids none
              Counters.initial).err
            (copyChildren ignoreFT (Join src name) (Join dst name) kids none st).st
          obtain ⟨b1, b2, b3, b4, _⟩ := ihr src dst
            (copyChildren ignoreFT (Join src name) (Join dst name) kids none
              Counters.initial).err
            (copyChildren ignoreFT (Join src name) (Join dst name) kids none
              Counters.initial).st
          refine ⟨by rw [a1, b1], by rw [a2, b2], ?_, ?_, ?_⟩
          · rw [a3, b3, k3]
            ring
          · rw [a4, b4, k4]
            ring
          · rw [a5]
            exact ((ihr src dst _ _).2.2.2.2).symm
      | statFails =>
        simp only [copyDirAround]
        obtain ⟨a1, a2, a3, a4, a5⟩ := ihr src dst (some (Err.stat (Join src name))) st
        obtain ⟨b1, b2, b3, b4, _⟩ := ihr src dst (some (Err.stat (Join src name)))
          Counters.initial
        simp only [reduceCtorEq, if_false]
        refine ⟨by rw [a1, b1], by rw [a2, b2], ?_, ?_, a5⟩
        · rw [a3, b3]
          simp only [Counters.initial]
          ring
        · rw [a4, b4]
          simp only [Counters.initial]
          ring
      | mkdirFails =>
        simp only [copyDirAround]
        obtain ⟨a1, a2, a3, a4, a5⟩ := ihr src dst (some (Err.mkdir (Join dst name))) st
        obtain ⟨b1, b2, b3, b4, _⟩ := ihr src dst (some (Err.mkdir (Join dst name)))
          Counters.initial
        simp only [reduceCtorEq, if_false]
        refine ⟨by rw [a1, b1], by rw [a2, b2], ?_, ?_, a5⟩
        · rw [a3, b3]
          simp only [Counters.initial]
          ring
        · rw [a4, b4]
          simp only [Counters.initial]
          ring
      | listFails =>
        simp only [copyDirAround]
        obtain ⟨a1, a2, a3, a4, a5⟩ := ihr src dst (some (Err.readdir (Join src name))) st
        obtain ⟨b1, b2, b3, b4, _⟩ := ihr src dst (some (Err.readdir (Join src name)))
          Counters.initial
        simp only [reduceCtorEq, if_false]
        refine ⟨by rw [a1, b1], by rw [a2, b2], ?_, ?_, a5⟩
        · rw [a3, b3]
          simp only [Counters.initial]
          ring
        · rw [a4, b4]
          simp only [Counters.initial]
          ring
    · simp only [copyChildren, hx, if_true]
      exact ihr src dst err st

/-- The loop of `CopyDir` over a listing in two parts: the second part is
processed with the error and the counters the first part left. -/
theorem copyChildren_append (ignoreFT : List Str) (src dst : Str) (a b : Listing) :
    ∀ (err : Option Err) (st : Counters),
      (copyChildren ignoreFT src dst (a.append b) err st).err =
        (copyChildren ignoreFT src dst b (copyChildren ignoreFT src dst a err st).err
          (copyChildren ignoreFT src dst a err st).st).err ∧
      (copyChildren ignoreFT src dst (a.append b) err st).st =
        (copyChildren ignoreFT src dst b (copyChildren ignoreFT src dst a err st).err
          (copyChildren ignoreFT src dst a err st).st).st := by
  induction a with
  | nil => intro err st; exact ⟨rfl, rfl⟩
  | file name data mtime fault rest ih =>
    intro err st
    cases hx : _continue ignoreFT (Join src name)
    · simp only [Listing.append, copyChildren, hx, Bool.false_eq_true, if_false]
      exact ih _ _
    · simp only [Listing.append, copyChildren, hx, if_true]
      exact ih _ _
  | dir name fault kids rest _ ihr =>
    intro err st
    cases hx : _continue ignoreFT (Join src name)
    · simp only [Listing.append, copyChildren, hx, Bool.false_eq_true, if_false]
      exact ihr _ _
    · simp only [Listing.append, copyChildren, hx, if_true]
      exact ihr _ _

/-- The changes the loop of `CopyDir` makes over a listing in two parts are
those it makes over the first part, then those it makes over the second. -/
theorem copyChildren_append_log (ignoreFT : List Str) (src dst : Str) (a b : Listing) :
    ∀ (err : Option Err) (st : Counters),
      (copyChildren ignoreFT src dst (a.append b) err st).log =
        (copyChildren ignoreFT src dst a err st).log ++
          (copyChildren ignoreFT src dst b (copyChildren ignoreFT src dst a err st).err
            (copyChildren ignoreFT src dst a err st).st).log := by
  induction a with
  | nil => intro err st; simp [Listing.append, copyChildren]
  | file name data mtime fault rest ih =>
    intro err st
    cases hx : _continue ignoreFT (Join src name)
    · simp only [Listing.append, copyChildren, hx, Bool.false_eq_true, if_false]
      rw [ih, List.append_assoc]
    · simp only [Listing.append, copyChildren, hx, if_true]
      exact ih _ _
  | dir name fault kids rest _ ihr =>
    intro err st
    cases hx : _continue ignoreFT (Join src name)
    · simp only [Listing.append, copyChildren, hx, Bool.false_eq_true, if_false]
      rw [ihr, List.append_assoc]
    · simp only [Listing.append, copyChildren, hx, if_true]
      exact ihr _ _

/-- The changes `CopyDir` makes and the error it returns do not depend on the
counters it starts with, and the counters end at their starting values plus
what the call adds when started from 0. -/
theorem CopyDir_shift (ignoreFT : List Str) (src dst : Str) (fault : DirFault)
    (fds : Listing) (st : Counters) :
    (CopyDir ignoreFT src dst fault fds st).log =
      (CopyDir ignoreFT src dst fault fds Counters.initial).log ∧
    (CopyDir ignoreFT src dst fault fds st).err =
      (CopyDir ignoreFT src dst fault fds Counters.initial).err ∧
    (CopyDir ignoreFT src dst fault fds st).st.NumFilesCopied =
      st.NumFilesCopied + (CopyDir ignoreFT src dst fault fds Counters.initial).st.NumFilesCopied ∧
    (CopyDir ignoreFT src dst fault fds st).st.NumFoldersCopied =
      st.NumFoldersCopied +
        (CopyDir ignoreFT src dst fault fds Counters.initial).st.NumFoldersCopied := by
  obtain ⟨k1, _, k3, k4, k5⟩ := copyChildren_shift ignoreFT fds src dst none st
  cases fault <;> simp [CopyDir, copyDirAround, k1, k3, k4, k5, Counters.initial]

/-- C16 (counterexample): the folder `d` holds the file `good` and
then the file `zbad`, which cannot be opened. The copy of `d` fails: `CopyDir`
on `d` returns the error of `zbad`, and the folder counter is not raised. The
file counter is 1 all the same: the failed child has added the file copied
inside it. -/
theorem CopyDir_failed_folder_keeps_counts :
    (CopyDir [] "/src/d".toList "/dst/d".toList .noFault
      (.file "good".toList [2] 0 .noFault (.file "zbad".toList [1] 0 .openFails .nil))
      Counters.initial).err = some (.openErr "/src/d/zbad".toList) ∧
    (CopyDir [] "/src".toList "/dst".toList .noFault goodThenBadTree Counters.initial).st =
      ⟨1, 0⟩ ∧
    (CopyDir [] "/src".toList "/dst".toList .noFault goodThenBadTree Counters.initial).log =
      [.mkdirAll "/dst".toList, .mkdirAll "/dst/d".toList, .mkdirAll "/dst/d".toList,
        .write "/dst/d/good".toList [2]] := by
  decide

/-- C16 (as amended): take any listing and any child of it that is not
excluded, with the siblings `a` before it and `b` after it, whatever failed in
`a`. The changes the loop of `CopyDir` makes are those for `a`, then those for
the child, then exactly those the loop makes for `b` on its own: a failure does
not stop the loop. A file whose `CopyFile` returns no error is written at the
destination and adds one to the file counter; a folder whose `CopyDir` returns
no error is created and adds one to the folder counter. A file whose `CopyFile`
fails adds nothing to the counters. A folder whose `CopyDir` fails adds nothing
to the folder counter for itself, and what was copied inside it stays counted.
In every case the counters end at what `a` left, plus what the child adds, plus
what the loop adds for `b` on its own. -/
theorem CopyDir_continues_after_failure (ignoreFT : List Str) (src dst : Str)
    (a b : Listing) (err : Option Err) (st : Counters) :
    (∀ (name : Str) (data : List Nat) (mtime : Int) (fault : FileFault),
      _continue ignoreFT (Join src name) = false →
      (copyChildren ignoreFT src dst (a.append (.file name data mtime fault b)) err st).log =
        (copyChildren ignoreFT src dst a err st).log ++
          (CopyFile (Join src name) (Join dst name) dst data fault).log ++
          (copyChildren ignoreFT src dst b none Counters.initial).log ∧
      ((CopyFile (Join src name) (Join dst name) dst data fault).err = none →
        Effect.write (Join dst name) (readAfterCreate (Join src name) (Join dst name) data) ∈
          (copyChildren ignoreFT src dst (a.append (.file name data mtime fault b)) err st).log ∧
        (Clean (Join dst name) ≠ Clean (Join src name) → Effect.write (Join dst name) data ∈
          (copyChildren ignoreFT src dst
            (a.append (.file name data mtime fault b)) err st).log) ∧
        (copyChildren ignoreFT src dst
            (a.append (.file name data mtime fault b)) err st).st.NumFilesCopied =
          (copyChildren ignoreFT src dst a err st).st.NumFilesCopied + 1 +
            (copyChildren ignoreFT src dst b none Counters.initial).st.NumFilesCopied ∧
        (copyChildren ignoreFT src dst
            (a.append (.file name data mtime fault b)) err st).st.NumFoldersCopied =
          (copyChildren ignoreFT src dst a err st).st.NumFoldersCopied +
            (copyChildren ignoreFT src dst b none Counters.initial).st.NumFoldersCopied) ∧
      ((CopyFile (Join src name) (Join dst name) dst data fault).err ≠ none →
        (copyChildren ignoreFT src dst
            (a.append (.file name data mtime fault b)) err st).st.NumFilesCopied =
          (copyChildren ignoreFT src dst a err st).st.NumFilesCopied +
            (copyChildren ignoreFT src dst b none Counters.initial).st.NumFilesCopied ∧
        (copyChildren ignoreFT src dst
            (a.append (.file name data mtime fault b)) err st).st.NumFoldersCopied =
          (copyChildren ignoreFT src dst a err st).st.NumFoldersCopied +
            (copyChildren ignoreFT src dst b none Counters.initial).st.NumFoldersCopied)) ∧
    (∀ (name : Str) (fault : DirFault) (kids : Listing),
      _continue ignoreFT (Join src name) = false →
      (copyChildren ignoreFT src dst (a.append (.dir name fault kids b)) err st).log =
        (copyChildren ignoreFT src dst a err st).log ++
          (CopyDir ignoreFT (Join src name) (Join dst name) fault kids Counters.initial).log ++
          (copyChildren ignoreFT src dst b none Counters.initial).log ∧
      (copyChildren ignoreFT src dst
          (a.append (.dir name fault kids b)) err st).st.NumFilesCopied =
        (copyChildren ignoreFT src dst a err st).st.NumFilesCopied +
          (CopyDir ignoreFT (Join src name) (Join dst name) fault kids
            Counters.initial).st.NumFilesCopied +
          (copyChildren ignoreFT src dst b none Counters.initial).st.NumFilesCopied ∧
      ((CopyDir ignoreFT (Join src name) (Join dst name) fault kids Counters.initial).err =
          none →
        Effect.mkdirAll (Join dst name) ∈
          (copyChildren ignoreFT src dst (a.append (.dir name fault kids b)) err st).log ∧
        (copyChildren ignoreFT src dst
            (a.append (.dir name fault kids b)) err st).st.NumFoldersCopied =
          (copyChildren ignoreFT src dst a err st).st.NumFoldersCopied +
            (CopyDir ignoreFT (Join src name) (Join dst name) fault kids
              Counters.initial).st.NumFoldersCopied + 1 +
            (copyChildren ignoreFT src dst b none Counters.initial).st.NumFoldersCopied) ∧
      ((CopyDir ignoreFT (Join src name) (Join dst name) fault kids Counters.initial).err ≠
          none →
        (copyChildren ignoreFT src dst
            (a.append (.dir name fault kids b)) err st).st.NumFoldersCopied =
          (copyChildren ignoreFT src dst a err st).st.NumFoldersCopied +
            (CopyDir ignoreFT (Join src name) (Join dst name) fault kids
              Counters.initial).st.NumFoldersCopied +
            (copyChildren ignoreFT src dst b none Counters.initial).st.NumFoldersCopied)) := by
  refine ⟨?_, ?_⟩
  · intro name data mtime fault hx
    have hlog : (copyChildren ignoreFT src dst
        (a.append (.file name data mtime fault b)) err st).log =
        (copyChildren ignoreFT src dst a err st).log ++
          (CopyFile (Join src name) (Join dst name) dst data fault).log ++
          (copyChildren ignoreFT src dst b none Counters.initial).log := by
      rw [copyChildren_append_log]
      simp only [copyChildren, hx, Bool.false_eq_true, if_false]
      rw [(copyChildren_shift ignoreFT b src dst _ _).1, List.append_assoc]
    have hst := (copyChildren_append ignoreFT src dst a (.file name data mtime fault b)
      err st).2
    refine ⟨hlog, ?_, ?_⟩
    · intro hok
      have hw : Effect.write (Join dst name)
          (readAfterCreate (Join src name) (Join dst name) data) ∈
          (CopyFile (Join src name) (Join dst name) dst data fault).log := by
        cases fault <;> simp [CopyFile] at hok ⊢
      have hmem : Effect.write (Join dst name)
          (readAfterCreate (Join src name) (Join dst name) data) ∈
          (copyChildren ignoreFT src dst
            (a.append (.file name data mtime fault b)) err st).log := by
        rw [hlog]
        exact List.mem_append_left _ (List.mem_append_right _ hw)
      refine ⟨hmem, ?_, ?_, ?_⟩
      · intro hne
        have hr : readAfterCreate (Join src name) (Join dst name) data = data := by
          simp [readAfterCreate, hne]
        rw [hr] at hmem
        exact hmem
      · rw [hst]
        simp only [copyChildren, hx, Bool.false_eq_true, if_false, hok, if_true]
        rw [(copyChildren_shift ignoreFT b src dst _ _).2.2.1]
      · rw [hst]
        simp only [copyChildren, hx, Bool.false_eq_true, if_false, hok, if_true]
        rw [(copyChildren_shift ignoreFT b src dst _ _).2.2.2.1]
    · intro hfail
      refine ⟨?_, ?_⟩
      · rw [hst]
        simp only [copyChildren, hx, Bool.false_eq_true, if_false, hfail]
        rw [(copyChildren_shift ignoreFT b src dst _ _).2.2.1]
      · rw [hst]
        simp only [copyChildren, hx, Bool.false_eq_true, if_false, hfail]
        rw [(copyChildren_shift ignoreFT b src dst _ _).2.2.2.1]
  · intro name fault kids hx
    have hsub : ∀ s : Counters, copyDirAround (Join src name) (Join dst name) fault s
        (copyChildren ignoreFT (Join src name) (Join dst name) kids none s) =
        CopyDir ignoreFT (Join src name) (Join dst name) fault kids s := fun _ => rfl
    obtain ⟨s1, s2, s3, s4⟩ := CopyDir_shift ignoreFT (Join src name) (Join dst name) fault kids
      (copyChildren ignoreFT src dst a err st).st
    have hlog : (copyChildren ignoreFT src dst (a.append (.dir name fault kids b)) err st).log =
        (copyChildren ignoreFT src dst a err st).log ++
          (CopyDir ignoreFT (Join src name) (Join dst name) fault kids Counters.initial).log ++
          (copyChildren ignoreFT src dst b none Counters.initial).log := by
      rw [copyChildren_append_log]
      simp only [copyChildren, hx, Bool.false_eq_true, if_false, hsub]
      rw [(copyChildren_shift ignoreFT b src dst _ _).1, s1, List.append_assoc]
    have hst := (copyChildren_append ignoreFT src dst a (.dir name fault kids b) err st).2
    refine ⟨hlog, ?_, ?_, ?_⟩
    · rw [hst]
      simp only [copyChildren, hx, Bool.false_eq_true, if_false, hsub]
      rw [(copyChildren_shift ignoreFT b src dst _ _).2.2.1]
      by_cases he : (CopyDir ignoreFT (Join src name) (Join dst name) fault kids
          (copyChildren ignoreFT src dst a err st).st).err = none
      · simp only [he, if_true]
        rw [s3]
      · simp only [he, if_false]
        rw [s3]
    · intro hok
      have hok2 : (CopyDir ignoreFT (Join src name) (Join dst name) fault kids
          (copyChildren ignoreFT src dst a err st).st).err = none := by
        rw [s2]
        exact hok
      refine ⟨?_, ?_⟩
      · rw [hlog]
        refine List.mem_append_left _ (List.mem_append_right _ ?_)
        cases fault <;> simp [CopyDir, copyDirAround] at hok ⊢
      · rw [hst]
        simp only [copyChildren, hx, Bool.false_eq_true, if_false, hsub, hok2, if_true]
        rw [(copyChildren_shift ignoreFT b src dst _ _).2.2.2.1]
        simp only
        rw [s4]
    · intro hfail
      have hfail2 : ¬ (CopyDir ignoreFT (Join src name) (Join dst name) fault kids
          (copyChildren ignoreFT src dst a err st).st).err = none := by
        rw [s2]
        exact hfail
      rw [hst]
      simp only [copyChildren, hx, Bool.false_eq_true, if_false, hsub, hfail2]
      rw [(copyChildren_shift ignoreFT b src dst _ _).2.2.2.1, s4]

/-- C16 (as amended), at a directory whose first file `bad` cannot be opened,
followed by the folder `dir` with the file `in` and by the file `good`: the
folder, its file and the file `good` are all copied and counted, and the
failed file adds nothing. -/
theorem CopyDir_continues_after_failure_witness :
    _continue [] (Join "/src".toList "dir".toList) = false ∧
    (CopyDir [] (Join "/src".toList "dir".toList) (Join "/dst".toList "dir".toList) .noFault
      (.file "in".toList [2] 0 .noFault .nil) Counters.initial).err = none ∧
    (copyChildren [] "/src".toList "/dst".toList failFirstTree none Counters.initial).st =
      ⟨2, 1⟩ ∧
    (copyChildren [] "/src".toList "/dst".toList failFirstTree none Counters.initial).log =
      [.mkdirAll "/dst/dir".toList, .mkdirAll "/dst/dir".toList,
        .write "/dst/dir/in".toList [2], .mkdirAll "/dst".toList,
        .write "/dst/good".toList [3]] ∧
    (copyChildren [] "/src".toList "/dst".toList
      ((Listing.file "bad".toList [1] 0 .openFails .nil).append
        (.dir "dir".toList .noFault (.file "in".toList [2] 0 .noFault .nil)
          (.file "good".toList [3] 0 .noFault .nil))) none
      Counters.initial).st.NumFoldersCopied =
      (copyChildren [] "/src".toList "/dst".toList
        (.file "bad".toList [1] 0 .openFails .nil) none
        Counters.initial).st.NumFoldersCopied +
      (CopyDir [] (Join "/src".toList "dir".toList) (Join "/dst".toList "dir".toList) .noFault
        (.file "in".toList [2] 0 .noFault .nil) Counters.initial).st.NumFoldersCopied + 1 +
      (copyChildren [] "/src".toList "/dst".toList (.file "good".toList [3] 0 .noFault .nil)
        none Counters.initial).st.NumFoldersCopied :=
  ⟨by decide, by decide, by decide, by decide,
    (((CopyDir_continues_after_failure [] "/src".toList "/dst".toList
      (.file "bad".toList [1] 0 .openFails .nil) (.file "good".toList [3] 0 .noFault .nil)
      none Counters.initial).2 "dir".toList .noFault (.file "in".toList [2] 0 .noFault .nil)
      (by decide)).2.2.1 (by decide)).2⟩

/-! ## Destination folders -/

/-- The first change `CopyDir` makes, when it makes one, is to create `dst`;
and `CopyFile` creates the folder of its destination before it writes. -/
theorem CopyDir_creates_dst_first (ignoreFT : List Str) (src dst : Str) (fault : DirFault)
    (fds : Listing) (st : Counters) :
    ((CopyDir ignoreFT src dst fault fds st).log = [] ∨
      (CopyDir ignoreFT src dst fault fds st).log.head? = some (.mkdirAll dst)) ∧
    ∀ (s d bare : Str) (data : List Nat) (ff : FileFault),
      (CopyFile s d bare data ff).log = [] ∨
        (CopyFile s d bare data ff).log.head? = some (.mkdirAll bare) := by
  constructor
  · cases fault <;> simp [CopyDir, copyDirAround]
  · intro s d bare data ff
    cases ff <;> simp [CopyFile]

/-- C17 (the code at the failing input): `/src` holds the folder `sub` with the
file `src`, modified now, and is copied to `/backup/dst`. The first loop
creates `/backup/dst` and `/backup/dst/sub`. The file is in the window and is
handed to `DIRCopyFiles` with the destination `/backup/dst/sub/backup/dst`,
whose folder `/backup/dst/sub/backup` was not created: it is neither the
destination root nor the path of a collected folder. The copy fails at the
creation of the file, and no file is counted. -/
theorem WalkDIRModLatest_folder_not_created :
    WalkDIRModLatest [] "/src".toList "/backup/dst".toList (-7) 1000000 1000000 0 .noFault
      nestedSrcTree Counters.initial =
      ⟨[.mkdirAll "/backup/dst".toList, .mkdirAll "/backup/dst".toList,
          .mkdirAll "/backup/dst/sub".toList],
        [⟨"/src/sub/src".toList, [5], 1000000, .createFails⟩], ⟨0, 0⟩,
        some (.create "/backup/dst/sub/backup/dst".toList), false⟩ ∧
    Replace "/src/sub/src".toList "/src".toList "/backup/dst".toList (-1) =
      "/backup/dst/sub/backup/dst".toList ∧
    Dir "/backup/dst/sub/backup/dst".toList = "/backup/dst/sub/backup".toList ∧
    madeDir (WalkDIRModLatest [] "/src".toList "/backup/dst".toList (-7) 1000000 1000000
      0 .noFault nestedSrcTree Counters.initial).log "/backup/dst/sub/backup".toList = false ∧
    madeDir (WalkDIRModLatest [] "/src".toList "/backup/dst".toList (-7) 1000000 1000000
      0 .noFault nestedSrcTree Counters.initial).log "/backup/dst/sub".toList = true := by
  decide

/-! ## The archive of CompressDIR -/

/-- In the walk of a listing on which no call fails, every visit is a
directory or a regular file on which no call fails. -/
theorem walkList_faultFree (fds : Listing) :
    ∀ path : Str, fds.faultFree = true → ∀ v ∈ walkList path fds,
      v.info = .dir ∨ ∃ data mtime, v.info = .file data mtime .noFault := by
  induction fds with
  | nil => intro path _ v hv; simp [walkList] at hv
  | file name data mtime fault rest ih =>
    intro path hf v hv
    simp only [Listing.faultFree, Bool.and_eq_true, decide_eq_true_eq] at hf
    simp only [walkList, List.mem_cons] at hv
    rcases hv with hv | hv
    · subst hv
      exact Or.inr ⟨data, mtime, by rw [hf.1]⟩
    · exact ih path hf.2 v hv
  | dir name fault kids rest ihk ihr =>
    intro path hf v hv
    simp only [Listing.faultFree, Bool.and_eq_true, decide_eq_true_eq] at hf
    obtain ⟨⟨hfault, hkids⟩, hrest⟩ := hf
    subst hfault
    simp only [walkList, List.cons_append, List.mem_cons, List.mem_append] at hv
    rcases hv with hv | hv | hv
    · subst hv
      exact Or.inl rfl
    · exact ihk _ hkids v hv
    · exact ihr path hrest v hv

/-- On visits that are directories or regular files on which no call fails,
`CompressDIR` writes one entry per visit that passes the exclusion test, in
order, and closes the archive without error. -/
theorem tarVisits_faultFree (ignoreFT : List Str) (vs : List Visit)
    (h : ∀ v ∈ vs, v.info = .dir ∨ ∃ data mtime, v.info = .file data mtime .noFault) :
    tarVisits ignoreFT vs =
      ⟨(vs.filter (fun v => !_continue ignoreFT v.path)).map Visit.toEntry, none⟩ := by
  induction vs with
  | nil => rfl
  | cons v vs ih =>
    have ih2 := ih (fun w hw => h w (List.mem_cons_of_mem _ hw))
    rcases h v (List.mem_cons_self _ _) with hv | ⟨data, mtime, hv⟩
    · cases hx : _continue ignoreFT v.path
      · simp [tarVisits, hv, hx, ih2, List.filter_cons, Visit.toEntry]
      · simp [tarVisits, hv, hx, ih2, List.filter_cons]
    · cases hx : _continue ignoreFT v.path
      · simp [tarVisits, hv, hx, ih2, List.filter_cons, Visit.toEntry]
      · simp [tarVisits, hv, hx, ih2, List.filter_cons]

/-- C18: for a source directory on which no call fails, the archive written by
`CompressDIR` holds exactly one entry for each walked path that passes the
exclusion test, in walk order, and none for an excluded path; `CompressDIR`
returns no error. The stored name of an entry is the walked path with forward
slashes; the entry of a directory has the type Directory and no content; the
entry of a regular file carries exactly the bytes of the file. -/
theorem CompressDIR_entries (src : Str) (fds : Listing) (ignoreFT : List Str)
    (h : fds.faultFree = true) :
    (CompressDIR src .noFault fds ignoreFT).entries =
      ((Walk src .noFault fds).filter (fun v => !_continue ignoreFT v.path)).map
        Visit.toEntry ∧
    (CompressDIR src .noFault fds ignoreFT).err = none ∧
    ∀ v ∈ Walk src .noFault fds,
      v.toEntry.name = ToSlash v.path ∧
      (v.info = .dir → v.toEntry.typeflag = .TypeDir ∧ v.toEntry.data = []) ∧
      (∀ data mtime fault, v.info = .file data mtime fault →
        v.toEntry.typeflag = .TypeReg ∧ v.toEntry.data = data) := by
  have hall : ∀ v ∈ Walk src .noFault fds,
      v.info = .dir ∨ ∃ data mtime, v.info = .file data mtime .noFault := by
    intro v hv
    simp only [Walk, List.mem_cons] at hv
    rcases hv with hv | hv
    · subst hv
      exact Or.inl rfl
    · exact walkList_faultFree fds src h v hv
  have ht := tarVisits_faultFree ignoreFT (Walk src .noFault fds) hall
  refine ⟨by simp [CompressDIR, ht], by simp [CompressDIR, ht], ?_⟩
  intro v _
  refine ⟨?_, ?_, ?_⟩
  · unfold Visit.toEntry
    cases v.info <;> rfl
  · intro hd
    simp [Visit.toEntry, hd]
  · intro data mtime fault hf
    simp [Visit.toEntry, hf]

/-- C18, at the sample directory with the pattern `.db`: the archive holds
`/src`, `/src/a.txt`, `/src/sub` and `/src/sub/c.txt`, in this order. -/
theorem CompressDIR_entries_witness :
    sampleTree.faultFree = true ∧
    (CompressDIR "/src".toList .noFault sampleTree [".db".toList]).entries =
      [⟨"/src".toList, .TypeDir, []⟩, ⟨"/src/a.txt".toList, .TypeReg, [1, 2]⟩,
        ⟨"/src/sub".toList, .TypeDir, []⟩, ⟨"/src/sub/c.txt".toList, .TypeReg, []⟩] ∧
    (CompressDIR "/src".toList .noFault sampleTree [".db".toList]).entries =
      ((Walk "/src".toList .noFault sampleTree).filter
        (fun v => !_continue [".db".toList] v.path)).map Visit.toEntry :=
  ⟨by decide, by decide,
    (CompressDIR_entries "/src".toList sampleTree [".db".toList] (by decide)).1⟩

/-! ## Directory entries of Unzip -/

/-- C19 (the code at the failing input): the archive `/d/x.zip` holds the
directory entry `a/sub/` and the file entry `a/sub/f`. The rewritten
destination of the directory entry is `/d/x/`, and the file is written to
`/d/x/f`; but the directory that is created is `/d/x/a/sub`, the destination
joined with the stored name. -/
theorem Unzip_directory_entry :
    unzipDest (fnExtractOf "/d/x.zip".toList ComSingleFileFormat) "a/sub/".toList =
      "/d/x/".toList ∧
    (Unzip (fun _ => true)
      [⟨"a/sub/".toList, true, []⟩, ⟨"a/sub/f".toList, false, [1]⟩] "/d/x.zip".toList).log =
      [.mkdirAll "/d/x".toList, .mkdirAll "/d/x/a/sub".toList, .write "/d/x/f".toList [1]] := by
  decide

/-! ## FileNameWOExt -/

/-- The scan of `filepath.Ext` returns a suffix of the text it was given, and
the suffix is empty or starts with a dot and holds no other dot and no slash. -/
theorem extScan_spec (rev : Str) :
    ∀ acc : Str, '.' ∉ acc → '/' ∉ acc →
      extScan rev acc <:+ rev.reverse ++ acc ∧
      (extScan rev acc = [] ∨
        ∃ more, extScan rev acc = '.' :: more ∧ '.' ∉ more ∧ '/' ∉ more) ∧
      ('.' ∉ rev.takeWhile (fun c => c != '/') → extScan rev acc = []) := by
  induction rev with
  | nil =>
    intro acc _ _
    exact ⟨List.nil_suffix, Or.inl rfl, fun _ => rfl⟩
  | cons c rev ih =>
    intro acc h1 h2
    by_cases hs : c = '/'
    · subst hs
      refine ⟨?_, Or.inl ?_, fun _ => ?_⟩
      · simp only [extScan, if_true]
        exact List.nil_suffix
      · simp only [extScan, if_true]
      · simp only [extScan, if_true]
    · by_cases hd : c = '.'
      · subst hd
        simp only [extScan, hs, if_false, if_true]
        refine ⟨?_, Or.inr ⟨acc, rfl, h1, h2⟩, ?_⟩
        · rw [List.reverse_cons, List.append_assoc]
          exact List.suffix_append _ _
        · intro hno
          exfalso
          apply hno
          simp [List.takeWhile]
      · simp only [extScan, hs, hd, if_false]
        have hc1 : '.' ∉ c :: acc := by
          simp only [List.mem_cons, not_or]
          exact ⟨fun h => hd h.symm, h1⟩
        have hc2 : '/' ∉ c :: acc := by
          simp only [List.mem_cons, not_or]
          exact ⟨fun h => hs h.symm, h2⟩
        obtain ⟨i1, i2, i3⟩ := ih (c :: acc) hc1 hc2
        refine ⟨?_, i2, ?_⟩
        · rw [List.reverse_cons, List.append_assoc]
          exact i1
        · intro hno
          apply i3
          intro hmem
          apply hno
          have : (c != '/') = true := by simpa using hs
          simp only [List.takeWhile, this, List.mem_cons]
          exact Or.inr hmem

/-- When the final element holds a dot, the scan of `filepath.Ext` returns a
non-empty extension. -/
theorem extScan_nonempty (rev : Str) :
    ∀ acc : Str, '.' ∈ rev.takeWhile (fun c => c != '/') → extScan rev acc ≠ [] := by
  induction rev with
  | nil => intro acc h; simp at h
  | cons c rev ih =>
    intro acc h
    by_cases hs : c = '/'
    · subst hs
      simp [List.takeWhile] at h
    · by_cases hd : c = '.'
      · subst hd
        simp [extScan]
      · have hne : (c != '/') = true := by simpa using hs
        simp only [List.takeWhile, hne, List.mem_cons] at h
        simp only [extScan, hs, hd, if_false]
        rcases h with h | h
        · exact absurd h.symm hd
        · exact ih _ h

/-- Trimming a suffix of a text and appending it again gives the text. -/
theorem TrimSuffix_append (s suffix : Str) (h : suffix <:+ s) :
    TrimSuffix s suffix ++ suffix = s := by
  obtain ⟨pre, rfl⟩ := h
  have hs : suffix.isSuffixOf (pre ++ suffix) = true := by
    rw [List.isSuffixOf_iff_suffix]
    exact List.suffix_append _ _
  simp [TrimSuffix, hs]

/-- C20: for every file name `n`, `FileNameWOExt n` followed by the extension
`Ext n` is `n`, and `FileNameWOExt n` is a prefix of `n`. The extension is a
suffix of `n` that is empty or starts at a dot and holds no further dot and no
slash, so it starts at the last dot of the final element; it is not empty when
the final element holds a dot. A name whose final element holds no dot has the
empty extension and is returned unchanged. -/
theorem FileNameWOExt_spec (n : Str) :
    FileNameWOExt n ++ Ext n = n ∧
    FileNameWOExt n <+: n ∧
    Ext n <:+ n ∧
    (Ext n = [] ∨ ∃ more, Ext n = '.' :: more ∧ '.' ∉ more ∧ '/' ∉ more) ∧
    ('.' ∈ finalElement n → Ext n ≠ []) ∧
    ('.' ∉ finalElement n → Ext n = [] ∧ FileNameWOExt n = n) := by
  obtain ⟨h1, h2, h3⟩ := extScan_spec n.reverse [] (by simp) (by simp)
  have hsuf : Ext n <:+ n := by
    simpa [Ext] using h1
  have happ : FileNameWOExt n ++ Ext n = n := TrimSuffix_append n (Ext n) hsuf
  refine ⟨happ, ⟨Ext n, happ⟩, hsuf, h2, ?_, ?_⟩
  · intro hmem
    apply extScan_nonempty n.reverse []
    simpa [finalElement] using hmem
  intro hno
  have hext : Ext n = [] := by
    apply h3
    intro hmem
    apply hno
    simp only [finalElement, List.mem_reverse]
    exact hmem
  refine ⟨hext, ?_⟩
  have hfin : FileNameWOExt n ++ Ext n = n := happ
  rw [hext, List.append_nil] at hfin
  exact hfin

/-- C20, at the names `src` and `my.tar.gz.d`: the first has no dot and is
returned unchanged, the second loses its extension `.d`. -/
theorem FileNameWOExt_spec_witness :
    '.' ∉ finalElement "src".toList ∧
    (Ext "src".toList = [] ∧ FileNameWOExt "src".toList = "src".toList) ∧
    FileNameWOExt "my.tar.gz.d".toList = "my.tar.gz".toList :=
  ⟨by decide, (FileNameWOExt_spec "src".toList).2.2.2.2.2 (by decide), by decide⟩

/-! ## The window of WalkDIRModLatest -/

/-- A whole number in the `int64` range is unchanged by the wrap-around. -/
theorem wrapInt64_of_fits (x : Int) (h : fitsInt64 x = true) : wrapInt64 x = x := by
  simp only [fitsInt64, Bool.and_eq_true, decide_eq_true_eq] at h
  unfold wrapInt64
  rw [Int.emod_eq_of_lt (by omega) (by omega)]
  omega

/-- The only file `DIRCopyFiles` writes is its destination. -/
theorem DIRCopyFiles_log_write (src dst : Str) (data : List Nat) (fault : FileFault)
    (p : Str) (d : List Nat) (h : Effect.write p d ∈ (DIRCopyFiles src dst data fault).log) :
    p = dst := by
  cases fault <;> simp [DIRCopyFiles] at h <;> exact h.1

/-- On a file on which no call fails, `DIRCopyFiles` returns no error. -/
theorem DIRCopyFiles_noFault_err (src dst : Str) (data : List Nat) :
    (DIRCopyFiles src dst data .noFault).err = none := rfl

/-- The first loop of `WalkDIRModLatest` writes no file. -/
theorem makeFolders_no_write (src dst : Str) (folders : List Str) (p : Str) (d : List Nat) :
    Effect.write p d ∉ makeFolders src dst folders := by
  simp [makeFolders]

/-- When the second loop does not end in a panic, its changes are those of the
`DIRCopyFiles` calls on the collected files in the window, in order; the file
counter rises by the number of those calls that return no error, and the folder
counter stays. -/
theorem copyModified_run (src dst : Str) (startTime endTime : Int) (files : List FileRec) :
    ∀ (err : Option Err) (st : Counters),
      (copyModified src dst startTime endTime files err st).panicked = false →
      (copyModified src dst startTime endTime files err st).log =
        ((files.filter (fun f => inWindow startTime endTime f.mtime)).map
          (fun f => (DIRCopyFiles f.path (Replace f.path src dst (-1)) f.data f.fault).log)).flatten ∧
      (copyModified src dst startTime endTime files err st).st.NumFilesCopied =
        st.NumFilesCopied +
          ((files.filter (fun f => inWindow startTime endTime f.mtime &&
            decide ((DIRCopyFiles f.path (Replace f.path src dst (-1)) f.data f.fault).err =
              none))).length : Int) ∧
      (copyModified src dst startTime endTime files err st).st.NumFoldersCopied =
        st.NumFoldersCopied := by
  induction files with
  | nil => intro err st _; simp [copyModified]
  | cons f fs ih =>
    intro err st hp
    by_cases hs : f.fault = .statFails
    · simp [copyModified, hs] at hp
    · by_cases hw : inWindow startTime endTime f.mtime = true
      · simp only [copyModified, hs, hw, if_false, if_true, FromSlash] at hp ⊢
        obtain ⟨h1, h2, h3⟩ := ih _ _ hp
        refine ⟨?_, ?_, ?_⟩
        · rw [h1]
          simp [List.filter_cons, hw]
        · rw [h2]
          by_cases he :
              (DIRCopyFiles f.path (Replace f.path src dst (-1)) f.data f.fault).err = none
          · simp [List.filter_cons, hw, he]
            ring
          · simp [List.filter_cons, hw, he]
        · rw [h3]
          by_cases he :
              (DIRCopyFiles f.path (Replace f.path src dst (-1)) f.data f.fault).err = none
          · simp [he]
          · simp [he]
      · rw [Bool.not_eq_true] at hw
        simp only [copyModified, hs, hw, if_false, Bool.false_eq_true] at hp ⊢
        obtain ⟨h1, h2, h3⟩ := ih _ _ hp
        refine ⟨?_, ?_, ?_⟩
        · rw [h1]
          simp [List.filter_cons, hw]
        · rw [h2]
          simp [List.filter_cons, hw]
        · exact h3

/-- A file whose path `strings.Replace` leaves as it is: with `src = ./src` and
`dst = ./dst` the walk yields the cleaned path `src/a`, in which `./src` does not
occur. `DIRCopyFiles` is given the file as its own destination: the file is
created again before it is read, is left empty, and is counted as copied. -/
theorem WalkDIRModLatest_unchanged_path :
    Replace "src/a".toList "./src".toList "./dst".toList (-1) = "src/a".toList ∧
    (WalkDIRModLatest [] "./src".toList "./dst".toList (-7) 1000000 1000000 0 .noFault
      (.file "a".toList [1, 2] 1000000 .noFault .nil) Counters.initial).log =
      [.mkdirAll "./dst".toList, .mkdirAll "./dst".toList, .write "src/a".toList []] ∧
    (WalkDIRModLatest [] "./src".toList "./dst".toList (-7) 1000000 1000000 0 .noFault
      (.file "a".toList [1, 2] 1000000 .noFault .nil) Counters.initial).st = ⟨1, 0⟩ := by
  decide

/-- In a run of `WalkDIRModLatest` that does not end in a panic, the files
handed to `DIRCopyFiles` are the collected files in the window. -/
theorem WalkDIRModLatest_copied_eq (ignoreFT : List Str) (src dst : Str)
    (modDays now0 now1 shift : Int) (fault : DirFault) (fds : Listing) (st : Counters)
    (h : (WalkDIRModLatest ignoreFT src dst modDays now0 now1 shift fault fds st).panicked =
      false) :
    (WalkDIRModLatest ignoreFT src dst modDays now0 now1 shift fault fds st).copied =
      (collect ignoreFT (Walk src fault fds)).files.filter
        (fun f => inWindow (startTimeOf now0 modDays shift) now1 f.mtime) := by
  unfold WalkDIRModLatest at h ⊢
  by_cases hc : (collect ignoreFT (Walk src fault fds)).panicked = true
  · simp [hc] at h
  · rw [Bool.not_eq_true] at hc
    simp only [hc, Bool.false_eq_true, if_false] at h ⊢
    exact copyModified_copied _ _ _ _ _ _ _ h

/-- In a run of `WalkDIRModLatest` that does not end in a panic: the changes
made are the creation of the destination root, of one folder per collected
folder, and then those of the `DIRCopyFiles` calls on the collected files in
the window; a file in the window on which no call fails, and whose destination
is not its own path, is written with its bytes; every file written is the
destination of a collected file in the window; the file counter rises by the
number of calls that return no error and the folder counter stays. -/
theorem WalkDIRModLatest_run (ignoreFT : List Str) (src dst : Str)
    (modDays now0 now1 shift : Int) (fault : DirFault) (fds : Listing) (st : Counters)
    (h : (WalkDIRModLatest ignoreFT src dst modDays now0 now1 shift fault fds st).panicked =
      false) :
    (WalkDIRModLatest ignoreFT src dst modDays now0 now1 shift fault fds st).log =
      .mkdirAll dst :: makeFolders src dst (collect ignoreFT (Walk src fault fds)).folders ++
        (((collect ignoreFT (Walk src fault fds)).files.filter
          (fun f => inWindow (startTimeOf now0 modDays shift) now1 f.mtime)).map
          (fun f =>
            (DIRCopyFiles f.path (Replace f.path src dst (-1)) f.data f.fault).log)).flatten ∧
    (∀ f ∈ (collect ignoreFT (Walk src fault fds)).files,
      inWindow (startTimeOf now0 modDays shift) now1 f.mtime = true → f.fault = .noFault →
      Clean (Replace f.path src dst (-1)) ≠ Clean f.path →
        Effect.write (Replace f.path src dst (-1)) f.data ∈
          (WalkDIRModLatest ignoreFT src dst modDays now0 now1 shift fault fds st).log) ∧
    (∀ (p : Str) (d : List Nat),
      Effect.write p d ∈
        (WalkDIRModLatest ignoreFT src dst modDays now0 now1 shift fault fds st).log →
      ∃ f ∈ (collect ignoreFT (Walk src fault fds)).files,
        inWindow (startTimeOf now0 modDays shift) now1 f.mtime = true ∧
        p = Replace f.path src dst (-1)) ∧
    (WalkDIRModLatest ignoreFT src dst modDays now0 now1 shift fault fds st).st.NumFilesCopied =
      st.NumFilesCopied +
        (((collect ignoreFT (Walk src fault fds)).files.filter
          (fun f => inWindow (startTimeOf now0 modDays shift) now1 f.mtime &&
            decide ((DIRCopyFiles f.path (Replace f.path src dst (-1)) f.data f.fault).err =
              none))).length : Int) ∧
    (WalkDIRModLatest ignoreFT src dst modDays now0 now1 shift fault fds st).st.NumFoldersCopied =
      st.NumFoldersCopied := by
  unfold WalkDIRModLatest at h ⊢
  by_cases hc : (collect ignoreFT (Walk src fault fds)).panicked = true
  · simp [hc] at h
  · rw [Bool.not_eq_true] at hc
    simp only [hc, Bool.false_eq_true, if_false] at h ⊢
    obtain ⟨h1, h2, h3⟩ := copyModified_run src dst (startTimeOf now0 modDays shift) now1
      (collect ignoreFT (Walk src fault fds)).files none st h
    refine ⟨by rw [h1], ?_, ?_, h2, h3⟩
    · intro f hf hw hfault hne
      exact List.mem_cons_of_mem _
        (List.mem_append_right _ (copyModified_writes _ _ _ _ _ _ _ h f hf hw hfault hne))
    · intro p d hpd
      rw [h1] at hpd
      rcases List.mem_cons.mp hpd with hx | hx
      · exact Effect.noConfusion hx
      · rcases List.mem_append.mp hx with hy | hy
        · exact absurd hy (makeFolders_no_write _ _ _ _ _)
        · rw [List.mem_flatten] at hy
          obtain ⟨l, hl, hin⟩ := hy
          rw [List.mem_map] at hl
          obtain ⟨f, hf, rfl⟩ := hl
          rw [List.mem_filter] at hf
          exact ⟨f, hf.1, hf.2, DIRCopyFiles_log_write _ _ _ _ _ _ hin⟩

/-- C6 (counterexample): with `modDays = 150000000000000` and a clock that
reads 1000000, `now + modDays days` is far above every modification time of
the directory, so by the claim no file is copied; the `int64` second count
wraps around to a start time far below, and all three files are copied and
counted. -/
theorem WalkDIRModLatest_window_overflow :
    ¬ (1000000 + 86400 * 150000000000000 ≤ (1000000 : Int)) ∧
    startTimeOf 1000000 150000000000000 0 = -5486744073708551616 ∧
    (WalkDIRModLatest [] "/src".toList "/dst".toList 150000000000000 1000000 1000000 0 .noFault
      agesTree Counters.initial).log =
      [.mkdirAll "/dst".toList, .mkdirAll "/dst".toList, .write "/dst/new".toList [1],
        .write "/dst/old".toList [2], .write "/dst/recent".toList [3]] ∧
    (WalkDIRModLatest [] "/src".toList "/dst".toList 150000000000000 1000000 1000000 0 .noFault
      agesTree Counters.initial).st = ⟨3, 0⟩ := by
  decide

/-- C6 (as amended): when `now + modDays days` stays in the `int64` range of
Unix seconds, `startTime` is the first clock reading plus `modDays` calendar
days (`86400 * modDays` seconds and the change of the local clock) and
`endTime` is the second reading. In a run of `WalkDIRModLatest` that does not
end in a panic, a collected file is handed to `DIRCopyFiles` if and only if
`startTime <= mtime <= endTime`, both bounds included; such a file on which no
call fails, whose destination is not its own path, is written with its bytes;
every file written is the destination of a collected file in the window; the
file counter rises by the number of files in the window copied without error,
which is every file in the window when no call fails, and the folder counter
stays. For `modDays = -7` and a change of the local clock of at most a day, a
file modified ten days before now is outside the window; files modified three
days before now and now are inside. -/
theorem WalkDIRModLatest_window (ignoreFT : List Str) (src dst : Str)
    (modDays now0 now1 shift : Int) (fault : DirFault) (fds : Listing) (st : Counters)
    (hfit : fitsInt64 (now0 + 86400 * modDays + shift) = true)
    (h : (WalkDIRModLatest ignoreFT src dst modDays now0 now1 shift fault fds st).panicked =
      false) :
    startTimeOf now0 modDays shift = now0 + 86400 * modDays + shift ∧
    (∀ f ∈ (collect ignoreFT (Walk src fault fds)).files,
      (f ∈ (WalkDIRModLatest ignoreFT src dst modDays now0 now1 shift fault fds st).copied ↔
        now0 + 86400 * modDays + shift ≤ f.mtime ∧ f.mtime ≤ now1)) ∧
    (∀ f ∈ (collect ignoreFT (Walk src fault fds)).files,
      now0 + 86400 * modDays + shift ≤ f.mtime → f.mtime ≤ now1 → f.fault = .noFault →
      Clean (Replace f.path src dst (-1)) ≠ Clean f.path →
        Effect.write (Replace f.path src dst (-1)) f.data ∈
          (WalkDIRModLatest ignoreFT src dst modDays now0 now1 shift fault fds st).log) ∧
    (∀ (p : Str) (d : List Nat),
      Effect.write p d ∈
        (WalkDIRModLatest ignoreFT src dst modDays now0 now1 shift fault fds st).log →
      ∃ f ∈ (collect ignoreFT (Walk src fault fds)).files,
        now0 + 86400 * modDays + shift ≤ f.mtime ∧ f.mtime ≤ now1 ∧
        p = Replace f.path src dst (-1)) ∧
    (WalkDIRModLatest ignoreFT src dst modDays now0 now1 shift fault fds st).st.NumFilesCopied =
      st.NumFilesCopied +
        (((collect ignoreFT (Walk src fault fds)).files.filter
          (fun f => (decide (now0 + 86400 * modDays + shift ≤ f.mtime) &&
              decide (f.mtime ≤ now1)) &&
            decide ((DIRCopyFiles f.path (Replace f.path src dst (-1)) f.data f.fault).err =
              none))).length : Int) ∧
    ((∀ f ∈ (collect ignoreFT (Walk src fault fds)).files, f.fault = .noFault) →
      (WalkDIRModLatest ignoreFT src dst modDays now0 now1 shift fault fds st).st.NumFilesCopied =
        st.NumFilesCopied +
          (((collect ignoreFT (Walk src fault fds)).files.filter
            (fun f => decide (now0 + 86400 * modDays + shift ≤ f.mtime) &&
              decide (f.mtime ≤ now1))).length : Int)) ∧
    (WalkDIRModLatest ignoreFT src dst modDays now0 now1 shift fault fds st).st.NumFoldersCopied =
      st.NumFoldersCopied ∧
    ∀ now sh : Int, fitsInt64 (now + 86400 * (-7) + sh) = true → -86400 ≤ sh → sh ≤ 86400 →
      inWindow (startTimeOf now (-7) sh) now (now - 10 * 86400) = false ∧
      inWindow (startTimeOf now (-7) sh) now (now - 3 * 86400) = true ∧
      inWindow (startTimeOf now (-7) sh) now now = true := by
  have hstart : startTimeOf now0 modDays shift = now0 + 86400 * modDays + shift :=
    wrapInt64_of_fits _ hfit
  have hwin : ∀ f : FileRec, inWindow (startTimeOf now0 modDays shift) now1 f.mtime =
      (decide (now0 + 86400 * modDays + shift ≤ f.mtime) && decide (f.mtime ≤ now1)) := by
    intro f
    rw [hstart]
    rfl
  obtain ⟨_, hwr, honly, hcnt, hfold⟩ :=
    WalkDIRModLatest_run ignoreFT src dst modDays now0 now1 shift fault fds st h
  refine ⟨hstart, ?_, ?_, ?_, ?_, ?_, hfold, ?_⟩
  · intro f hf
    rw [WalkDIRModLatest_copied_eq _ _ _ _ _ _ _ _ _ _ h, List.mem_filter, hwin]
    simp only [Bool.and_eq_true, decide_eq_true_eq]
    constructor
    · intro hx
      exact hx.2
    · intro hx
      exact ⟨hf, hx⟩
  · intro f hf h1 h2 hfault hne
    refine hwr f hf ?_ hfault hne
    rw [hwin]
    simp only [Bool.and_eq_true, decide_eq_true_eq]
    exact ⟨h1, h2⟩
  · intro p d hpd
    obtain ⟨f, hf, hw, hp⟩ := honly p d hpd
    rw [hwin] at hw
    simp only [Bool.and_eq_true, decide_eq_true_eq] at hw
    exact ⟨f, hf, hw.1, hw.2, hp⟩
  · rw [hcnt]
    simp only [hwin]
  · intro hall
    rw [hcnt]
    have hfil : (collect ignoreFT (Walk src fault fds)).files.filter
        (fun f => inWindow (startTimeOf now0 modDays shift) now1 f.mtime &&
          decide ((DIRCopyFiles f.path (Replace f.path src dst (-1)) f.data f.fault).err =
            none)) =
        (collect ignoreFT (Walk src fault fds)).files.filter
          (fun f => decide (now0 + 86400 * modDays + shift ≤ f.mtime) &&
            decide (f.mtime ≤ now1)) := by
      apply List.filter_congr
      intro f hf
      rw [hwin, hall f hf]
      simp [DIRCopyFiles]
    rw [hfil]
  · intro now sh hf h1 h2
    unfold startTimeOf
    rw [wrapInt64_of_fits _ hf]
    simp only [inWindow, Bool.and_eq_true, decide_eq_true_eq, ge_iff_le,
      Bool.and_eq_false_iff, decide_eq_false_iff_not]
    refine ⟨Or.inl (by omega), ⟨by omega, by omega⟩, ⟨by omega, by omega⟩⟩

/-- C6 (as amended), at three files modified ten days ago, three days ago and
now, with `modDays = -7`: the files modified now and three days ago are written
and counted, the file modified ten days ago is not. -/
theorem WalkDIRModLatest_window_witness :
    fitsInt64 (1000000 + 86400 * (-7) + 0) = true ∧
    (WalkDIRModLatest [] "/src".toList "/dst".toList (-7) 1000000 1000000 0 .noFault agesTree
      Counters.initial).panicked = false ∧
    (WalkDIRModLatest [] "/src".toList "/dst".toList (-7) 1000000 1000000 0 .noFault agesTree
      Counters.initial).log =
      [.mkdirAll "/dst".toList, .mkdirAll "/dst".toList, .write "/dst/new".toList [1],
        .write "/dst/recent".toList [3]] ∧
    (WalkDIRModLatest [] "/src".toList "/dst".toList (-7) 1000000 1000000 0 .noFault agesTree
      Counters.initial).st = ⟨2, 0⟩ ∧
    startTimeOf 1000000 (-7) 0 = 1000000 + 86400 * (-7) + 0 :=
  ⟨by decide, by decide, by decide, by decide,
    (WalkDIRModLatest_window [] "/src".toList "/dst".toList (-7) 1000000 1000000 0 .noFault
      agesTree Counters.initial (by decide) (by decide)).1⟩

/-- C21 (counterexample): with `modDays = 0`, when the second changes
between the two readings of the clock, `startTime` is 999999 and `endTime` is
1000000; the file modified at 999999 and the file modified at 1000000 are both
copied and counted. -/
theorem WalkDIRModLatest_zero_days_two_seconds :
    startTimeOf 999999 0 0 = 999999 ∧
    startTimeOf 999999 0 0 ≠ 1000000 ∧
    (WalkDIRModLatest [] "/src".toList "/dst".toList 0 999999 1000000 0 .noFault tickTree
      Counters.initial).log =
      [.mkdirAll "/dst".toList, .mkdirAll "/dst".toList, .write "/dst/early".toList [1],
        .write "/dst/late".toList [2]] ∧
    (WalkDIRModLatest [] "/src".toList "/dst".toList 0 999999 1000000 0 .noFault tickTree
      Counters.initial).copied.map (fun f => f.mtime) = [999999, 1000000] ∧
    (WalkDIRModLatest [] "/src".toList "/dst".toList 0 999999 1000000 0 .noFault tickTree
      Counters.initial).st = ⟨2, 0⟩ := by
  decide

/-- C21 (as amended): with `modDays = 0`, `startTime` is the first reading of
the clock (as `AddDate` returns it, in the `int64` range) and `endTime` the
second. In a run of `WalkDIRModLatest` that does not end in a panic, a
collected file is handed to `DIRCopyFiles` if and only if
`startTime <= mtime <= endTime`, and every file written is the destination of
such a file. When both readings give the same second `now` and the local clock
does not change, `startTime` and `endTime` are both `now`: a collected file is
handed to `DIRCopyFiles` if and only if its modification time is `now`, every
file written is the destination of a collected file modified at `now`, a file
modified at `now` on which no call fails, whose destination is not its own
path, is written with its bytes, and when no call fails the file counter rises
by the number of collected files modified at `now`. -/
theorem WalkDIRModLatest_zero_days (ignoreFT : List Str) (src dst : Str)
    (now0 now1 shift : Int) (fault : DirFault) (fds : Listing) (st : Counters)
    (hfit : fitsInt64 (now0 + shift) = true)
    (h : (WalkDIRModLatest ignoreFT src dst 0 now0 now1 shift fault fds st).panicked = false) :
    startTimeOf now0 0 shift = now0 + shift ∧
    (∀ f ∈ (collect ignoreFT (Walk src fault fds)).files,
      (f ∈ (WalkDIRModLatest ignoreFT src dst 0 now0 now1 shift fault fds st).copied ↔
        now0 + shift ≤ f.mtime ∧ f.mtime ≤ now1)) ∧
    (∀ (p : Str) (d : List Nat),
      Effect.write p d ∈ (WalkDIRModLatest ignoreFT src dst 0 now0 now1 shift fault fds st).log →
      ∃ f ∈ (collect ignoreFT (Walk src fault fds)).files,
        now0 + shift ≤ f.mtime ∧ f.mtime ≤ now1 ∧ p = Replace f.path src dst (-1)) ∧
    (now0 = now1 → shift = 0 →
      startTimeOf now0 0 shift = now1 ∧
      (∀ f ∈ (collect ignoreFT (Walk src fault fds)).files,
        (f ∈ (WalkDIRModLatest ignoreFT src dst 0 now0 now1 shift fault fds st).copied ↔
          f.mtime = now1)) ∧
      (∀ (p : Str) (d : List Nat),
        Effect.write p d ∈
          (WalkDIRModLatest ignoreFT src dst 0 now0 now1 shift fault fds st).log →
        ∃ f ∈ (collect ignoreFT (Walk src fault fds)).files,
          f.mtime = now1 ∧ p = Replace f.path src dst (-1)) ∧
      (∀ f ∈ (collect ignoreFT (Walk src fault fds)).files,
        f.mtime = now1 → f.fault = .noFault → Clean (Replace f.path src dst (-1)) ≠ Clean f.path →
          Effect.write (Replace f.path src dst (-1)) f.data ∈
            (WalkDIRModLatest ignoreFT src dst 0 now0 now1 shift fault fds st).log) ∧
      ((∀ f ∈ (collect ignoreFT (Walk src fault fds)).files, f.fault = .noFault) →
        (WalkDIRModLatest ignoreFT src dst 0 now0 now1 shift fault fds st).st.NumFilesCopied =
          st.NumFilesCopied +
            (((collect ignoreFT (Walk src fault fds)).files.filter
              (fun f => decide (f.mtime = now1))).length : Int))) := by
  have hstart : startTimeOf now0 0 shift = now0 + shift := by
    unfold startTimeOf
    rw [show now0 + 86400 * 0 + shift = now0 + shift by ring]
    exact wrapInt64_of_fits _ hfit
  have hwin : ∀ f : FileRec, inWindow (startTimeOf now0 0 shift) now1 f.mtime =
      (decide (now0 + shift ≤ f.mtime) && decide (f.mtime ≤ now1)) := by
    intro f
    rw [hstart]
    rfl
  obtain ⟨_, hwr, honly, hcnt, _⟩ :=
    WalkDIRModLatest_run ignoreFT src dst 0 now0 now1 shift fault fds st h
  have hiff : ∀ f ∈ (collect ignoreFT (Walk src fault fds)).files,
      (f ∈ (WalkDIRModLatest ignoreFT src dst 0 now0 now1 shift fault fds st).copied ↔
        now0 + shift ≤ f.mtime ∧ f.mtime ≤ now1) := by
    intro f hf
    rw [WalkDIRModLatest_copied_eq _ _ _ _ _ _ _ _ _ _ h, List.mem_filter, hwin]
    simp only [Bool.and_eq_true, decide_eq_true_eq]
    constructor
    · intro hx
      exact hx.2
    · intro hx
      exact ⟨hf, hx⟩
  have honly2 : ∀ (p : Str) (d : List Nat),
      Effect.write p d ∈ (WalkDIRModLatest ignoreFT src dst 0 now0 now1 shift fault fds st).log →
      ∃ f ∈ (collect ignoreFT (Walk src fault fds)).files,
        now0 + shift ≤ f.mtime ∧ f.mtime ≤ now1 ∧ p = Replace f.path src dst (-1) := by
    intro p d hpd
    obtain ⟨f, hf, hw, hp⟩ := honly p d hpd
    rw [hwin] at hw
    simp only [Bool.and_eq_true, decide_eq_true_eq] at hw
    exact ⟨f, hf, hw.1, hw.2, hp⟩
  refine ⟨hstart, hiff, honly2, ?_⟩
  intro hnow hshift
  refine ⟨by rw [hstart]; omega, ?_, ?_, ?_, ?_⟩
  · intro f hf
    rw [hiff f hf]
    constructor
    · intro hx
      omega
    · intro hx
      omega
  · intro p d hpd
    obtain ⟨f, hf, h1, h2, hp⟩ := honly2 p d hpd
    exact ⟨f, hf, by omega, hp⟩
  · intro f hf hm hfault hne
    refine hwr f hf ?_ hfault hne
    rw [hwin]
    simp only [Bool.and_eq_true, decide_eq_true_eq]
    omega
  · intro hall
    rw [hcnt]
    have hfil : (collect ignoreFT (Walk src fault fds)).files.filter
        (fun f => inWindow (startTimeOf now0 0 shift) now1 f.mtime &&
          decide ((DIRCopyFiles f.path (Replace f.path src dst (-1)) f.data f.fault).err =
            none)) =
        (collect ignoreFT (Walk src fault fds)).files.filter
          (fun f => decide (f.mtime = now1)) := by
      apply List.filter_congr
      intro f hf
      rw [hwin, hall f hf]
      have he : (decide (now0 + shift ≤ f.mtime) && decide (f.mtime ≤ now1)) =
          decide (f.mtime = now1) := by
        rw [Bool.eq_iff_iff]
        simp only [Bool.and_eq_true, decide_eq_true_eq]
        omega
      rw [he]
      simp [DIRCopyFiles]
    rw [hfil]

/-- C21 (as amended), at three files modified ten days ago, three days ago and
now, with `modDays = 0` and both readings of the clock at 1000000: only the file
modified now is written and counted. -/
theorem WalkDIRModLatest_zero_days_witness :
    fitsInt64 (1000000 + 0) = true ∧
    (WalkDIRModLatest [] "/src".toList "/dst".toList 0 1000000 1000000 0 .noFault agesTree
      Counters.initial).panicked = false ∧
    (WalkDIRModLatest [] "/src".toList "/dst".toList 0 1000000 1000000 0 .noFault agesTree
      Counters.initial).log =
      [.mkdirAll "/dst".toList, .mkdirAll "/dst".toList, .write "/dst/new".toList [1]] ∧
    (WalkDIRModLatest [] "/src".toList "/dst".toList 0 1000000 1000000 0 .noFault agesTree
      Counters.initial).st = ⟨1, 0⟩ ∧
    startTimeOf 1000000 0 0 = 1000000 :=
  ⟨by decide, by decide, by decide, by decide,
    ((WalkDIRModLatest_zero_days [] "/src".toList "/dst".toList 1000000 1000000 0 .noFault
      agesTree Counters.initial (by decide) (by decide)).2.2.2 rfl rfl).1⟩

/-- When no collected file is in the window, the second loop copies nothing and
leaves the counters and the error as they are. -/
theorem copyModified_none (src dst : Str) (startTime endTime : Int) (files : List FileRec)
    (hnone : ∀ m : Int, inWindow startTime endTime m = false) :
    ∀ (err : Option Err) (st : Counters),
      (copyModified src dst startTime endTime files err st).copied = [] ∧
      (copyModified src dst startTime endTime files err st).st = st ∧
      (copyModified src dst startTime endTime files err st).err = err ∧
      (copyModified src dst startTime endTime files err st).log = [] := by
  induction files with
  | nil => intro err st; exact ⟨rfl, rfl, rfl, rfl⟩
  | cons f fs ih =>
    intro err st
    by_cases hs : f.fault = .statFails
    · simp [copyModified, hs]
    · simp only [copyModified, hs, hnone f.mtime, if_false, Bool.false_eq_true]
      exact ih err st

/-- C23 (counterexample): with the positive `modDays = 150000000000000`
and a clock that reads 1000000, the `int64` second count wraps around:
`startTime` is far below `endTime`, and both files of the directory that pass
the exclusion test are copied and counted. -/
theorem WalkDIRModLatest_positive_days_overflow :
    (0 : Int) < 150000000000000 ∧
    startTimeOf 1000000 150000000000000 0 < 1000000 ∧
    (WalkDIRModLatest [".db".toList] "/src".toList "/dst".toList 150000000000000 1000000
      1000000 0 .noFault windowTree Counters.initial).log =
      [.mkdirAll "/dst".toList, .mkdirAll "/dst".toList, .mkdirAll "/dst/sub".toList,
        .write "/dst/a.txt".toList [1, 2], .write "/dst/sub/b.txt".toList [3]] ∧
    (WalkDIRModLatest [".db".toList] "/src".toList "/dst".toList 150000000000000 1000000
      1000000 0 .noFault windowTree Counters.initial).st = ⟨2, 0⟩ ∧
    (WalkDIRModLatest [".db".toList] "/src".toList "/dst".toList 150000000000000 1000000
      1000000 0 .noFault windowTree Counters.initial).err = none := by
  decide

/-- C23 (as amended): for every positive `modDays` for which
`now + modDays days` stays in the `int64` range of Unix seconds, with the two
readings of the clock and the change of the local clock together less than a
day, `startTime` is greater than `endTime` and no modification time passes the
window test. `WalkDIRModLatest` hands no file to `DIRCopyFiles`, leaves the
counters unchanged and returns no error: the value is neither rejected nor
clamped. When the walk itself does not panic, the changes made are exactly the
creation of the destination root and of one folder per collected folder, at
the folder path with `src` replaced by `dst`; no file is written. -/
theorem WalkDIRModLatest_positive_days (ignoreFT : List Str) (src dst : Str)
    (modDays now0 now1 shift : Int) (fault : DirFault) (fds : Listing) (st : Counters)
    (hd : 0 < modDays) (hfit : fitsInt64 (now0 + 86400 * modDays + shift) = true)
    (hclock : now1 - now0 - shift < 86400) :
    now1 < startTimeOf now0 modDays shift ∧
    (∀ m : Int, inWindow (startTimeOf now0 modDays shift) now1 m = false) ∧
    (WalkDIRModLatest ignoreFT src dst modDays now0 now1 shift fault fds st).copied = [] ∧
    (WalkDIRModLatest ignoreFT src dst modDays now0 now1 shift fault fds st).st = st ∧
    (WalkDIRModLatest ignoreFT src dst modDays now0 now1 shift fault fds st).err = none ∧
    (∀ (p : Str) (d : List Nat), Effect.write p d ∉
      (WalkDIRModLatest ignoreFT src dst modDays now0 now1 shift fault fds st).log) ∧
    ((collect ignoreFT (Walk src fault fds)).panicked = false →
      (WalkDIRModLatest ignoreFT src dst modDays now0 now1 shift fault fds st).log =
        .mkdirAll dst :: (collect ignoreFT (Walk src fault fds)).folders.map
          (fun p => Effect.mkdirAll (Replace p src dst (-1)))) := by
  have hstart : now1 < startTimeOf now0 modDays shift := by
    unfold startTimeOf
    rw [wrapInt64_of_fits _ hfit]
    omega
  have hnone : ∀ m : Int, inWindow (startTimeOf now0 modDays shift) now1 m = false := by
    intro m
    simp only [inWindow, Bool.and_eq_false_iff, decide_eq_false_iff_not, ge_iff_le]
    by_cases hm : startTimeOf now0 modDays shift ≤ m
    · right
      omega
    · left
      exact hm
  have hc := copyModified_none src dst (startTimeOf now0 modDays shift) now1
    (collect ignoreFT (Walk src fault fds)).files hnone none st
  refine ⟨hstart, hnone, ?_, ?_, ?_, ?_, ?_⟩
  · unfold WalkDIRModLatest
    by_cases hp : (collect ignoreFT (Walk src fault fds)).panicked = true
    · simp [hp]
    · rw [Bool.not_eq_true] at hp
      simp only [hp, Bool.false_eq_true, if_false]
      exact hc.1
  · unfold WalkDIRModLatest
    by_cases hp : (collect ignoreFT (Walk src fault fds)).panicked = true
    · simp [hp]
    · rw [Bool.not_eq_true] at hp
      simp only [hp, Bool.false_eq_true, if_false]
      exact hc.2.1
  · unfold WalkDIRModLatest
    by_cases hp : (collect ignoreFT (Walk src fault fds)).panicked = true
    · simp [hp]
    · rw [Bool.not_eq_true] at hp
      simp only [hp, Bool.false_eq_true, if_false]
      exact hc.2.2.1
  · intro p d
    unfold WalkDIRModLatest
    by_cases hp : (collect ignoreFT (Walk src fault fds)).panicked = true
    · simp [hp]
    · rw [Bool.not_eq_true] at hp
      simp only [hp, Bool.false_eq_true, if_false]
      rw [hc.2.2.2, List.append_nil]
      simp [makeFolders]
  · intro hp
    unfold WalkDIRModLatest
    simp only [hp, Bool.false_eq_true, if_false]
    rw [hc.2.2.2, List.append_nil]
    simp [makeFolders, FromSlash]

/-- C23 (as amended), at the scenario directory with `modDays = 3`: the folders
`/dst` and `/dst/sub` are created, no file is copied and the file counter stays
0. -/
theorem WalkDIRModLatest_positive_days_witness :
    (0 : Int) < 3 ∧ fitsInt64 (1000000 + 86400 * 3 + 0) = true ∧
    (1000000 : Int) - 1000000 - 0 < 86400 ∧
    WalkDIRModLatest [".db".toList] "/src".toList "/dst".toList 3 1000000 1000000 0 .noFault
      windowTree Counters.initial =
      ⟨[.mkdirAll "/dst".toList, .mkdirAll "/dst".toList, .mkdirAll "/dst/sub".toList], [],
        ⟨0, 0⟩, none, false⟩ ∧
    (WalkDIRModLatest [".db".toList] "/src".toList "/dst".toList 3 1000000 1000000 0 .noFault
      windowTree Counters.initial).copied = [] :=
  ⟨by decide, by decide, by decide, by decide,
    (WalkDIRModLatest_positive_days [".db".toList] "/src".toList "/dst".toList 3 1000000
      1000000 0 .noFault windowTree Counters.initial (by decide) (by decide) (by decide)).2.2.1⟩

/-! ## The error returned by CopyDir -/

/-- The loop of `CopyDir` over children that are all excluded changes nothing. -/
theorem copyChildren_allExcluded (ignoreFT : List Str) (src dst : Str) (fds : Listing) :
    ∀ (err : Option Err) (st : Counters), allExcluded ignoreFT src fds = true →
      copyChildren ignoreFT src dst fds err st = ⟨.nil, st, err, []⟩ := by
  induction fds with
  | nil => intro err st _; rfl
  | file name data mtime fault rest ih =>
    intro err st h
    simp only [allExcluded, Bool.and_eq_true] at h
    simp only [copyChildren, h.1, if_true]
    exact ih err st h.2
  | dir name fault kids rest _ ihr =>
    intro err st h
    simp only [allExcluded, Bool.and_eq_true] at h
    simp only [copyChildren, h.1, if_true]
    exact ihr err st h.2

/-- C22: once the source has been listed, the error `CopyDir` returns is the
copy result of the last child that passes the exclusion test, whatever
happened to the children before it, and nil when there is no such child: for
a last such child that is a file it is the result of its `CopyFile`, for one
that is a folder the result of its `CopyDir`. The caller raises the folder
counter for a folder child exactly when the `CopyDir` of that folder returned
no error; the counts the folder's own children added stay in either case. -/
theorem CopyDir_returns_last_result (ignoreFT : List Str) (src dst : Str)
    (pre rest : Listing) (st : Counters) (hrest : allExcluded ignoreFT src rest = true) :
    (CopyDir ignoreFT src dst .noFault rest st).err = none ∧
    (∀ (name : Str) (data : List Nat) (mtime : Int) (fault : FileFault),
      _continue ignoreFT (Join src name) = false →
      (CopyDir ignoreFT src dst .noFault
        (pre.append (.file name data mtime fault rest)) st).err =
        (CopyFile (Join src name) (Join dst name) dst data fault).err) ∧
    (∀ (name : Str) (fault : DirFault) (kids : Listing),
      _continue ignoreFT (Join src name) = false →
      (CopyDir ignoreFT src dst .noFault (pre.append (.dir name fault kids rest)) st).err =
        (CopyDir ignoreFT (Join src name) (Join dst name) fault kids
          (copyChildren ignoreFT src dst pre none st).st).err) ∧
    (∀ (name : Str) (fault : DirFault) (kids : Listing) (err : Option Err),
      _continue ignoreFT (Join src name) = false →
      (copyChildren ignoreFT src dst (.dir name fault kids rest) err st).st =
        if (CopyDir ignoreFT (Join src name) (Join dst name) fault kids st).err = none then
          { (CopyDir ignoreFT (Join src name) (Join dst name) fault kids st).st with
            NumFoldersCopied :=
              (CopyDir ignoreFT (Join src name) (Join dst name) fault kids st).st.NumFoldersCopied
                + 1 }
        else (CopyDir ignoreFT (Join src name) (Join dst name) fault kids st).st) := by
  refine ⟨?_, ?_, ?_, ?_⟩
  · simp [CopyDir, copyDirAround, copyChildren_allExcluded ignoreFT src dst rest none st hrest]
  · intro name data mtime fault hx
    simp only [CopyDir, copyDirAround]
    rw [(copyChildren_append ignoreFT src dst pre _ none st).1]
    simp only [copyChildren, hx, Bool.false_eq_true, if_false]
    rw [copyChildren_allExcluded ignoreFT src dst rest _ _ hrest]
  · intro name fault kids hx
    have hsub : ∀ s : Counters, copyDirAround (Join src name) (Join dst name) fault s
        (copyChildren ignoreFT (Join src name) (Join dst name) kids none s) =
        CopyDir ignoreFT (Join src name) (Join dst name) fault kids s := fun _ => rfl
    simp only [CopyDir, copyDirAround]
    rw [(copyChildren_append ignoreFT src dst pre _ none st).1]
    simp only [copyChildren, hx, Bool.false_eq_true, if_false, hsub]
    rw [copyChildren_allExcluded ignoreFT src dst rest _ _ hrest]
    rfl
  · intro name fault kids err hx
    have hsub : copyDirAround (Join src name) (Join dst name) fault st
        (copyChildren ignoreFT (Join src name) (Join dst name) kids none st) =
        CopyDir ignoreFT (Join src name) (Join dst name) fault kids st := rfl
    simp only [copyChildren, hx, Bool.false_eq_true, if_false, hsub]
    rw [copyChildren_allExcluded ignoreFT src dst rest _ _ hrest]

/-- C22, at two folders. In `d` the file `bad` fails and the later file `good`
is copied: `CopyDir` of `d` returns no error and the caller counts the folder
(1 folder, 1 file). In the other `d` the file `good` is copied and the later
file `zbad` fails: `CopyDir` of `d` returns that error and the caller does not
count the folder, while the copied file stays counted (0 folders, 1 file). -/
theorem CopyDir_returns_last_result_witness :
    allExcluded [] "/src/d".toList .nil = true ∧
    (CopyDir [] "/src/d".toList "/dst/d".toList .noFault
      ((Listing.file "bad".toList [1] 0 .openFails .nil).append
        (.file "good".toList [2] 0 .noFault .nil)) Counters.initial).err =
      (CopyFile (Join "/src/d".toList "good".toList) (Join "/dst/d".toList "good".toList)
        "/dst/d".toList [2] .noFault).err ∧
    (CopyDir [] "/src".toList "/dst".toList .noFault badThenGoodTree Counters.initial).err =
      none ∧
    (CopyDir [] "/src".toList "/dst".toList .noFault badThenGoodTree Counters.initial).st =
      ⟨1, 1⟩ ∧
    (CopyDir [] "/src".toList "/dst".toList .noFault goodThenBadTree Counters.initial).err =
      some (.openErr "/src/d/zbad".toList) ∧
    (CopyDir [] "/src".toList "/dst".toList .noFault goodThenBadTree Counters.initial).st =
      ⟨1, 0⟩ :=
  ⟨by decide,
    (CopyDir_returns_last_result [] "/src/d".toList "/dst/d".toList
      (.file "bad".toList [1] 0 .openFails .nil) .nil Counters.initial (by decide)).2.1
      "good".toList [2] 0 .noFault (by decide),
    by decide, by decide, by decide, by decide⟩

/-! ## Entries of one base name in Unzip -/

/-- C24: in `Unzip`, a file entry stored as a parent directory `p` (its
`filepath.Dir`), a slash and a base name, in which `p` does not occur again
after its leading occurrence, has the destination made of the extraction root,
a slash and the base name: the parent directory plays no part. Two such file
entries with the parent directories `p1` and `p2` and the same base name are
written to the same path, and the file there ends with the bytes of the later
entry. -/
theorem Unzip_same_base_name (ok : Str → Bool) (src p1 p2 base : Str) (d1 d2 : List Nat)
    (hdir1 : Dir (p1 ++ '/' :: base) = p1) (hdir2 : Dir (p2 ++ '/' :: base) = p2)
    (hp1 : p1 ≠ []) (hp2 : p2 ≠ [])
    (honce1 : ¬ p1 <:+: '/' :: base) (honce2 : ¬ p2 <:+: '/' :: base)
    (hok : creatable ok (fnExtractOf src ComSingleFileFormat ++ '/' :: base) = true) :
    unzipDest (fnExtractOf src ComSingleFileFormat) (p1 ++ '/' :: base) =
      fnExtractOf src ComSingleFileFormat ++ '/' :: base ∧
    unzipDest (fnExtractOf src ComSingleFileFormat) (p2 ++ '/' :: base) =
      fnExtractOf src ComSingleFileFormat ++ '/' :: base ∧
    (Unzip ok [⟨p1 ++ '/' :: base, false, d1⟩, ⟨p2 ++ '/' :: base, false, d2⟩] src).log =
      [.mkdirAll (fnExtractOf src ComSingleFileFormat),
        .write (fnExtractOf src ComSingleFileFormat ++ '/' :: base) d1,
        .write (fnExtractOf src ComSingleFileFormat ++ '/' :: base) d2] ∧
    fileAt (Unzip ok [⟨p1 ++ '/' :: base, false, d1⟩, ⟨p2 ++ '/' :: base, false, d2⟩] src).log
      (fnExtractOf src ComSingleFileFormat ++ '/' :: base) = some d2 := by
  have h1 : unzipDest (fnExtractOf src ComSingleFileFormat) (p1 ++ '/' :: base) =
      fnExtractOf src ComSingleFileFormat ++ '/' :: base := by
    unfold unzipDest FromSlash
    rw [hdir1]
    exact extractFileTo_leading_once p1 _ _ hp1 honce1
  have h2 : unzipDest (fnExtractOf src ComSingleFileFormat) (p2 ++ '/' :: base) =
      fnExtractOf src ComSingleFileFormat ++ '/' :: base := by
    unfold unzipDest FromSlash
    rw [hdir2]
    exact extractFileTo_leading_once p2 _ _ hp2 honce2
  have hlog : (Unzip ok
      [⟨p1 ++ '/' :: base, false, d1⟩, ⟨p2 ++ '/' :: base, false, d2⟩] src).log =
      [.mkdirAll (fnExtractOf src ComSingleFileFormat),
        .write (fnExtractOf src ComSingleFileFormat ++ '/' :: base) d1,
        .write (fnExtractOf src ComSingleFileFormat ++ '/' :: base) d2] := by
    simp [Unzip, unzipEntries, h1, h2, hok]
  refine ⟨h1, h2, hlog, ?_⟩
  rw [hlog]
  simp [fileAt, fileStep]

/-- C24, at the entries `/a/x.txt` and `/b/x.txt` of the archive `/d/x.zip`:
both are written to `/d/x/x.txt`, which ends with the bytes of the second. -/
theorem Unzip_same_base_name_witness :
    Dir ("/a".toList ++ '/' :: "x.txt".toList) = "/a".toList ∧
    Dir ("/b".toList ++ '/' :: "x.txt".toList) = "/b".toList ∧
    fnExtractOf "/d/x.zip".toList ComSingleFileFormat ++ '/' :: "x.txt".toList =
      "/d/x/x.txt".toList ∧
    fileAt (Unzip (fun _ => true)
      [⟨"/a".toList ++ '/' :: "x.txt".toList, false, [1]⟩,
        ⟨"/b".toList ++ '/' :: "x.txt".toList, false, [2, 2]⟩] "/d/x.zip".toList).log
      (fnExtractOf "/d/x.zip".toList ComSingleFileFormat ++ '/' :: "x.txt".toList) =
      some [2, 2] :=
  ⟨by decide, by decide, by decide,
    (Unzip_same_base_name (fun _ => true) "/d/x.zip".toList "/a".toList "/b".toList
      "x.txt".toList [1] [2, 2] (by decide) (by decide) (by decide) (by decide)
      (by decide) (by decide) (by decide)).2.2.2⟩

/-! ## A file entry before the first directory entry in ExtractTarGz -/

/-- With enough replacements allowed, the replacement of the empty string puts
`new` before every character and after the last one. -/
theorem insertEach_all (new : Str) (name : Str) :
    ∀ k : Nat, name.length < k →
      insertEach new k name = name.flatMap (fun c => new ++ [c]) ++ new := by
  induction name with
  | nil =>
    intro k hk
    cases k with
    | zero => simp at hk
    | succ k => simp [insertEach]
  | cons c t ih =>
    intro k hk
    cases k with
    | zero => simp at hk
    | succ k =>
      have ht : t.length < k := by
        simp only [List.length_cons] at hk
        omega
      simp [insertEach, ih k ht]

/-- The number of characters of a text with `new` put before every character
and after the last one. -/
theorem length_interleaved (new : Str) (name : Str) :
    (name.flatMap (fun c => new ++ [c]) ++ new).length =
      name.length + name.length * new.length + new.length := by
  induction name with
  | nil => simp
  | cons c t ih =>
    simp only [List.flatMap_cons, List.append_assoc, List.length_append, List.length_cons,
      List.length_nil] at ih ⊢
    rw [Nat.succ_mul]
    omega

/-- The rewrite of `ExtractTarGz` with an empty original root. -/
theorem extractFileTo_empty_root (name fnExtract : Str) :
    extractFileTo name [] fnExtract = name.flatMap (fun c => fnExtract ++ [c]) ++ fnExtract := by
  have hc : Contains name [] = true := by
    cases name <;> simp [Contains, Index]
  unfold extractFileTo
  rw [if_pos hc]
  unfold Replace
  by_cases hnew : fnExtract = []
  · subst hnew
    simp
  · have h1 : ¬ (([] : Str) = fnExtract ∨ (-1 : Int) = 0) := by
      rintro (h | h)
      · exact hnew h.symm
      · omega
    rw [if_neg h1]
    simp only [Int.reduceNeg, Int.reduceLT, if_true]
    exact insertEach_all fnExtract name _ (Nat.lt_succ_self _)

/-- C25: in `ExtractTarGz`, a regular-file entry met while the original root is
still the empty string, as it is from the start until the first directory
entry, is rewritten by replacing the empty string throughout its stored name:
its destination is the stored name with the extraction root put before each of
its characters and after the last one. For a non-empty name and a non-empty
extraction root this is not the extraction root followed by the stored name.
When the destination can be created the file is written there, and the
original root and the directory counter are passed on unchanged. -/
theorem ExtractTarGz_file_before_directory (ok : Str → Bool) (src name : Str)
    (data : List Nat) (more : List TarEntry) (counter : Int) :
    extractFileTo (FromSlash name) [] (fnExtractOf src ComFileFormat) =
      name.flatMap (fun c => fnExtractOf src ComFileFormat ++ [c]) ++
        fnExtractOf src ComFileFormat ∧
    (name ≠ [] → fnExtractOf src ComFileFormat ≠ [] →
      extractFileTo (FromSlash name) [] (fnExtractOf src ComFileFormat) ≠
        fnExtractOf src ComFileFormat ++ name) ∧
    (creatable ok (extractFileTo (FromSlash name) [] (fnExtractOf src ComFileFormat)) = true →
      (extractEntries ok (fnExtractOf src ComFileFormat)
          (⟨name, .TypeReg, data⟩ :: more) [] counter).log =
        .write (name.flatMap (fun c => fnExtractOf src ComFileFormat ++ [c]) ++
            fnExtractOf src ComFileFormat) data ::
          (extractEntries ok (fnExtractOf src ComFileFormat) more [] counter).log ∧
      (ExtractTarGz ok (⟨name, .TypeReg, data⟩ :: more) src).log =
        .mkdirAll (fnExtractOf src ComFileFormat) ::
          .write (name.flatMap (fun c => fnExtractOf src ComFileFormat ++ [c]) ++
            fnExtractOf src ComFileFormat) data ::
          (extractEntries ok (fnExtractOf src ComFileFormat) more [] 0).log) := by
  have hdest := extractFileTo_empty_root name (fnExtractOf src ComFileFormat)
  refine ⟨hdest, ?_, ?_⟩
  · intro hname hroot heq
    have hlen := congrArg List.length heq
    unfold FromSlash at hlen
    rw [hdest, length_interleaved, List.length_append] at hlen
    have h1 : 0 < name.length := List.length_pos.mpr hname
    have h2 : 0 < (fnExtractOf src ComFileFormat).length := List.length_pos.mpr hroot
    have h3 := Nat.mul_pos h1 h2
    omega
  · intro hok
    unfold FromSlash at hok
    constructor
    · simp only [extractEntries, FromSlash, hok, Bool.true_eq_false, if_false]
      rw [hdest]
    · simp only [ExtractTarGz, extractEntries, FromSlash, hok, Bool.true_eq_false, if_false]
      rw [hdest]

/-- C25, at the archive `/o.tar.gz` whose first entry is the file `ab`: the
file is written to `/oa/ob/o`, not to `/o/ab` or `/oab`. -/
theorem ExtractTarGz_file_before_directory_witness :
    "ab".toList ≠ [] ∧ fnExtractOf "/o.tar.gz".toList ComFileFormat ≠ [] ∧
    (ExtractTarGz (fun _ => true) [⟨"ab".toList, .TypeReg, [1]⟩] "/o.tar.gz".toList).log =
      [.mkdirAll "/o".toList, .write "/oa/ob/o".toList [1]] ∧
    extractFileTo (FromSlash "ab".toList) [] (fnExtractOf "/o.tar.gz".toList ComFileFormat) ≠
      fnExtractOf "/o.tar.gz".toList ComFileFormat ++ "ab".toList :=
  ⟨by decide, by decide, by decide,
    (ExtractTarGz_file_before_directory (fun _ => true) "/o.tar.gz".toList "ab".toList [1] []
      0).2.1 (by decide) (by decide)⟩

/-! ## Cleaned paths -/

/-- The function `path.Clean` writes a path from its kept elements. -/
theorem Clean_eq_render (path : Str) : Clean path = render (rootedOf path) (stackOf path) := by
  by_cases h : path = []
  · subst h
    decide
  · simp only [Clean, h, if_false, render, rootedOf, stackOf]

/-- A path has at least one element, possibly empty. -/
theorem splitSlash_ne_nil (p : Str) : splitSlash p ≠ [] := by
  cases p with
  | nil => simp [splitSlash]
  | cons c t =>
    unfold splitSlash
    split
    · simp
    · split <;> simp

/-- A leading slash starts a new, empty element. -/
theorem splitSlash_cons_slash (t : Str) : splitSlash ('/' :: t) = [] :: splitSlash t := by
  conv_lhs => unfold splitSlash
  cases h : splitSlash t with
  | nil => exact absurd h (splitSlash_ne_nil t)
  | cons seg segs => simp

/-- A leading character other than the slash joins the first element. -/
theorem splitSlash_cons_other (c : Char) (t : Str) (hc : c ≠ '/') (seg : Str) (segs : List Str)
    (h : splitSlash t = seg :: segs) : splitSlash (c :: t) = (c :: seg) :: segs := by
  conv_lhs => unfold splitSlash
  simp [h, hc]

/-- A path without a slash is one element. -/
theorem splitSlash_plain (n : Str) (h : '/' ∉ n) : splitSlash n = [n] := by
  induction n with
  | nil => rfl
  | cons c t ih =>
    simp only [List.mem_cons, not_or] at h
    exact splitSlash_cons_other c t (fun e => h.1 e.symm) t [] (ih h.2)

/-- The elements of two paths joined by a slash are those of the first, then
those of the second. -/
theorem splitSlash_append (a b : Str) :
    splitSlash (a ++ '/' :: b) = splitSlash a ++ splitSlash b := by
  induction a with
  | nil =>
    rw [List.nil_append, splitSlash_cons_slash]
    rfl
  | cons c t ih =>
    cases h : splitSlash t with
    | nil => exact absurd h (splitSlash_ne_nil t)
    | cons seg segs =>
      rw [h] at ih
      by_cases hc : c = '/'
      · subst hc
        rw [List.cons_append, splitSlash_cons_slash, splitSlash_cons_slash, ih, h]
        rfl
      · rw [List.cons_append, splitSlash_cons_other c _ hc seg (segs ++ splitSlash b) ih,
          splitSlash_cons_other c t hc seg segs h]
        rfl

/-- No element of a path holds a slash. -/
theorem splitSlash_slashfree (p : Str) : ∀ s ∈ splitSlash p, '/' ∉ s := by
  induction p with
  | nil => simp [splitSlash]
  | cons c t ih =>
    cases h : splitSlash t with
    | nil => exact absurd h (splitSlash_ne_nil t)
    | cons seg segs =>
      rw [h] at ih
      by_cases hc : c = '/'
      · subst hc
        rw [splitSlash_cons_slash, h]
        intro s hs
        rcases List.mem_cons.mp hs with rfl | hs
        · simp
        · exact ih s hs
      · rw [splitSlash_cons_other c t hc seg segs h]
        intro s hs
        rcases List.mem_cons.mp hs with rfl | hs
        · have := ih seg (List.mem_cons_self _ _)
          simp only [List.mem_cons, not_or]
          exact ⟨fun e => hc e.symm, this⟩
        · exact ih s (List.mem_cons_of_mem _ hs)

/-- One element joined by slashes is the element. -/
theorem intercalate_singleton (x : Str) : List.intercalate ['/'] [x] = x := by
  simp [List.intercalate, List.intersperse]

/-- Elements joined by slashes: the first, a slash, and the others joined. -/
theorem intercalate_cons_cons (x y : Str) (zs : List Str) :
    List.intercalate ['/'] (x :: y :: zs) = x ++ '/' :: List.intercalate ['/'] (y :: zs) := by
  simp [List.intercalate, List.intersperse]

/-- Elements without a slash, joined by slashes, are the elements of the
result. -/
theorem splitSlash_intercalate (L : List Str) (hne : L ≠ []) (hs : ∀ s ∈ L, '/' ∉ s) :
    splitSlash (List.intercalate ['/'] L) = L := by
  induction L with
  | nil => exact absurd rfl hne
  | cons x rest ih =>
    cases rest with
    | nil =>
      rw [intercalate_singleton]
      exact splitSlash_plain x (hs x (List.mem_cons_self _ _))
    | cons y zs =>
      rw [intercalate_cons_cons, splitSlash_append,
        splitSlash_plain x (hs x (List.mem_cons_self _ _)),
        ih (by simp) (fun s h => hs s (List.mem_cons_of_mem _ h))]
      rfl

/-- What makes a name the name of a directory entry. -/
theorem plainName_iff (n : Str) :
    plainName n = true ↔ n ≠ [] ∧ '/' ∉ n ∧ n ≠ ['.'] ∧ n ≠ ['.', '.'] := by
  simp only [plainName, Bool.and_eq_true, decide_eq_true_eq]
  tauto

/-- The function `path.Clean` keeps the name of a directory entry. -/
theorem cleanStep_plain (r : Bool) (out : List Str) (n : Str) (h : plainName n = true) :
    cleanStep r out n = n :: out := by
  rw [plainName_iff] at h
  simp [cleanStep, h.1, h.2.2.1, h.2.2.2]

/-- One step of `path.Clean` keeps the kept elements those of a cleaned path. -/
theorem goodStack_cleanStep (r : Bool) (out : List Str) (seg : Str)
    (hg : goodStack r out) (hs : '/' ∉ seg) : goodStack r (cleanStep r out seg) := by
  unfold cleanStep
  by_cases h1 : seg = [] ∨ seg = ['.']
  · simp only [h1, if_true]
    exact hg
  · simp only [h1, if_false]
    by_cases h2 : seg = ['.', '.']
    · simp only [h2, if_true]
      cases out with
      | nil =>
        cases r with
        | true => simp [goodStack]
        | false => simp [goodStack]
      | cons top below =>
        by_cases h3 : top = ['.', '.']
        · simp only [h3, if_true]
          subst h3
          obtain ⟨hr, hall⟩ := hg.2.1 rfl
          refine ⟨by simp, fun _ => ⟨hr, ?_⟩, hg⟩
          intro x hx
          rcases List.mem_cons.mp hx with rfl | hx
          · rfl
          · exact hall x hx
        · simp only [h3, if_false]
          exact hg.2.2
    · simp only [h2, if_false]
      simp only [not_or] at h1
      exact ⟨⟨h1.1, h1.2, hs⟩, fun e => absurd e h2, hg⟩

/-- The steps of `path.Clean` keep the kept elements those of a cleaned path. -/
theorem goodStack_foldl (r : Bool) (segs : List Str) (hs : ∀ s ∈ segs, '/' ∉ s) :
    ∀ out : List Str, goodStack r out → goodStack r (segs.foldl (cleanStep r) out) := by
  induction segs with
  | nil => intro out h; exact h
  | cons s rest ih =>
    intro out h
    exact ih (fun x hx => hs x (List.mem_cons_of_mem _ hx)) _
      (goodStack_cleanStep r out s h (hs s (List.mem_cons_self _ _)))

/-- The elements `path.Clean` keeps are those of a cleaned path. -/
theorem goodStack_stackOf (p : Str) : goodStack (rootedOf p) (stackOf p) :=
  goodStack_foldl _ _ (splitSlash_slashfree p) [] trivial

/-- A name of a directory entry added to a cleaned path gives a cleaned path. -/
theorem goodStack_push (r : Bool) (S : List Str) (n : Str) (hn : plainName n = true)
    (hg : goodStack r S) : goodStack r (n :: S) := by
  rw [plainName_iff] at hn
  exact ⟨⟨hn.1, hn.2.2.1, hn.2.1⟩, fun e => absurd e hn.2.2.2, hg⟩

/-- Names of directory entries added to a cleaned path give a cleaned path. -/
theorem goodStack_append (r : Bool) (names S : List Str) (hn : ∀ n ∈ names, plainName n = true)
    (hg : goodStack r S) : goodStack r (names ++ S) := by
  induction names with
  | nil => exact hg
  | cons n rest ih =>
    exact goodStack_push r _ n (hn n (List.mem_cons_self _ _))
      (ih (fun x hx => hn x (List.mem_cons_of_mem _ hx)))

/-- No element of a cleaned path is empty, `.` or holds a slash. -/
theorem goodStack_mem (r : Bool) (S : List Str) (hg : goodStack r S) :
    ∀ e ∈ S, e ≠ [] ∧ e ≠ ['.'] ∧ '/' ∉ e := by
  induction S with
  | nil => intro e he; simp at he
  | cons x rest ih =>
    intro e he
    rcases List.mem_cons.mp he with rfl | he
    · exact hg.1
    · exact ih hg.2.2 e he

/-- Cleaning the elements of a cleaned path again gives them back. -/
theorem refold (r : Bool) (S : List Str) (hg : goodStack r S) :
    S.reverse.foldl (cleanStep r) [] = S := by
  induction S with
  | nil => rfl
  | cons e below ih =>
    rw [List.reverse_cons, List.foldl_append, ih hg.2.2]
    simp only [List.foldl_cons, List.foldl_nil]
    obtain ⟨⟨h1, h2, _⟩, hdd, _⟩ := hg
    unfold cleanStep
    simp only [h1, h2, or_self, if_false]
    by_cases h3 : e = ['.', '.']
    · obtain ⟨hr, hall⟩ := hdd h3
      simp only [h3, if_true]
      cases below with
      | nil => simp [hr]
      | cons top rest =>
        have := hall top (List.mem_cons_self _ _)
        simp [this]
    · simp only [h3, if_false]

/-- Elements that are not empty, joined by slashes, give a path that is not
empty. -/
theorem intercalate_ne_nil (L : List Str) (hne : L ≠ []) (h : ∀ s ∈ L, s ≠ []) :
    List.intercalate ['/'] L ≠ [] := by
  cases L with
  | nil => exact absurd rfl hne
  | cons x rest =>
    cases rest with
    | nil =>
      rw [intercalate_singleton]
      exact h x (List.mem_cons_self _ _)
    | cons y zs =>
      rw [intercalate_cons_cons]
      simp

/-- Elements joined by slashes begin as the first element does. -/
theorem intercalate_head (L : List Str) (x : Str) (rest : List Str) (hL : L = x :: rest)
    (hx : x ≠ []) : (List.intercalate ['/'] L).head? = x.head? := by
  subst hL
  cases rest with
  | nil => rw [intercalate_singleton]
  | cons y zs =>
    rw [intercalate_cons_cons]
    cases x with
    | nil => exact absurd rfl hx
    | cons c t => rfl

/-- A cleaned path is rooted exactly when it was written as rooted. -/
theorem rootedOf_render (r : Bool) (S : List Str) (hg : goodStack r S) :
    rootedOf (render r S) = r := by
  cases r with
  | true => simp [render, rootedOf]
  | false =>
    simp only [render, Bool.false_eq_true, if_false]
    by_cases hb : List.intercalate ['/'] S.reverse = []
    · simp only [hb, if_true]
      decide
    · simp only [hb, if_false]
      cases hS : S.reverse with
      | nil => rw [hS] at hb; exact absurd rfl hb
      | cons x rest =>
        have hx : x ∈ S := by
          rw [← List.mem_reverse, hS]
          exact List.mem_cons_self _ _
        obtain ⟨h1, _, h3⟩ := goodStack_mem _ S hg x hx
        unfold rootedOf
        rw [intercalate_head _ x rest rfl h1]
        cases x with
        | nil => exact absurd rfl h1
        | cons c t =>
          simp only [List.mem_cons, not_or] at h3
          simp only [List.head?_cons, beq_eq_false_iff_ne, ne_eq, Option.some.injEq]
          exact fun e => h3.1 e.symm

/-- The elements `path.Clean` keeps of a cleaned path are its elements: cleaning
again changes nothing. -/
theorem stackOf_render (r : Bool) (S : List Str) (hg : goodStack r S) :
    stackOf (render r S) = S := by
  unfold stackOf
  rw [rootedOf_render r S hg]
  by_cases hS : S = []
  · subst hS
    cases r <;> decide
  · have hne : S.reverse ≠ [] := by simpa using hS
    have hsl : ∀ s ∈ S.reverse, '/' ∉ s := fun s hs =>
      (goodStack_mem _ S hg s (List.mem_reverse.mp hs)).2.2
    have hnn : ∀ s ∈ S.reverse, s ≠ [] := fun s hs =>
      (goodStack_mem _ S hg s (List.mem_reverse.mp hs)).1
    cases r with
    | true =>
      simp only [render, if_true]
      rw [splitSlash_cons_slash, splitSlash_intercalate _ hne hsl]
      simp only [List.foldl_cons]
      have : cleanStep true [] [] = [] := by decide
      rw [this]
      exact refold true S hg
    | false =>
      simp only [render, Bool.false_eq_true, if_false, intercalate_ne_nil _ hne hnn]
      rw [splitSlash_intercalate _ hne hsl]
      exact refold false S hg

/-- The function `path.Join` of a path and a name: the name is added to the elements of the
cleaned path. -/
theorem Join_plain (a n : Str) (hn : plainName n = true) :
    Join a n = render (rootedOf a) (n :: stackOf a) := by
  have hn2 := (plainName_iff n).mp hn
  by_cases ha : a = []
  · subst ha
    have h1 : Join [] n = Clean n := by simp [Join, hn2.1]
    rw [h1, Clean_eq_render]
    have h2 : rootedOf n = false := by
      cases n with
      | nil => exact absurd rfl hn2.1
      | cons c t =>
        have := hn2.2.1
        simp only [List.mem_cons, not_or] at this
        simp only [rootedOf, List.head?_cons, beq_eq_false_iff_ne, ne_eq, Option.some.injEq]
        exact fun e => this.1 e.symm
    have h3 : stackOf n = [n] := by
      unfold stackOf
      rw [splitSlash_plain n hn2.2.1]
      simp only [List.foldl_cons, List.foldl_nil]
      exact cleanStep_plain _ _ _ hn
    rw [h2, h3]
    rfl
  · have h1 : Join a n = Clean (a ++ '/' :: n) := by simp [Join, ha]
    rw [h1, Clean_eq_render]
    have h2 : rootedOf (a ++ '/' :: n) = rootedOf a := by
      cases a with
      | nil => exact absurd rfl ha
      | cons c t => rfl
    have h3 : stackOf (a ++ '/' :: n) = n :: stackOf a := by
      unfold stackOf
      rw [h2, splitSlash_append, List.foldl_append, splitSlash_plain n hn2.2.1]
      simp only [List.foldl_cons, List.foldl_nil]
      exact cleanStep_plain _ _ _ hn
    rw [h2, h3]

/-- The path reached from `a` through plain names: the names are added to the
elements of the cleaned path `a`. -/
theorem srcPath_render (names : List Str) :
    ∀ a : Str, names ≠ [] → (∀ n ∈ names, plainName n = true) →
      srcPath a names = render (rootedOf a) (names.reverse ++ stackOf a) := by
  induction names with
  | nil => intro a h; exact absurd rfl h
  | cons n rest ih =>
    intro a _ hp
    have hn := hp n (List.mem_cons_self _ _)
    have hg : goodStack (rootedOf a) (n :: stackOf a) :=
      goodStack_push _ _ n hn (goodStack_stackOf a)
    by_cases hr : rest = []
    · subst hr
      simp only [srcPath, List.foldl_cons, List.foldl_nil, List.reverse_cons, List.reverse_nil,
        List.nil_append, List.singleton_append]
      exact Join_plain a n hn
    · have h := ih (Join a n) hr (fun x hx => hp x (List.mem_cons_of_mem _ hx))
      rw [Join_plain a n hn, rootedOf_render _ _ hg, stackOf_render _ _ hg] at h
      simp only [srcPath, List.foldl_cons] at h ⊢
      rw [Join_plain a n hn, h]
      simp

/-- A path reached through plain names is a cleaned path. -/
theorem Clean_srcPath (a : Str) (p : List Str) (hp : ∀ n ∈ p, plainName n = true)
    (hpn : p ≠ []) : Clean (srcPath a p) = srcPath a p := by
  have hg : goodStack (rootedOf a) (p.reverse ++ stackOf a) :=
    goodStack_append _ _ _ (fun n hn => hp n (List.mem_reverse.mp hn)) (goodStack_stackOf a)
  rw [srcPath_render p a hpn hp, Clean_eq_render, rootedOf_render _ _ hg, stackOf_render _ _ hg]

/-- Paths reached from one directory through different lists of plain names
are different. -/
theorem srcPath_injective (a : Str) (p q : List Str) (hp : ∀ n ∈ p, plainName n = true)
    (hq : ∀ n ∈ q, plainName n = true) (hpn : p ≠ []) (hqn : q ≠ [])
    (h : srcPath a p = srcPath a q) : p = q := by
  rw [srcPath_render p a hpn hp, srcPath_render q a hqn hq] at h
  have hgp : goodStack (rootedOf a) (p.reverse ++ stackOf a) :=
    goodStack_append _ _ _ (fun n hn => hp n (List.mem_reverse.mp hn)) (goodStack_stackOf a)
  have hgq : goodStack (rootedOf a) (q.reverse ++ stackOf a) :=
    goodStack_append _ _ _ (fun n hn => hq n (List.mem_reverse.mp hn)) (goodStack_stackOf a)
  have h2 := congrArg stackOf h
  rw [stackOf_render _ _ hgp, stackOf_render _ _ hgq] at h2
  have h3 := List.append_cancel_right h2
  exact List.reverse_injective h3

/-- Paths reached through the same plain names from two directories with
different elements are different. -/
theorem srcPath_separate (a b : Str) (p : List Str) (hp : ∀ n ∈ p, plainName n = true)
    (hpn : p ≠ []) (h : srcPath a p = srcPath b p) :
    rootedOf a = rootedOf b ∧ stackOf a = stackOf b := by
  rw [srcPath_render p a hpn hp, srcPath_render p b hpn hp] at h
  have hga : goodStack (rootedOf a) (p.reverse ++ stackOf a) :=
    goodStack_append _ _ _ (fun n hn => hp n (List.mem_reverse.mp hn)) (goodStack_stackOf a)
  have hgb : goodStack (rootedOf b) (p.reverse ++ stackOf b) :=
    goodStack_append _ _ _ (fun n hn => hp n (List.mem_reverse.mp hn)) (goodStack_stackOf b)
  have h1 := congrArg rootedOf h
  rw [rootedOf_render _ _ hga, rootedOf_render _ _ hgb] at h1
  have h2 := congrArg stackOf h
  rw [stackOf_render _ _ hga, stackOf_render _ _ hgb] at h2
  exact ⟨h1, List.append_cancel_left h2⟩

/-! ## CopyDir on a whole directory -/

/-- The files written by two sequences of changes in a row. -/
theorem writesOf_append (l1 l2 : List Effect) :
    writesOf (l1 ++ l2) = writesOf l1 ++ writesOf l2 := by
  induction l1 with
  | nil => rfl
  | cons e rest ih =>
    cases e with
    | mkdirAll p => simpa [writesOf] using ih
    | write p d => simpa [writesOf] using ih

/-- The content of a file after a sequence of changes is decided by the writes
alone. -/
theorem foldl_fileStep_writesOf (path : Str) (log : List Effect) :
    ∀ cur : Option (List Nat),
      log.foldl (fileStep path) cur =
        ((writesOf log).map (fun x => Effect.write x.1 x.2)).foldl (fileStep path) cur := by
  induction log with
  | nil => intro cur; rfl
  | cons e rest ih =>
    intro cur
    cases e with
    | mkdirAll p => simpa [writesOf, fileStep] using ih cur
    | write p d => simpa [writesOf, fileStep] using ih _

/-- The number of entries of a listing is the number of its files and folders. -/
theorem entries_eq (fds : Listing) :
    fds.entries = (fds.files.length : Int) + (fds.dirs.length : Int) := by
  induction fds with
  | nil => rfl
  | file name data mtime fault rest ih =>
    simp only [Listing.entries, Listing.files, Listing.dirs, List.length_cons, ih]
    push_cast
    ring
  | dir name fault kids rest ihk ihr =>
    simp only [Listing.entries, Listing.files, Listing.dirs, List.length_cons,
      List.length_append, List.length_map, ihk, ihr, List.cons_append]
    push_cast
    ring

/-- The loop of `CopyDir` with no pattern, over a listing on which no call
fails and none of whose files is copied onto itself: the listing is recreated,
no error is left, each counter rises by the number of files and of folders,
the files written are the files of the listing in order, each at its
destination with its bytes, every folder of the listing is created, and every
folder created is `dst` or the destination of a folder of the listing. -/
theorem copyChildren_whole (fds : Listing) :
    ∀ (src dst : Str) (st : Counters), fds.faultFree = true →
      (∀ x ∈ fds.files, Clean (srcPath dst x.1) ≠ Clean (srcPath src x.1)) →
      (copyChildren [] src dst fds none st).made = fds.toTree ∧
      (copyChildren [] src dst fds none st).err = none ∧
      (copyChildren [] src dst fds none st).st.NumFilesCopied =
        st.NumFilesCopied + (fds.files.length : Int) ∧
      (copyChildren [] src dst fds none st).st.NumFoldersCopied =
        st.NumFoldersCopied + (fds.dirs.length : Int) ∧
      writesOf (copyChildren [] src dst fds none st).log =
        fds.files.map (fun x => (srcPath dst x.1, x.2)) ∧
      (∀ d ∈ fds.dirs,
        Effect.mkdirAll (srcPath dst d) ∈ (copyChildren [] src dst fds none st).log) ∧
      (∀ p : Str, Effect.mkdirAll p ∈ (copyChildren [] src dst fds none st).log →
        p = dst ∨ ∃ d ∈ fds.dirs, p = srcPath dst d) := by
  induction fds with
  | nil =>
    intro src dst st _ _
    simp [copyChildren, Listing.toTree, Listing.files, Listing.dirs, writesOf]
  | file name data mtime fault rest ih =>
    intro src dst st hf hself
    simp only [Listing.faultFree, Bool.and_eq_true, decide_eq_true_eq] at hf
    obtain ⟨hfault, hrest⟩ := hf
    subst hfault
    have hne : Clean (Join dst name) ≠ Clean (Join src name) :=
      hself ([name], data) (by simp [Listing.files])
    obtain ⟨h1, h2, h3, h4, h5, h6, h7⟩ :=
      ih src dst { st with NumFilesCopied := st.NumFilesCopied + 1 } hrest
        (fun x hx => hself x (by simp [Listing.files, hx]))
    simp only [copyChildren, continue_nil, CopyFile, readAfterCreate, hne, Listing.toTree,
      Listing.files, Listing.dirs, Bool.false_eq_true, if_false, if_true]
    refine ⟨by rw [h1], h2, ?_, h4, ?_, ?_, ?_⟩
    · rw [h3]
      simp only [List.length_cons]
      push_cast
      ring
    · simp only [List.cons_append, List.nil_append, List.append_eq, writesOf, h5, List.map_cons]
      rfl
    · intro d hd
      exact List.mem_append_right _ (h6 d hd)
    · intro p hp
      simp only [List.cons_append, List.nil_append, List.mem_cons, Effect.mkdirAll.injEq,
        reduceCtorEq, false_or] at hp
      rcases hp with hp | hp
      · exact Or.inl hp
      · exact h7 p hp
  | dir name fault kids rest ihk ihr =>
    intro src dst st hf hself
    simp only [Listing.faultFree, Bool.and_eq_true, decide_eq_true_eq] at hf
    obtain ⟨⟨hfault, hkids⟩, hrest⟩ := hf
    subst hfault
    obtain ⟨k1, k2, k3, k4, k5, k6, k7⟩ := ihk (Join src name) (Join dst name) st hkids
      (fun x hx => hself (name :: x.1, x.2) (by
        simp only [Listing.files, List.mem_append, List.mem_map]
        exact Or.inl ⟨x, hx, rfl⟩))
    obtain ⟨h1, h2, h3, h4, h5, h6, h7⟩ := ihr src dst
      { (copyChildren [] (Join src name) (Join dst name) kids none st).st with
        NumFoldersCopied :=
          (copyChildren [] (Join src name) (Join dst name) kids none st).st.NumFoldersCopied + 1 }
      hrest (fun x hx => hself x (by simp [Listing.files, hx]))
    simp only [copyChildren, continue_nil, copyDirAround, Listing.toTree, Listing.files,
      Listing.dirs, Bool.false_eq_true, if_false, k2, if_true]
    refine ⟨by rw [h1, k1], h2, ?_, ?_, ?_, ?_, ?_⟩
    · rw [h3]
      simp only [k3, List.length_append, List.length_map]
      push_cast
      ring
    · rw [h4]
      simp only [k4, List.length_append, List.length_map, List.length_cons, List.cons_append]
      push_cast
      ring
    · rw [List.cons_append, writesOf, writesOf_append, k5, h5, List.map_append, List.map_map]
      rfl
    · intro d hd
      simp only [List.cons_append, List.mem_cons, List.mem_append, List.mem_map] at hd
      rcases hd with hd | hd | hd
      · subst hd
        exact List.mem_append_left _ (List.mem_cons_self _ _)
      · obtain ⟨q, hq, rfl⟩ := hd
        exact List.mem_append_left _ (List.mem_cons_of_mem _ (k6 q hq))
      · exact List.mem_append_right _ (h6 d hd)
    · intro p hp
      rcases List.mem_append.mp hp with hp | hp
      · rcases List.mem_cons.mp hp with hp | hp
        · right
          refine ⟨[name], by simp, ?_⟩
          simpa [srcPath] using hp
        · rcases k7 p hp with hk | ⟨q, hq, hk⟩
          · right
            exact ⟨[name], by simp, by rw [hk]; rfl⟩
          · right
            refine ⟨name :: q, ?_, by rw [hk]; rfl⟩
            simp only [List.cons_append, List.mem_cons, List.mem_append, List.mem_map]
            exact Or.inr (Or.inl ⟨q, hq, rfl⟩)
      · rcases h7 p hp with hk | ⟨q, hq, hk⟩
        · exact Or.inl hk
        · right
          refine ⟨q, ?_, hk⟩
          simp only [List.cons_append, List.mem_cons, List.mem_append]
          exact Or.inr (Or.inr hq)

/-- Every file of a listing is reached through at least one name, the first of
which is the name of a child. -/
theorem files_head (fds : Listing) :
    ∀ x ∈ fds.files, ∃ n ∈ fds.names, ∃ q, x.1 = n :: q := by
  induction fds with
  | nil => intro x hx; simp [Listing.files] at hx
  | file name data mtime fault rest ih =>
    intro x hx
    simp only [Listing.files, List.mem_cons] at hx
    rcases hx with rfl | hx
    · exact ⟨name, by simp [Listing.names], [], rfl⟩
    · obtain ⟨n, hn, q, hq⟩ := ih x hx
      exact ⟨n, by simp [Listing.names, hn], q, hq⟩
  | dir name fault kids rest _ ihr =>
    intro x hx
    simp only [Listing.files, List.mem_append, List.mem_map] at hx
    rcases hx with ⟨y, _, rfl⟩ | hx
    · exact ⟨name, by simp [Listing.names], y.1, rfl⟩
    · obtain ⟨n, hn, q, hq⟩ := ihr x hx
      exact ⟨n, by simp [Listing.names, hn], q, hq⟩

/-- In a listing whose names are all names of directory entries, so are the
names that lead to each file. -/
theorem files_plain (fds : Listing) (h : fds.plainNames = true) :
    ∀ x ∈ fds.files, ∀ n ∈ x.1, plainName n = true := by
  induction fds with
  | nil => intro x hx; simp [Listing.files] at hx
  | file name data mtime fault rest ih =>
    simp only [Listing.plainNames, Bool.and_eq_true] at h
    intro x hx
    simp only [Listing.files, List.mem_cons] at hx
    rcases hx with rfl | hx
    · intro n hn
      simp only [List.mem_singleton] at hn
      rw [hn]
      exact h.1
    · exact ih h.2 x hx
  | dir name fault kids rest ihk ihr =>
    simp only [Listing.plainNames, Bool.and_eq_true] at h
    intro x hx
    simp only [Listing.files, List.mem_append, List.mem_map] at hx
    rcases hx with ⟨y, hy, rfl⟩ | hx
    · intro n hn
      rcases List.mem_cons.mp hn with rfl | hn
      · exact h.1.1
      · exact ihk h.1.2 y hy n hn
    · exact ihr h.2 x hx

/-- In a listing where no two children of a directory have the same name, no
two files are reached through the same names. -/
theorem files_pairwise (fds : Listing) (h : fds.distinctNames = true) :
    fds.files.Pairwise (fun x y => x.1 ≠ y.1) := by
  induction fds with
  | nil => simp [Listing.files]
  | file name data mtime fault rest ih =>
    simp only [Listing.distinctNames, Bool.and_eq_true, decide_eq_true_eq] at h
    simp only [Listing.files, List.pairwise_cons]
    refine ⟨?_, ih h.2⟩
    intro y hy heq
    obtain ⟨n, hn, q, hq⟩ := files_head rest y hy
    rw [hq] at heq
    simp only [List.cons.injEq] at heq
    rw [← heq.1] at hn
    exact h.1 hn
  | dir name fault kids rest ihk ihr =>
    simp only [Listing.distinctNames, Bool.and_eq_true, decide_eq_true_eq] at h
    simp only [Listing.files]
    rw [List.pairwise_append]
    refine ⟨?_, ihr h.2, ?_⟩
    · rw [List.pairwise_map]
      refine (ihk h.1.2).imp ?_
      intro x y hxy heq
      simp only [List.cons.injEq, true_and] at heq
      exact hxy heq
    · intro x hx y hy heq
      simp only [List.mem_map] at hx
      obtain ⟨z, _, rfl⟩ := hx
      obtain ⟨n, hn, q, hq⟩ := files_head rest y hy
      rw [hq] at heq
      simp only [List.cons.injEq] at heq
      rw [← heq.1] at hn
      exact h.1.1 hn

/-- Two directories that are apart do not have the same elements. -/
theorem apart_ne (src dst : Str) (h : apart src dst = true) :
    ¬ (rootedOf dst = rootedOf src ∧ stackOf dst = stackOf src) := by
  rintro ⟨h1, h2⟩
  have hp : (stackOf src).reverse.isPrefixOf (stackOf src).reverse = true :=
    List.isPrefixOf_iff_prefix.mpr (List.prefix_refl _)
  have hd : List.drop (stackOf src).length (stackOf src).reverse = [] := by simp
  simp [apart, below, h1, h2, hp, hd] at h

/-- For every source directory on which no call fails, whose names are names
of directory entries, different within each folder, and every destination
directory that is apart from the source, `CopyDir` with an empty pattern list,
started with the counters at their declared initial value, returns no error
and a folder count and a file count that are the numbers of folders and of
files below the source root, so that their sum is the number of entries. The
destination root and every folder of the source are created, and nothing else
is; the files written are the files of the source, each at the same names
under the destination; afterwards each of them holds the bytes of its source
file, and no other file was written. -/
theorem CopyDir_copies_everything (src dst : Str) (fds : Listing)
    (h : fds.faultFree = true) (hplain : fds.plainNames = true)
    (hdistinct : fds.distinctNames = true) (hapart : apart src dst = true) :
    (CopyDir [] src dst .noFault fds Counters.initial).err = none ∧
    (CopyDir [] src dst .noFault fds Counters.initial).st.NumFoldersCopied =
      (fds.dirs.length : Int) ∧
    (CopyDir [] src dst .noFault fds Counters.initial).st.NumFilesCopied =
      (fds.files.length : Int) ∧
    (CopyDir [] src dst .noFault fds Counters.initial).st.NumFoldersCopied +
      (CopyDir [] src dst .noFault fds Counters.initial).st.NumFilesCopied = fds.entries ∧
    (CopyDir [] src dst .noFault fds Counters.initial).made = some fds.toTree ∧
    Effect.mkdirAll dst ∈ (CopyDir [] src dst .noFault fds Counters.initial).log ∧
    (∀ d ∈ fds.dirs,
      Effect.mkdirAll (srcPath dst d) ∈
        (CopyDir [] src dst .noFault fds Counters.initial).log) ∧
    (∀ p : Str, Effect.mkdirAll p ∈ (CopyDir [] src dst .noFault fds Counters.initial).log →
      p = dst ∨ ∃ d ∈ fds.dirs, p = srcPath dst d) ∧
    writesOf (CopyDir [] src dst .noFault fds Counters.initial).log =
      fds.files.map (fun x => (srcPath dst x.1, x.2)) ∧
    (∀ x ∈ fds.files,
      fileAt (CopyDir [] src dst .noFault fds Counters.initial).log (srcPath dst x.1) =
        some x.2) ∧
    (∀ p : Str, (∀ x ∈ fds.files, srcPath dst x.1 ≠ p) →
      fileAt (CopyDir [] src dst .noFault fds Counters.initial).log p = none) := by
  have hne : ∀ x ∈ fds.files, x.1 ≠ [] := by
    intro x hx
    obtain ⟨n, _, q, hq⟩ := files_head fds x hx
    rw [hq]
    simp
  have hself : ∀ x ∈ fds.files, Clean (srcPath dst x.1) ≠ Clean (srcPath src x.1) := by
    intro x hx heq
    rw [Clean_srcPath dst x.1 (files_plain fds hplain x hx) (hne x hx),
      Clean_srcPath src x.1 (files_plain fds hplain x hx) (hne x hx)] at heq
    exact apart_ne src dst hapart
      (srcPath_separate dst src x.1 (files_plain fds hplain x hx) (hne x hx) heq)
  obtain ⟨c1, c2, c3, c4, c5, c6, c7⟩ := copyChildren_whole fds src dst Counters.initial h hself
  have hw : writesOf (CopyDir [] src dst .noFault fds Counters.initial).log =
      fds.files.map (fun x => (srcPath dst x.1, x.2)) := by
    simp only [CopyDir, copyDirAround, writesOf]
    exact c5
  have hfold : ∀ p : Str, fileAt (CopyDir [] src dst .noFault fds Counters.initial).log p =
      (fds.files.map (fun x => Effect.write (srcPath dst x.1) x.2)).foldl (fileStep p) none := by
    intro p
    unfold fileAt
    rw [foldl_fileStep_writesOf, hw, List.map_map]
    rfl
  have hpair : fds.files.Pairwise (fun x y => srcPath dst x.1 ≠ srcPath dst y.1) := by
    refine (files_pairwise fds hdistinct).imp_of_mem ?_
    intro x y hx hy hxy heq
    exact hxy (srcPath_injective dst x.1 y.1 (files_plain fds hplain x hx)
      (files_plain fds hplain y hy) (hne x hx) (hne y hy) heq)
  refine ⟨c2, ?_, ?_, ?_, ?_, ?_, ?_, ?_, hw, ?_, ?_⟩
  · simp only [CopyDir, copyDirAround]
    rw [c4]
    simp [Counters.initial]
  · simp only [CopyDir, copyDirAround]
    rw [c3]
    simp [Counters.initial]
  · simp only [CopyDir, copyDirAround]
    rw [c3, c4, entries_eq]
    simp only [Counters.initial]
    ring
  · simp only [CopyDir, copyDirAround]
    rw [c1]
  · simp [CopyDir, copyDirAround]
  · intro d hd
    simp only [CopyDir, copyDirAround]
    exact List.mem_cons_of_mem _ (c6 d hd)
  · intro p hp
    simp only [CopyDir, copyDirAround, List.mem_cons, Effect.mkdirAll.injEq] at hp
    rcases hp with hp | hp
    · exact Or.inl hp
    · exact c7 p hp
  · intro x hx
    rw [hfold]
    exact foldl_fileStep_mem (fun x => srcPath dst x.1) (fun x => x.2) fds.files none hpair x hx
  · intro p hp
    rw [hfold]
    exact foldl_fileStep_other (fun x => srcPath dst x.1) (fun x => x.2) p fds.files none hp

/-- The sample directory copied from `/src` to `/dst`: two folders and four
files are recreated and counted; and at a directory with an empty folder and
an empty file both are recreated. -/
theorem CopyDir_copies_everything_witness :
    sampleTree.faultFree = true ∧ sampleTree.plainNames = true ∧
    sampleTree.distinctNames = true ∧ apart "/src".toList "/dst".toList = true ∧
    (CopyDir [] "/src".toList "/dst".toList .noFault sampleTree Counters.initial).log =
      [.mkdirAll "/dst".toList, .mkdirAll "/dst".toList, .write "/dst/a.txt".toList [1, 2],
        .mkdirAll "/dst/sub".toList, .mkdirAll "/dst/sub".toList,
        .write "/dst/sub/b.db".toList [3], .mkdirAll "/dst/sub".toList,
        .write "/dst/sub/c.txt".toList [], .mkdirAll "/dst/x.db".toList,
        .mkdirAll "/dst/x.db".toList, .write "/dst/x.db/z".toList [9]] ∧
    (CopyDir [] "/src".toList "/dst".toList .noFault emptiesTree Counters.initial).log =
      [.mkdirAll "/dst".toList, .mkdirAll "/dst/empty".toList, .mkdirAll "/dst".toList,
        .write "/dst/zero".toList []] ∧
    writesOf (CopyDir [] "/src".toList "/dst".toList .noFault sampleTree Counters.initial).log =
      sampleTree.files.map (fun x => (srcPath "/dst".toList x.1, x.2)) :=
  ⟨by decide, by decide, by decide, by decide, by decide, by decide,
    (CopyDir_copies_everything "/src".toList "/dst".toList sampleTree (by decide) (by decide)
      (by decide) (by decide)).2.2.2.2.2.2.2.2.1⟩

/-- C4 (the code at the failing input): `CopyDir` from `/src` to `/src` itself,
with no pattern, on the sample directory. No call fails: the call returns no
error, 2 folders and 4 files. Every file is created again at its own path
before its bytes are read, so every file of the directory is left empty: the
file `a.txt`, which held the bytes 1 2, holds none, and so do `sub/b.db` and
`x.db/z`. -/
theorem CopyDir_onto_itself_empties_files :
    sampleTree.faultFree = true ∧
    (CopyDir [] "/src".toList "/src".toList .noFault sampleTree Counters.initial).err = none ∧
    (CopyDir [] "/src".toList "/src".toList .noFault sampleTree Counters.initial).st = ⟨4, 2⟩ ∧
    (CopyDir [] "/src".toList "/src".toList .noFault sampleTree Counters.initial).log =
      [.mkdirAll "/src".toList, .mkdirAll "/src".toList, .write "/src/a.txt".toList [],
        .mkdirAll "/src/sub".toList, .mkdirAll "/src/sub".toList,
        .write "/src/sub/b.db".toList [], .mkdirAll "/src/sub".toList,
        .write "/src/sub/c.txt".toList [], .mkdirAll "/src/x.db".toList,
        .mkdirAll "/src/x.db".toList, .write "/src/x.db/z".toList []] ∧
    sampleTree.files =
      [(["a.txt".toList], [1, 2]), (["sub".toList, "b.db".toList], [3]),
        (["sub".toList, "c.txt".toList], []), (["x.db".toList, "z".toList], [9])] ∧
    fileAt (CopyDir [] "/src".toList "/src".toList .noFault sampleTree Counters.initial).log
      "/src/a.txt".toList = some [] ∧
    fileAt (CopyDir [] "/src".toList "/src".toList .noFault sampleTree Counters.initial).log
      "/src/x.db/z".toList = some [] := by
  decide

end Gokopy
